import Mathlib

/-!
# Verification of the `nine_tiles_panic` core

A shallow embedding of the repository `136s/nine_tiles_panic` (modules
`tile.py`, `onroad.py`, `town.py`, `utils.py`), together with theorems
settling the specification claims about it.

Python mutation is rendered as explicit state passing; code paths that
raise exceptions are rendered with `Option` / `Except`.  Machine integers
are `Nat` / `Int` (Python integers are unbounded, so no wrap-around is
modelled).
-/

namespace NTP

/-- Modelled from the spec: `config.LEN_SIDE` (module `config` is not in the
source tree); the spec fixes a 3×3 grid. -/
def LEN_SIDE : Nat := 3

/-- Modelled from the spec: `config.NUM_TILE`, the nine grid positions. -/
def NUM_TILE : Nat := 9

/-- Modelled from the spec: `config.NUM_THEME`, the 26 scoring rules. -/
def NUM_THEME : Nat := 26

/-! ## `tile.py`: `Road`, `TileFace`, `Tile` -/

/-- `tile.Road`: a road between two local edges (0 top, 1 left, 2 bottom,
3 right) with an optional facing agent, optional facing alien, and a
hamburger count. -/
structure Road where
  initial_edge : Nat
  terminal_edge : Nat
  agent_face : Option Nat := none
  alien_face : Option Nat := none
  num_hamburger : Nat := 0
deriving DecidableEq, Repr

/-- `Road.rotate`: shifts every edge field by `angle` modulo 4 (in place in
Python; here the updated road is returned). -/
def Road.rotate (r : Road) (angle : Nat) : Road :=
  if angle ≠ 0 then
    { r with
      initial_edge := (r.initial_edge + angle) % 4
      terminal_edge := (r.terminal_edge + angle) % 4
      agent_face := r.agent_face.map (fun x => (x + angle) % 4)
      alien_face := r.alien_face.map (fun x => (x + angle) % 4) }
  else r

/-- `Road.get_edges`: rotates the road in place when `angle != 0` and
returns the (new) edge pair.  The mutated road is returned alongside. -/
def Road.get_edges (r : Road) (angle : Nat) : Road × List Nat :=
  let r' := if angle ≠ 0 then r.rotate angle else r
  (r', [r'.initial_edge, r'.terminal_edge])

/-- `Road.is_curve`: `bool((initial - terminal) % 2)` (Python `%` on a
possibly negative difference, hence `Int.emod`). -/
def Road.is_curve (r : Road) : Bool :=
  ((r.initial_edge : Int) - (r.terminal_edge : Int)) % 2 ≠ 0

def Road.get_num_agent (r : Road) : Nat :=
  if r.agent_face.isSome then 1 else 0

def Road.get_num_alien (r : Road) : Nat :=
  if r.alien_face.isSome then 1 else 0

/-- `tile.TileFace`: the roads of one face plus static occupant counts. -/
structure TileFace where
  roads : List Road := []
  num_dog : Nat := 0
  num_girl : Nat := 0
  num_boy : Nat := 0
  num_house : Nat := 0
  num_ufo : Nat := 0
  num_agent_offroad : Nat := 0
  num_alien_offroad_captured : Nat := 0
deriving DecidableEq, Repr

/-- `TileFace.get_edges`: calls `Road.get_edges angle` on every road (so a
non-zero angle rotates every road in place); returns the updated face and
the list of edge pairs. -/
def TileFace.get_edges (f : TileFace) (angle : Nat) : TileFace × List (List Nat) :=
  let pairs := f.roads.map (fun r => r.get_edges angle)
  ({ f with roads := pairs.map (·.1) }, pairs.map (·.2))

/-- `TileFace.does_have_road_edge`: `finding_edge in sum(self.get_edges(), [])`
(the call uses the default `angle = 0`, so no rotation happens). -/
def TileFace.does_have_road_edge (f : TileFace) (finding_edge : Nat) : Bool :=
  (f.get_edges 0).2.flatten.contains finding_edge

/-- `TileFace.rotate`: deep-copies the face and rotates every road. -/
def TileFace.rotate (f : TileFace) (angle : Nat) : TileFace :=
  { f with roads := f.roads.map (fun r => r.rotate angle) }

def TileFace.get_num_citizen (f : TileFace) : Nat := f.num_girl + f.num_boy

def TileFace.get_num_agent (f : TileFace) : Nat :=
  f.roads.foldl (fun n r => n + r.get_num_agent) f.num_agent_offroad

def TileFace.alien_exist (f : TileFace) : Bool :=
  if f.num_alien_offroad_captured > 0 then true
  else f.roads.any (fun r => r.get_num_alien > 0)

/-- `tile.Tile`: a front face and an (always supplied in the catalog, but
optional) back face. -/
structure Tile where
  front_face : TileFace
  back_face : Option TileFace := none
deriving DecidableEq, Repr

/-- `Tile.get_face`: select front or back and rotate; selecting an absent
back face raises (`none`). -/
def Tile.get_face (t : Tile) (is_front : Bool) (angle : Nat) : Option TileFace :=
  if is_front then some (t.front_face.rotate angle)
  else t.back_face.map (fun f => f.rotate angle)

/-- `Tile.get_original`: the nine real game tiles. -/
def Tile.get_original : List Tile :=
  [ -- Tile number: 0
    { front_face := { num_dog := 2, num_agent_offroad := 1, num_alien_offroad_captured := 1 }
      back_face := some { roads := [{ initial_edge := 0, terminal_edge := 1, num_hamburger := 1 },
                                    { initial_edge := 2, terminal_edge := 3 }], num_dog := 1 } },
    -- Tile number: 1
    { front_face := { roads := [{ initial_edge := 0, terminal_edge := 1, alien_face := some 1 }],
                      num_house := 1 }
      back_face := some { roads := [{ initial_edge := 0, terminal_edge := 2, agent_face := some 2 },
                                    { initial_edge := 1, terminal_edge := 3 }], num_dog := 1 } },
    -- Tile number: 2
    { front_face := { roads := [{ initial_edge := 0, terminal_edge := 3, agent_face := some 0 },
                                { initial_edge := 1, terminal_edge := 2 }], num_boy := 1 }
      back_face := some { roads := [{ initial_edge := 2, terminal_edge := 3, num_hamburger := 1 }],
                          num_dog := 1 } },
    -- Tile number: 3
    { front_face := { num_house := 2, num_ufo := 1 }
      back_face := some { roads := [{ initial_edge := 0, terminal_edge := 2, num_hamburger := 1 }],
                          num_house := 1 } },
    -- Tile number: 4
    { front_face := { roads := [{ initial_edge := 0, terminal_edge := 3, alien_face := some 0 },
                                { initial_edge := 1, terminal_edge := 2 }], num_house := 1 }
      back_face := some { roads := [{ initial_edge := 0, terminal_edge := 2 },
                                    { initial_edge := 1, terminal_edge := 3, num_hamburger := 1 }],
                          num_boy := 1 } },
    -- Tile number: 5
    { front_face := { roads := [{ initial_edge := 0, terminal_edge := 1, num_hamburger := 1 }],
                      num_house := 1 }
      back_face := some { num_girl := 1, num_boy := 1, num_ufo := 1 } },
    -- Tile number: 6
    { front_face := { roads := [{ initial_edge := 0, terminal_edge := 2, alien_face := some 0 },
                                { initial_edge := 1, terminal_edge := 3 }], num_house := 1 }
      back_face := some { roads := [{ initial_edge := 0, terminal_edge := 2, agent_face := some 2 }],
                          num_girl := 1 } },
    -- Tile number: 7
    { front_face := { roads := [{ initial_edge := 0, terminal_edge := 3, num_hamburger := 1 },
                                { initial_edge := 1, terminal_edge := 2 }], num_dog := 1 }
      back_face := some { roads := [{ initial_edge := 0, terminal_edge := 2, alien_face := some 2 }],
                          num_boy := 1 } },
    -- Tile number: 8
    { front_face := { roads := [{ initial_edge := 0, terminal_edge := 1, agent_face := some 1 }],
                      num_girl := 1 }
      back_face := some { roads := [{ initial_edge := 0, terminal_edge := 2, num_hamburger := 1 }],
                          num_dog := 1 } } ]

/-- `Tile.get_synonym`: the five abstract road-shape tiles (front only). -/
def Tile.get_synonym : List Tile :=
  [ { front_face := {} },
    { front_face := { roads := [{ initial_edge := 0, terminal_edge := 1 }] } },
    { front_face := { roads := [{ initial_edge := 0, terminal_edge := 1 },
                                { initial_edge := 2, terminal_edge := 3 }] } },
    { front_face := { roads := [{ initial_edge := 0, terminal_edge := 2 }] } },
    { front_face := { roads := [{ initial_edge := 0, terminal_edge := 2 },
                                { initial_edge := 1, terminal_edge := 3 }] } } ]

/-! ## `town.py`: edge canonicalization -/

/-- `Town.OUTER_EDGES`: the canonical path-graph node ids on the town's
perimeter. -/
def Town.OUTER_EDGES : List Int := [0, 4, 8, 1, 11, 13, 23, 25, 35, 26, 30, 34]

/-- `Town.INNER_EDGES`: the remaining canonical node ids (interior shared
borders). -/
def Town.INNER_EDGES : List Int := [3, 7, 2, 6, 10, 15, 19, 14, 18, 22, 27, 31]

/-- `Town.convert_edge`: remap a raw edge id `4 * position + local_edge` to
its canonical path-graph node id. -/
def Town.convert_edge (e : Int) : Int :=
  if e ∈ Town.OUTER_EDGES ∨ e ∈ Town.INNER_EDGES then e
  else if e % 4 = 0 then e - (LEN_SIDE : Int) * 4 + 2
  else e - 2

/-- The value claim C2 predicts for `Town.convert_edge (4 * p + l)`. -/
def convert_edge_claimed (p l : Nat) : Int :=
  if l = 2 ∨ l = 3 ∨ (l = 0 ∧ p < 3) ∨ (l = 1 ∧ p % 3 = 0) then 4 * p + l
  else if l = 0 then 4 * p + l - 10
  else 4 * p + l - 2

/-- `(p, l)` lies on the grid perimeter (the border touches no neighbour
tile): top edge of the top row, left edge of the left column, bottom edge
of the bottom row, or right edge of the right column. -/
def on_perimeter (p l : Nat) : Prop :=
  (l = 0 ∧ p / 3 = 0) ∨ (l = 1 ∧ p % 3 = 0) ∨ (l = 2 ∧ p / 3 = 2) ∨ (l = 3 ∧ p % 3 = 2)

instance (p l : Nat) : Decidable (on_perimeter p l) := by
  unfold on_perimeter; infer_instance

/-- C2: `Town.convert_edge` keeps bottom and right edges, top edges of the
top row, and left edges of the leftmost column; it remaps other top edges
to the bottom edge of the tile above (`e - 10`) and other left edges to
the right edge of the tile on the left (`e - 2`); and `OUTER_EDGES` is
exactly the set of ids `4 * p + l` on the grid perimeter. -/
theorem convert_edge_canonicalization :
    (∀ p : Nat, p < 9 → ∀ l : Nat, l < 4 →
      Town.convert_edge (4 * p + l) = convert_edge_claimed p l) ∧
    (∀ p : Nat, p < 9 → ∀ l : Nat, l < 4 →
      (((4 * p + l : Int) ∈ Town.OUTER_EDGES) ↔ on_perimeter p l)) ∧
    (∀ e ∈ Town.OUTER_EDGES, ∃ p : Nat, p < 9 ∧ ∃ l : Nat, l < 4 ∧
      e = 4 * (p : Int) + l ∧ on_perimeter p l) := by
  refine ⟨?_, ?_, ?_⟩ <;> decide

/-- Witness for C2's theorem at a concrete interior top edge: position 4's
top edge (id 16) is remapped to id 6, the bottom edge of position 1. -/
theorem convert_edge_canonicalization_witness :
    Town.convert_edge (4 * 4 + 0) = convert_edge_claimed 4 0 ∧
    Town.convert_edge 16 = 6 := by
  have h := convert_edge_canonicalization.1 4 (by decide) 0 (by decide)
  exact ⟨h, by decide⟩

/-! ## C10: `Road.get_edges` with a non-trivial angle is not a projection -/

/-- C10: for `a % 4 ≠ 0`, `Road.get_edges a` returns the edge pair rotated
by `a` and overwrites the road's `initial_edge`, `terminal_edge`,
`agent_face` and `alien_face` with the rotated values, so a second call
returns edges rotated by `2 * a`; `TileFace.get_edges a` applies the same
side effect to every road of the face. -/
theorem road_get_edges_rotates_in_place (r : Road) (a : Nat) (h : a % 4 ≠ 0) :
    (r.get_edges a).2 = [(r.initial_edge + a) % 4, (r.terminal_edge + a) % 4] ∧
    (r.get_edges a).1 =
      { r with
        initial_edge := (r.initial_edge + a) % 4
        terminal_edge := (r.terminal_edge + a) % 4
        agent_face := r.agent_face.map (fun x => (x + a) % 4)
        alien_face := r.alien_face.map (fun x => (x + a) % 4) } ∧
    ((r.get_edges a).1.get_edges a).2 =
      [(r.initial_edge + 2 * a) % 4, (r.terminal_edge + 2 * a) % 4] ∧
    (∀ f : TileFace,
      (f.get_edges a).1.roads = f.roads.map (fun rd => rd.rotate a) ∧
      (f.get_edges a).2 = f.roads.map
        (fun rd => [(rd.initial_edge + a) % 4, (rd.terminal_edge + a) % 4])) := by
  have ha : a ≠ 0 := by rintro rfl; exact h rfl
  have hmod : ∀ x : Nat, ((x + a) % 4 + a) % 4 = (x + 2 * a) % 4 := by
    intro x
    conv_rhs => rw [two_mul, ← Nat.add_assoc]
    rw [Nat.mod_add_mod]
  refine ⟨?_, ?_, ?_, ?_⟩
  · simp [Road.get_edges, Road.rotate, ha]
  · simp [Road.get_edges, Road.rotate, ha]
  · simp [Road.get_edges, Road.rotate, ha, hmod]
  · intro f
    constructor
    · simp [TileFace.get_edges, Road.get_edges, ha]
    · simp [TileFace.get_edges, Road.get_edges, Road.rotate, ha]

/-- Witness for C10's theorem: the catalog road `Road(0, 1, alien_face=1)`
with angle 1. -/
theorem road_get_edges_rotates_in_place_witness :
    (1 : Nat) % 4 ≠ 0 ∧
    (Road.get_edges { initial_edge := 0, terminal_edge := 1, alien_face := some 1 } 1).2 =
      [(0 + 1) % 4, (1 + 1) % 4] := by
  exact ⟨by decide,
    (road_get_edges_rotates_in_place
      { initial_edge := 0, terminal_edge := 1, alien_face := some 1 } 1 (by decide)).1⟩

/-! ## `onroad.py`: path occupants, and `town.py`: `Path`, `Town` -/

/-- The `dir` string of an occupant: `""` initially, then `"left"` or
`"right"` when placed into a `Path`. -/
inductive Dir where
  | nodir
  | left
  | right
deriving DecidableEq, Repr

/-- The occupants of a path: `onroad.Agent`, `onroad.Alien`,
`onroad.Hamburger`, as one tagged variant.  Each constructor carries
exactly the mutable fields of the Python class. -/
inductive TownObject where
  | agent (face : Int) (dir : Dir) (is_capturing : Bool) (capturing_alien : Option Nat)
  | alien (face : Int) (dir : Dir) (is_captured : Bool) (captured_agent : Option Nat)
      (eating : Bool) (eating_hamburger : Option Nat)
  | hamburger (is_eaten : Bool) (ate_alien : List Nat)
deriving DecidableEq, Repr

/-- `Agent(face)`: a freshly constructed agent. -/
def TownObject.mkAgent (face : Int) : TownObject :=
  .agent face .nodir false none

/-- `Alien(face)`: a freshly constructed alien. -/
def TownObject.mkAlien (face : Int) : TownObject :=
  .alien face .nodir false none false none

/-- `Hamburger()`: a freshly constructed hamburger. -/
def TownObject.mkHamburger : TownObject :=
  .hamburger false []

/-- `town.Path`: one maximal open road of the town. -/
structure Path where
  left_end : Int
  right_end : Int
  length : Nat
  objects : List TownObject
deriving DecidableEq, Repr

/-- `town.Town`: the 3×3 grid of chosen faces (`none` = unassigned), the
failure flag, and the derived paths. -/
structure Town where
  face : List (Option TileFace)
  making_failed : Bool
  paths : List Path
deriving DecidableEq, Repr

/-- `Town()` before `make`: nine empty positions, no failure, no paths. -/
def Town.init : Town :=
  { face := List.replicate NUM_TILE none, making_failed := false, paths := [] }

/-- `Town.get_face`: `self.face[position]`; out-of-range raises (`none`). -/
def Town.get_face_at (t : Town) (position : Nat) : Option (Option TileFace) :=
  t.face.get? position

/-- `Town.get_neighbour_position`: the 4-adjacency lists of the 3×3 grid;
positions outside 0–8 raise `NotImplementedError` (`none`). -/
def Town.get_neighbour_position (position : Nat) : Option (List Nat) :=
  match position with
  | 0 => some [1, 3]
  | 1 => some [0, 2, 4]
  | 2 => some [1, 5]
  | 3 => some [0, 4, 6]
  | 4 => some [1, 3, 5, 7]
  | 5 => some [2, 4, 8]
  | 6 => some [3, 7]
  | 7 => some [4, 6, 8]
  | 8 => some [5, 7]
  | _ => none

/-- `Town.get_connecting_edge pos1 pos2`: the local edge of `pos2`'s tile
that touches `pos1`'s tile.  The outer `Option` is the
`get_neighbour_position` exception; the inner `Option` is Python's `None`
result for non-adjacent positions. -/
def Town.get_connecting_edge (pos1 pos2 : Nat) : Option (Option Nat) :=
  (Town.get_neighbour_position pos1).map (fun nbrs =>
    if pos2 ∈ nbrs then
      -- pos_diff = pos1 - pos2
      if pos2 = pos1 + LEN_SIDE then some 0        -- pos_diff = -LEN_SIDE
      else if pos2 = pos1 + 1 then some 1          -- pos_diff = -1
      else if pos1 = pos2 + LEN_SIDE then some 2   -- pos_diff = LEN_SIDE
      else if pos1 = pos2 + 1 then some 3          -- pos_diff = 1
      else none
    else none)

/-- `Town.get_neighbour`: the already-placed faces adjacent to `position`,
as `(position, face)` pairs. -/
def Town.get_neighbour (t : Town) (position : Nat) :
    Option (List (Nat × TileFace)) :=
  (Town.get_neighbour_position position).bind (fun ps => do
    let entries ← ps.mapM (fun p => (t.face.get? p).map (fun f? => (p, f?)))
    pure (entries.filterMap (fun pf => pf.2.map (fun f => (pf.1, f)))))

/-- Python's `face.does_have_road_edge(e)` applied to a possibly-`None`
connecting edge: `None in [ints]` is `False`. -/
def stub_at (f : TileFace) (e : Option Nat) : Bool :=
  match e with
  | some e => f.does_have_road_edge e
  | none => false

/-- `Town.can_add_tile`: `adding_face` may be placed at `position` when
every already-placed neighbouring face agrees with it on road-stub
presence at the shared border (the double toggle of
`is_good_connection`). -/
def Town.can_add_tile (t : Town) (position : Nat) (adding_face : TileFace) :
    Option Bool :=
  (t.get_neighbour position).bind (fun neighbours =>
    neighbours.foldlM (fun can_add pf => do
      let e1 ← Town.get_connecting_edge position pf.1
      let e2 ← Town.get_connecting_edge pf.1 position
      pure (can_add && (stub_at pf.2 e1 == stub_at adding_face e2))) true)

/-- `Town.add_tile`: select the face, then place it if the position is
free and `can_add_tile` agrees; otherwise set the failure flag. -/
def Town.add_tile (t : Town) (position : Nat) (tile : Tile)
    (is_front : Bool) (angle : Nat) : Option Town := do
  let adding_face ← tile.get_face is_front angle
  let cur ← t.get_face_at position
  match cur with
  | none => do
      let can ← t.can_add_tile position adding_face
      if can then
        pure { t with face := t.face.set position (some adding_face) }
      else
        pure { t with making_failed := true }
  | some _ => pure { t with making_failed := true }

def Town.has_failed (t : Town) : Bool := t.making_failed

/-! ## C1: `can_add_tile` accepts exactly road-stub-agreeing placements -/

/-- Every neighbour position of a valid position is itself valid. -/
theorem neighbour_position_lt_nine :
    ∀ pos : Nat, pos < 9 →
      ∀ p ∈ (Town.get_neighbour_position pos).getD [], p < 9 := by
  decide

/-- Between a valid position and any of its neighbours, the connecting
edge is defined in both directions. -/
theorem connecting_edge_defined :
    ∀ pos : Nat, pos < 9 →
      ∀ p ∈ (Town.get_neighbour_position pos).getD [],
        (∃ e, e < 4 ∧ Town.get_connecting_edge pos p = some (some e)) ∧
        (∃ e, e < 4 ∧ Town.get_connecting_edge p pos = some (some e)) := by
  decide

theorem getD_of_lt_length {α : Type} (l : List α) (p : Nat) (d : α)
    (h : p < l.length) : l.get? p = some (l.getD p d) := by
  rw [List.getD_eq_getElem?_getD, List.get?_eq_getElem?]
  rcases List.getElem?_eq_some_iff.mpr ⟨h, rfl⟩ with h'
  simp [h']

theorem can_add_mapM_eq (t : Town) (ps : List Nat)
    (h : ∀ p ∈ ps, p < t.face.length) :
    ps.mapM (fun p => (t.face.get? p).map (fun f? => (p, f?))) =
      some (ps.map (fun p => (p, t.face.getD p none))) := by
  induction ps with
  | nil => rfl
  | cons q qs ih =>
      have hq : t.face.get? q = some (t.face.getD q none) :=
        getD_of_lt_length _ _ _ (h q (List.mem_cons_self q qs))
      have ihh := ih (fun p hp => h p (List.mem_cons_of_mem _ hp))
      simp only [List.mapM_cons, hq, ihh, Option.map_some', Option.bind_some,
        Option.pure_def, Option.bind_eq_bind, List.map_cons]
      rfl

/-- The Boolean connection check `can_add_tile` performs for one
neighbour `(p, g)` against the face being added. -/
def good_connection (adding_face : TileFace) (position : Nat)
    (pf : Nat × TileFace) : Bool :=
  stub_at pf.2 ((Town.get_connecting_edge position pf.1).getD none) ==
    stub_at adding_face ((Town.get_connecting_edge pf.1 position).getD none)

theorem can_add_fold_eq (f : TileFace) (position : Nat)
    (entries : List (Nat × TileFace)) (b : Bool)
    (h : ∀ pf ∈ entries, (Town.get_connecting_edge position pf.1).isSome ∧
          (Town.get_connecting_edge pf.1 position).isSome) :
    entries.foldlM (fun can_add pf => do
        let e1 ← Town.get_connecting_edge position pf.1
        let e2 ← Town.get_connecting_edge pf.1 position
        pure (can_add && (stub_at pf.2 e1 == stub_at f e2))) b =
      some (b && entries.all (good_connection f position)) := by
  induction entries generalizing b with
  | nil => simp
  | cons pf rest ih =>
      rcases h pf (List.mem_cons_self pf rest) with ⟨h1, h2⟩
      rcases Option.isSome_iff_exists.mp h1 with ⟨e1, he1⟩
      rcases Option.isSome_iff_exists.mp h2 with ⟨e2, he2⟩
      have hrest : ∀ pf ∈ rest, (Town.get_connecting_edge position pf.1).isSome ∧
          (Town.get_connecting_edge pf.1 position).isSome :=
        fun q hq => h q (List.mem_cons_of_mem _ hq)
      have ihh := ih (b && good_connection f position pf) hrest
      simp only [List.foldlM_cons, he1, he2, Option.some_bind, Option.pure_def,
        Option.bind_eq_bind, List.all_cons]
      have hgood : good_connection f position pf = (stub_at pf.2 e1 == stub_at f e2) := by
        unfold good_connection
        rw [he1, he2, Option.getD_some, Option.getD_some]
      rw [← hgood]
      simp only [Option.pure_def, Option.bind_eq_bind] at ihh
      rw [ihh, Bool.and_assoc]

/-- C1: for every town, grid position and face, `can_add_tile` returns
`True` exactly when, for each already-placed neighbouring face, the two
faces agree on road-stub presence at the shared border. -/
theorem can_add_tile_checks_stub_agreement (t : Town) (position : Nat)
    (f : TileFace) (hpos : position < 9) (hlen : t.face.length = 9) :
    ∃ b, t.can_add_tile position f = some b ∧
      (b = true ↔ ∀ p ∈ (Town.get_neighbour_position position).getD [],
        ∀ g, t.face.getD p none = some g →
        ∀ e1 e2, Town.get_connecting_edge position p = some (some e1) →
                 Town.get_connecting_edge p position = some (some e2) →
        g.does_have_road_edge e1 = f.does_have_road_edge e2) := by
  obtain ⟨ns, hns⟩ : ∃ ns, Town.get_neighbour_position position = some ns := by
    interval_cases position <;> exact ⟨_, rfl⟩
  have hmem : ∀ p ∈ ns, p ∈ (Town.get_neighbour_position position).getD [] := by
    simp [hns]
  have hlt : ∀ p ∈ ns, p < t.face.length := fun p hp => by
    rw [hlen]; exact neighbour_position_lt_nine position hpos p (hmem p hp)
  have hmapM := can_add_mapM_eq t ns hlt
  have hsome : ∀ pf ∈ (ns.map (fun p => (p, t.face.getD p none))).filterMap
      (fun pf => pf.2.map (fun g => (pf.1, g))),
      (Town.get_connecting_edge position pf.1).isSome ∧
      (Town.get_connecting_edge pf.1 position).isSome := by
    intro pf hpf
    rcases List.mem_filterMap.mp hpf with ⟨qf, hqf, hmap⟩
    rcases List.mem_map.mp hqf with ⟨p, hp, rfl⟩
    rcases Option.map_eq_some'.mp hmap with ⟨g, _, rfl⟩
    rcases connecting_edge_defined position hpos p (hmem p hp) with
      ⟨⟨e1, _, he1⟩, ⟨e2, _, he2⟩⟩
    exact ⟨by simp [he1], by simp [he2]⟩
  have hfold := can_add_fold_eq f position
    ((ns.map (fun p => (p, t.face.getD p none))).filterMap
      (fun pf => pf.2.map (fun g => (pf.1, g)))) true hsome
  simp only [Option.pure_def, Option.bind_eq_bind] at hfold
  rw [Bool.true_and] at hfold
  refine ⟨((ns.map (fun p => (p, t.face.getD p none))).filterMap
      (fun pf => pf.2.map (fun g => (pf.1, g)))).all (good_connection f position),
    ?_, ?_⟩
  · unfold Town.can_add_tile Town.get_neighbour
    rw [hns]
    simp only [Option.some_bind, Option.pure_def, Option.bind_eq_bind]
    rw [hmapM, Option.some_bind]
    exact hfold
  · rw [List.all_eq_true]
    constructor
    · intro hall p hp g hg e1 e2 he1 he2
      have hin : (p, g) ∈ (ns.map (fun p => (p, t.face.getD p none))).filterMap
          (fun pf => pf.2.map (fun g => (pf.1, g))) := by
        refine List.mem_filterMap.mpr ⟨(p, t.face.getD p none), ?_, ?_⟩
        · exact List.mem_map.mpr ⟨p, by simpa [hns] using hp, rfl⟩
        · exact Option.map_eq_some'.mpr ⟨g, hg, rfl⟩
      have := hall _ hin
      unfold good_connection at this
      rw [he1, he2] at this
      simpa [stub_at] using this
    · intro hptw pf hpf
      rcases List.mem_filterMap.mp hpf with ⟨qf, hqf, hmap⟩
      rcases List.mem_map.mp hqf with ⟨p, hp, rfl⟩
      rcases Option.map_eq_some'.mp hmap with ⟨g, hg, rfl⟩
      rcases connecting_edge_defined position hpos p (hmem p hp) with
        ⟨⟨e1, _, he1⟩, ⟨e2, _, he2⟩⟩
      have := hptw p (hmem p hp) g hg e1 e2 he1 he2
      unfold good_connection
      rw [he1, he2]
      simpa [stub_at] using this

/-- Witness for C1's theorem: placing `Road(0, 2)`'s face at position 1 of
a town whose position 0 holds a face with a road stub on its right edge
is rejected (left stub present, right stub absent on the shared border
between positions 0 and 1 is a disagreement). -/
theorem can_add_tile_checks_stub_agreement_witness :
    ∃ b, (Town.can_add_tile
        { face := [some { roads := [{ initial_edge := 2, terminal_edge := 3 }] },
                   none, none, none, none, none, none, none, none],
          making_failed := false, paths := [] }
        1 { roads := [{ initial_edge := 0, terminal_edge := 2 }] }) = some b ∧
      (b = true ↔ ∀ p ∈ (Town.get_neighbour_position 1).getD [],
        ∀ g, (([some { roads := [{ initial_edge := 2, terminal_edge := 3 }] },
                   none, none, none, none, none, none, none, none] :
                List (Option TileFace)).getD p none) = some g →
        ∀ e1 e2, Town.get_connecting_edge 1 p = some (some e1) →
                 Town.get_connecting_edge p 1 = some (some e2) →
        g.does_have_road_edge e1 =
          TileFace.does_have_road_edge
            { roads := [{ initial_edge := 0, terminal_edge := 2 }] } e2) :=
  can_add_tile_checks_stub_agreement _ 1 _ (by decide) (by decide)

/-! ## `Path.check_food_chain`: the capture/feeding resolution scan

The Python loop reads, at each index `i`, only the *type* and `dir` of
`self.objects[i]` and the seven local scan variables; it then performs a
(possibly empty) list of field mutations (`capture`, `captured`, `eat`,
`eaten`) on entries of `self.objects` and updates the scan variables.
The embedding splits each loop iteration accordingly: `fc_decide` computes
the mutation list and the next scan state from the occupant's skeleton
(type and `dir`), and `FcOp.apply` performs one mutation (failing, like
Python's attribute lookup, when the target is out of range or of the
wrong class). -/

/-- The type tag and `dir` of an occupant: everything the scan's control
flow can observe. -/
inductive ObjSkel where
  | agentS (dir : Dir)
  | alienS (dir : Dir)
  | hamburgerS
deriving DecidableEq, Repr

/-- The skeleton of an occupant. -/
def TownObject.skel : TownObject → ObjSkel
  | .agent _ d _ _ => .agentS d
  | .alien _ d _ _ _ _ => .alienS d
  | .hamburger _ _ => .hamburgerS

/-- The seven local variables of `check_food_chain`'s scan
(`free_agent_left` and `hangry_alien_left` are dead state, kept for
fidelity). -/
structure ChainState where
  free_agent_left : Option Nat := none
  free_agent_right : Option Nat := none
  free_alien_left : Option Nat := none
  free_alien_right : Option Nat := none
  hangry_alien_left : Option Nat := none
  hangry_alien_right : Option Nat := none
  free_hamburger : Option Nat := none
deriving DecidableEq, Repr

/-- One mutation of `self.objects[target]` performed by the scan. -/
inductive FcOp where
  | opCapture (target arg : Nat)
  | opCaptured (target arg : Nat)
  | opEat (target arg : Nat)
  | opEaten (target arg : Nat)
deriving DecidableEq, Repr

def FcOp.target : FcOp → Nat
  | .opCapture t _ => t
  | .opCaptured t _ => t
  | .opEat t _ => t
  | .opEaten t _ => t

/-- The effect of one mutation on the occupant it targets:
`Agent.capture`, `Alien.captured`, `Alien.eat`, `Hamburger.eaten` (the
last one *appends* to `ate_alien`).  A target of the wrong class raises
(`none`), as the Python method lookup would. -/
def FcOp.applyObj : FcOp → TownObject → Option TownObject
  | .opCapture _ j, .agent f d _ _ => some (.agent f d true (some j))
  | .opCaptured _ j, .alien f d _ _ e eh => some (.alien f d true (some j) e eh)
  | .opEat _ j, .alien f d c ca _ _ => some (.alien f d c ca true (some j))
  | .opEaten _ j, .hamburger _ ate => some (.hamburger true (ate ++ [j]))
  | _, _ => none

/-- Apply one mutation to the occupant list. -/
def FcOp.apply (os : List TownObject) (op : FcOp) : Option (List TownObject) := do
  let o ← os.get? op.target
  let o' ← op.applyObj o
  pure (os.set op.target o')

/-- Apply a list of mutations in order. -/
def fc_apply_ops (os : List TownObject) (ops : List FcOp) : Option (List TownObject) :=
  ops.foldlM FcOp.apply os

/-- One iteration of `check_food_chain`'s loop at index `i`, split into
the mutations performed and the next scan state.  The three Python
branches (`Agent` / `Alien` / `Hamburger`) are mutually exclusive. -/
def fc_decide (sk : ObjSkel) (st : ChainState) (i : Nat) :
    List FcOp × ChainState :=
  match sk with
  | .agentS d =>
      if d = .left then
        -- 左に宇宙人が居るか判定 (is a free alien pending?)
        let free_alien : Option Nat :=
          match st.free_alien_left, st.free_alien_right with
          | some a, some b => some (max a b)
          | some a, none => some a
          | none, some b => some b
          | none, none => none
        match free_alien with
        | some m =>
            -- 居たら捕まえる (capture it), then clear its slot
            let st' :=
              if st.free_alien_left = some m then
                { st with free_alien_left := none }
              else if st.free_alien_right = some m then
                { st with free_alien_right := none }
              else st
            ([.opCapture i m, .opCaptured m i], st')
        | none => ([], { st with free_agent_left := some i })
      else if d = .right then ([], { st with free_agent_right := some i })
      else ([], st)
  | .alienS d =>
      -- 左に右向きのエージェントが居たら捕まる (a pending right-facing
      -- agent captures this alien), else register this alien
      let em1 : List FcOp × ChainState :=
        match st.free_agent_right with
        | some a => ([.opCapture a i, .opCaptured i a],
                     { st with free_agent_right := none })
        | none =>
            if d = .left then ([], { st with free_alien_left := some i })
            else if d = .right then ([], { st with free_alien_right := some i })
            else ([], st)
      -- 左向きで左にハンバーガーあったら食べる (left-facing eats a
      -- pending hamburger), else hangry registration
      let em2 : List FcOp × ChainState :=
        if d = .left then
          match em1.2.free_hamburger with
          | some h => ([.opEat i h, .opEaten h i],
                       { em1.2 with free_hamburger := none })
          | none => ([], { em1.2 with hangry_alien_left := some i })
        else if d = .right then ([], { em1.2 with hangry_alien_right := some i })
        else ([], em1.2)
      (em1.1 ++ em2.1, em2.2)
  | .hamburgerS =>
      -- 左に右向きの空腹宇宙人が居たら食べられる (a pending hangry
      -- right-facing alien eats it; its slot is *not* cleared), and the
      -- hamburger is registered either way
      let ops : List FcOp :=
        match st.hangry_alien_right with
        | some a => [.opEat a i, .opEaten i a]
        | none => []
      (ops, { st with free_hamburger := some i })

/-- One iteration of the loop on the actual occupant list. -/
def fc_step (os : List TownObject) (st : ChainState) (i : Nat) :
    Option (List TownObject × ChainState) := do
  let o ← os.get? i
  let dec := fc_decide o.skel st i
  let os' ← fc_apply_ops os dec.1
  pure (os', dec.2)

/-- The whole scan over a list of indices. -/
def fc_run (os : List TownObject) (st : ChainState) (idxs : List Nat) :
    Option (List TownObject × ChainState) :=
  idxs.foldlM (fun acc i => fc_step acc.1 acc.2 i) (os, st)

/-- `Path.check_food_chain`: run the scan over `enumerate(self.objects)`
with all scan variables initialised to `None`; returns the path with its
occupants mutated (`none` models an uncaught Python exception, which
cannot happen on occupant lists produced by `Path.__init__`). -/
def Path.check_food_chain (p : Path) : Option Path :=
  (fc_run p.objects {} (List.range p.objects.length)).map
    (fun r => { p with objects := r.1 })

/-! ## C3: the left-facing-agent case of the scan -/

/-- C3: when the scan reaches a left-facing agent at index `i`: with both
a free left-facing alien `a` and a free right-facing alien `b` pending,
the agent captures the one with the larger index and that alien's slot is
cleared; with exactly one pending, it captures that one; with none
pending, no occupant is mutated. -/
theorem left_facing_agent_capture (os : List TownObject) (st : ChainState)
    (i : Nat) (fc : Int) (cap : Bool) (ca : Option Nat)
    (hi : os.get? i = some (.agent fc .left cap ca)) :
    (∀ a b fa da caa ea eha fb db cab eb ehb,
      st.free_alien_left = some a → st.free_alien_right = some b → a ≠ b →
      os.get? a = some (.alien fa da false caa ea eha) →
      os.get? b = some (.alien fb db false cab eb ehb) →
      fc_step os st i = some (
        (os.set i (.agent fc .left true (some (max a b)))).set (max a b)
            (if b < a then TownObject.alien fa da true (some i) ea eha
             else TownObject.alien fb db true (some i) eb ehb),
        (if b < a then { st with free_alien_left := none }
         else { st with free_alien_right := none }))) ∧
    (∀ a fa da caa ea eha,
      st.free_alien_left = some a → st.free_alien_right = none →
      os.get? a = some (.alien fa da false caa ea eha) →
      fc_step os st i = some (
        (os.set i (.agent fc .left true (some a))).set a
          (.alien fa da true (some i) ea eha),
        { st with free_alien_left := none })) ∧
    (∀ b fb db cab eb ehb,
      st.free_alien_left = none → st.free_alien_right = some b →
      os.get? b = some (.alien fb db false cab eb ehb) →
      fc_step os st i = some (
        (os.set i (.agent fc .left true (some b))).set b
          (.alien fb db true (some i) eb ehb),
        { st with free_alien_right := none })) ∧
    (st.free_alien_left = none → st.free_alien_right = none →
      fc_step os st i = some (os, { st with free_agent_left := some i })) := by
  have hstep : ∀ dec : List FcOp × ChainState,
      fc_decide (ObjSkel.agentS Dir.left) st i = dec →
      fc_step os st i = (fc_apply_ops os dec.1).bind (fun os2 => some (os2, dec.2)) := by
    intro dec hdec
    simp only [fc_step, hi, Option.pure_def, Option.bind_eq_bind,
      Option.some_bind, TownObject.skel, hdec]
  refine ⟨?_, ?_, ?_, ?_⟩
  · intro a b fa da caa ea eha fb db cab eb ehb hfal hfar hab ha hb
    have hai : a ≠ i := by
      intro h; rw [h, hi] at ha; exact absurd ha (by simp)
    have hbi : b ≠ i := by
      intro h; rw [h, hi] at hb; exact absurd hb (by simp)
    rcases Ne.lt_or_lt hab with hlt | hlt
    · -- a < b: the right-facing alien b is captured
      have hm : max a b = b := Nat.max_eq_right (le_of_lt hlt)
      have hdec : fc_decide (ObjSkel.agentS Dir.left) st i =
          ([.opCapture i b, .opCaptured b i],
           { st with free_alien_right := none }) := by
        simp only [fc_decide, hfal, hfar, hm]
        simp [hab]
      have happ : fc_apply_ops os [.opCapture i b, .opCaptured b i] =
          some ((os.set i (.agent fc .left true (some b))).set b
            (.alien fb db true (some i) eb ehb)) := by
        simp only [fc_apply_ops, List.foldlM_cons, List.foldlM_nil, FcOp.apply,
          FcOp.target, FcOp.applyObj, hi, Option.pure_def, Option.bind_eq_bind,
          Option.some_bind]
        rw [List.get?_set_ne _ _ (fun h => hbi h.symm), hb]
        simp [FcOp.applyObj]
      rw [hstep _ hdec, happ]
      simp [hm, Nat.not_lt.mpr (le_of_lt hlt)]
    · -- b < a: the left-facing alien a is captured
      have hm : max a b = a := Nat.max_eq_left (le_of_lt hlt)
      have hdec : fc_decide (ObjSkel.agentS Dir.left) st i =
          ([.opCapture i a, .opCaptured a i],
           { st with free_alien_left := none }) := by
        simp only [fc_decide, hfal, hfar, hm]
        simp
      have happ : fc_apply_ops os [.opCapture i a, .opCaptured a i] =
          some ((os.set i (.agent fc .left true (some a))).set a
            (.alien fa da true (some i) ea eha)) := by
        simp only [fc_apply_ops, List.foldlM_cons, List.foldlM_nil, FcOp.apply,
          FcOp.target, FcOp.applyObj, hi, Option.pure_def, Option.bind_eq_bind,
          Option.some_bind]
        rw [List.get?_set_ne _ _ (fun h => hai h.symm), ha]
        simp [FcOp.applyObj]
      rw [hstep _ hdec, happ]
      simp [hm, hlt]
  · intro a fa da caa ea eha hfal hfar ha
    have hai : a ≠ i := by
      intro h; rw [h, hi] at ha; exact absurd ha (by simp)
    have hdec : fc_decide (ObjSkel.agentS Dir.left) st i =
        ([.opCapture i a, .opCaptured a i],
         { st with free_alien_left := none }) := by
      simp only [fc_decide, hfal, hfar]
      simp
    have happ : fc_apply_ops os [.opCapture i a, .opCaptured a i] =
        some ((os.set i (.agent fc .left true (some a))).set a
          (.alien fa da true (some i) ea eha)) := by
      simp only [fc_apply_ops, List.foldlM_cons, List.foldlM_nil, FcOp.apply,
        FcOp.target, FcOp.applyObj, hi, Option.pure_def, Option.bind_eq_bind,
        Option.some_bind]
      rw [List.get?_set_ne _ _ (fun h => hai h.symm), ha]
      simp [FcOp.applyObj]
    rw [hstep _ hdec, happ]
    simp
  · intro b fb db cab eb ehb hfal hfar hb
    have hbi : b ≠ i := by
      intro h; rw [h, hi] at hb; exact absurd hb (by simp)
    have hdec : fc_decide (ObjSkel.agentS Dir.left) st i =
        ([.opCapture i b, .opCaptured b i],
         { st with free_alien_right := none }) := by
      simp only [fc_decide, hfal, hfar]
      simp
    have happ : fc_apply_ops os [.opCapture i b, .opCaptured b i] =
        some ((os.set i (.agent fc .left true (some b))).set b
          (.alien fb db true (some i) eb ehb)) := by
      simp only [fc_apply_ops, List.foldlM_cons, List.foldlM_nil, FcOp.apply,
        FcOp.target, FcOp.applyObj, hi, Option.pure_def, Option.bind_eq_bind,
        Option.some_bind]
      rw [List.get?_set_ne _ _ (fun h => hbi h.symm), hb]
      simp [FcOp.applyObj]
    rw [hstep _ hdec, happ]
    simp
  · intro hfal hfar
    have hdec : fc_decide (ObjSkel.agentS Dir.left) st i =
        ([], { st with free_agent_left := some i }) := by
      simp only [fc_decide, hfal, hfar]
      simp
    rw [hstep _ hdec]
    simp [fc_apply_ops]

/-- Witness for C3's theorem: occupants
`[left alien 0, right alien 1, left agent 2]`; both slots pending, the
agent captures alien 1 (the larger index) and the right slot is
cleared. -/
theorem left_facing_agent_capture_witness :
    fc_step
      [TownObject.alien 0 .left false none false none,
       TownObject.alien 1 .right false none false none,
       TownObject.agent 2 .left false none]
      { free_alien_left := some 0, free_alien_right := some 1 } 2 =
    some (
      [TownObject.alien 0 .left false none false none,
       TownObject.alien 1 .right true (some 2) false none,
       TownObject.agent 2 .left true (some 1)],
      { free_alien_left := some 0, free_alien_right := none }) := by
  have h := (left_facing_agent_capture
    [TownObject.alien 0 .left false none false none,
     TownObject.alien 1 .right false none false none,
     TownObject.agent 2 .left false none]
    { free_alien_left := some 0, free_alien_right := some 1 } 2
    2 false none rfl).1 0 1 0 .left none false none 1 .right none false none
    rfl rfl (by decide) rfl rfl
  simpa using h

/-! ## `Town.__make_paths`: road graph, components, cycles, paths

`__make_paths` builds a `networkx.Graph` whose nodes are canonical edge
ids and whose edges are roads (tagged with their occupant), splits it
into connected components, fails the town on any cyclic component, and
turns every acyclic component into a resolved `Path`.  The graph and the
networkx operations used on it (`add_edge`, `connected_components`,
`find_cycle`, `shortest_path`) are embedded below; node and edge
insertion order is preserved, matching networkx's iteration order. -/

/-- A `networkx.Graph` as used by `__make_paths`: nodes in insertion
order, undirected edges (endpoint pair in first-insertion order) with
their `object` attribute. -/
structure TownGraph where
  nodes : List Int := []
  edges : List ((Int × Int) × Option TownObject) := []
deriving DecidableEq, Repr

/-- Two undirected endpoint pairs coincide. -/
def same_edge (p q : Int × Int) : Bool :=
  (p.1 = q.1 && p.2 = q.2) || (p.1 = q.2 && p.2 = q.1)

/-- `Graph.add_edge u v object=o`: inserts missing endpoints in order and
adds the edge, replacing the attribute if the edge already exists. -/
def TownGraph.add_edge (g : TownGraph) (u v : Int) (o : Option TownObject) :
    TownGraph :=
  let ns := if u ∈ g.nodes then g.nodes else g.nodes ++ [u]
  let ns := if v ∈ ns then ns else ns ++ [v]
  let es :=
    if g.edges.any (fun e => same_edge e.1 (u, v)) then
      g.edges.map (fun e => if same_edge e.1 (u, v) then (e.1, o) else e)
    else g.edges ++ [((u, v), o)]
  { nodes := ns, edges := es }

/-- `n` and `m` are joined by an edge of `g`. -/
def TownGraph.adj (g : TownGraph) (n m : Int) : Bool :=
  g.edges.any (fun e => same_edge e.1 (n, m))

/-- One round of closure: adjoin every node adjacent to the set. -/
def TownGraph.grow (g : TownGraph) (s : List Int) : List Int :=
  s ++ g.nodes.filter (fun n => n ∉ s && s.any (fun m => g.adj m n))

/-- The connected component of `start` (as a node list in graph order
after `start`): iterate `grow` to its fixpoint. -/
def TownGraph.component_of (g : TownGraph) (start : Int) : List Int :=
  (TownGraph.grow g)^[g.nodes.length] [start]

/-- `networkx.connected_components`: the components in order of first
node appearance. -/
def TownGraph.components (g : TownGraph) : List (List Int) :=
  (g.nodes.foldl (fun acc n =>
    if acc.2.contains n then acc
    else
      let comp := g.component_of n
      (acc.1 ++ [comp], acc.2 ++ comp)) ([], [])).1

/-- The edges of the subgraph induced by a component. -/
def TownGraph.component_edges (g : TownGraph) (comp : List Int) :
    List ((Int × Int) × Option TownObject) :=
  g.edges.filter (fun e => e.1.1 ∈ comp && e.1.2 ∈ comp)

/-- Modelled from networkx: `find_cycle` on a *connected* subgraph finds
a cycle exactly when the subgraph has at least as many edges as
vertices (a connected graph is a tree, i.e. cycle-free, exactly when it
has one edge less than it has vertices). -/
def TownGraph.component_has_cycle (g : TownGraph) (comp : List Int) : Bool :=
  comp.length ≤ (g.component_edges comp).length

/-- The `object` attribute of the edge between `i` and `j`
(`path_graph[i][j]["object"]`); a missing edge raises (`none`). -/
def TownGraph.edge_object (g : TownGraph) (i j : Int) :
    Option (Option TownObject) :=
  (g.edges.find? (fun e => same_edge e.1 (i, j))).map (·.2)

/-- Modelled from networkx `shortest_path`: a breadth/depth search from
`src` to `dst` avoiding revisits; on the trees it is applied to, this is
the unique simple path. -/
def TownGraph.tree_path_from (g : TownGraph) :
    Nat → List Int → Int → Int → Option (List Int)
  | 0, _, _, _ => none
  | fuel + 1, visited, src, dst =>
    if src = dst then some [src]
    else
      (g.nodes.filter (fun n => g.adj src n && n ∉ visited)).firstM
        (fun n => (g.tree_path_from fuel (src :: visited) n dst).map (src :: ·))

def TownGraph.tree_path (g : TownGraph) (src dst : Int) : Option (List Int) :=
  g.tree_path_from (g.nodes.length + 1) [] src dst

/-- `set_dir` on an `Agent` or `Alien` (`Hamburger.set_dir` raises). -/
def TownObject.set_dir (o : TownObject) (d : Dir) : Option TownObject :=
  match o with
  | .agent f _ c ca => some (.agent f d c ca)
  | .alien f _ c ca e eh => some (.alien f d c ca e eh)
  | .hamburger _ _ => none

/-- `get_face` of an `Agent` or `Alien` (`Hamburger.get_face` raises;
it is never reached because the hamburger case is tested first). -/
def TownObject.get_face_of (o : TownObject) : Option Int :=
  match o with
  | .agent f _ _ _ => some f
  | .alien f _ _ _ _ _ => some f
  | .hamburger _ _ => none

/-- `Path.__init__` on one component subgraph: endpoints are the minimum
and maximum outer node, `length` the edge count, and `objects` the tagged
occupants along the walk from left to right, with `dir` set from the
occupant's faced node.  Raises (`none`) when the component touches no
outer edge (`min` of an empty set). -/
def Path.make_from (g : TownGraph) (comp : List Int) : Option Path := do
  let end_nodes := comp.filter (fun n => n ∈ Town.OUTER_EDGES)
  let left ← end_nodes.min?
  let right ← end_nodes.max?
  let path_order ← g.tree_path left right
  let objects ← (path_order.zip path_order.tail).foldlM (fun objs ij => do
    let obj ← g.edge_object ij.1 ij.2
    match obj with
    | none => pure objs
    | some o =>
        match o with
        | .hamburger _ _ => pure (objs ++ [o])
        | _ =>
            match o.get_face_of with
            | some f =>
                if f = ij.1 then do
                  let o' ← o.set_dir .left
                  pure (objs ++ [o'])
                else if f = ij.2 then do
                  let o' ← o.set_dir .right
                  pure (objs ++ [o'])
                else pure objs
            | none => pure objs) []
  pure { left_end := left, right_end := right,
         length := (g.component_edges comp).length, objects := objects }

/-- The `object` tag of one road: an `Agent`/`Alien` facing its converted
edge, a `Hamburger` when the road carries one, else nothing. -/
def road_object (i : Nat) (r : Road) : Option TownObject :=
  match r.agent_face with
  | some af => some (.agent (Town.convert_edge (4 * i + af)) .nodir false none)
  | none =>
      match r.alien_face with
      | some af => some (.alien (Town.convert_edge (4 * i + af)) .nodir false none false none)
      | none =>
          if r.num_hamburger > 0 then some (.hamburger false []) else none

/-- The road graph of a fully placed town: for every road of every face,
an edge between the two canonicalized endpoints, tagged with the road's
occupant.  A missing face raises (`none`). -/
def Town.road_graph (t : Town) : Option TownGraph :=
  (List.range NUM_TILE).foldlM (fun g i => do
    let f? ← t.face.get? i
    let f ← f?
    pure (f.roads.foldl (fun g r =>
      g.add_edge (Town.convert_edge (4 * i + r.initial_edge))
        (Town.convert_edge (4 * i + r.terminal_edge)) (road_object i r)) g))
    {}

/-- The component loop of `__make_paths`: fail and stop on the first
cyclic component, otherwise append the resolved path.  An exception in
`Path.__init__` or `check_food_chain` aborts with the town as built so
far (`Except.error`). -/
def Town.paths_loop (g : TownGraph) : Town → List (List Int) → Except Town Town
  | t, [] => .ok t
  | t, comp :: rest =>
      if g.component_has_cycle comp then .ok { t with making_failed := true }
      else
        match (Path.make_from g comp).bind Path.check_food_chain with
        | none => .error t
        | some p => Town.paths_loop g { t with paths := t.paths ++ [p] } rest

/-- `Town.__make_paths`: no-op on a failed town; otherwise build the road
graph and process its components. -/
def Town.make_paths (t : Town) : Except Town Town :=
  if ¬ t.has_failed then
    match t.road_graph with
    | none => .error t
    | some g => Town.paths_loop g t g.components
  else .ok t

/-! ## `Town.make` -/

/-- The placement loop of `Town.make`: for each position `i`, look up the
tile index and the placement digit, place the face, and stop as soon as
the town has failed.  A tile index outside the catalog raises
(`IndexError` on `tiles[...]`), modelled as `Except.error` carrying the
town state at that moment. -/
def Town.make_loop (tiles : List Tile) (pattern : List Nat) :
    Town → List Nat → Except Town Town
  | t, [] => .ok t
  | t, i :: rest =>
      match pattern.get? i, pattern.get? (i + NUM_TILE) with
      | some d1, some d2 =>
          match tiles.get? d1 with
          | none => .error t
          | some tile =>
              match t.add_tile i tile (d2 < 4) (d2 % 4) with
              | none => .error t
              | some t' =>
                  if t'.has_failed then .ok t'
                  else Town.make_loop tiles pattern t' rest
      | _, _ => .error t

/-- `Town.make` on a fresh town (`Town(pattern, tiles)`): patterns are
digit lists (`int(pattern[i])` of each character).  A pattern whose
length is not 18 raises before anything is placed (the
`NotImplementedError` construction itself raises `AttributeError` on the
absent `self.object`, but an exception escapes either way); `zfill` on an
18-character pattern is the identity and is omitted. -/
def Town.make (pattern : List Nat) (tiles : List Tile) : Except Town Town :=
  if pattern.length = NUM_TILE * 2 then
    match Town.make_loop tiles pattern Town.init (List.range NUM_TILE) with
    | .error t' => .error t'
    | .ok t' => if ¬ t'.has_failed then t'.make_paths else .ok t'
  else .error Town.init

/-! ## C8: rejection of malformed patterns -/

/-- A pattern digit outside its allowed range: a tile index above 8 in
the first half or a placement code above 7 in the second half. -/
def malformed_digits (pattern : List Nat) : Bool :=
  ((List.range NUM_TILE).any (fun i => 8 < pattern.getD i 0)) ||
  ((List.range NUM_TILE).any (fun i => 7 < pattern.getD (i + NUM_TILE) 0))

/-- The state a raising `Town.make` left behind (`none` when no exception
was raised). -/
def except_error_state : Except Town Town → Option Town
  | .error t => some t
  | .ok _ => none

/-- An 18-digit pattern whose placement codes are all 8 (outside 0–7). -/
def pattern_code8 : List Nat := [0, 1, 2, 3, 4, 5, 6, 7, 8, 8, 8, 8, 8, 8, 8, 8, 8, 8]

/-- An 18-digit pattern with tile index 9 (outside 0–8) at slot 1. -/
def pattern_tile9 : List Nat := [0, 9, 2, 3, 4, 5, 6, 7, 8, 0, 0, 0, 0, 0, 0, 0, 0, 0]

/-- C8 counterexample: `pattern_code8` contains a placement digit outside
0–7, yet `Town.make` raises no exception on it at all (the digit 8 is
read as a back-face placement), contradicting the claim that such input
is rejected by raising before any tile is placed. -/
theorem make_malformed_digit_not_rejected :
    malformed_digits pattern_code8 = true ∧
    ∀ t : Town, Town.make pattern_code8 Tile.get_original ≠ Except.error t := by
  refine ⟨by decide, ?_⟩
  have h : except_error_state (Town.make pattern_code8 Tile.get_original) = none := by
    decide
  intro t ht
  rw [ht] at h
  exact Option.noConfusion h

/-- C8 (amended): only a pattern of the wrong length is rejected eagerly,
with an exception raised before any tile is placed.  A tile-index digit 9
raises only when its slot is reached — position 0 is already assigned
when `pattern_tile9` raises — and a placement code above 7 raises
nothing. -/
theorem make_rejects_bad_length_eagerly :
    (∀ (pattern : List Nat) (tiles : List Tile),
      pattern.length ≠ NUM_TILE * 2 →
      Town.make pattern tiles = .error Town.init) ∧
    ((except_error_state (Town.make pattern_tile9 Tile.get_original)).map
        (fun t => (t.face.getD 0 none).isSome) = some true) ∧
    (except_error_state (Town.make pattern_code8 Tile.get_original) = none) := by
  refine ⟨?_, by decide, by decide⟩
  intro pattern tiles h
  unfold Town.make
  rw [if_neg h]

/-- Witness for C8's amended theorem: the empty pattern is rejected with
the pristine town as the raise-time state. -/
theorem make_rejects_bad_length_eagerly_witness :
    Town.make [] Tile.get_original = .error Town.init :=
  make_rejects_bad_length_eagerly.1 [] Tile.get_original (by decide)

/-! ## `Town.theme_point`: the 26 scoring rules

Python's 26-branch `elif` chain, one branch per theme.  Loops over
`self.get_faces()` raise on an unassigned (`None`) face, hence the
`Option` plumbing; `max` of an empty sequence raises (themes 5 and 13);
the candidate lists that the source seeds with `[0]` are rendered as a
`max`-fold starting at 0, which is the same value and can no longer
raise. -/

def Path.get_length (p : Path) : Nat := p.length

def Path.get_objects (p : Path) : List TownObject := p.objects

/-- `obj.is_free()` of any occupant. -/
def TownObject.is_free : TownObject → Bool
  | .agent _ _ c _ => !c
  | .alien _ _ c _ _ _ => !c
  | .hamburger e _ => !e

/-- Sum a per-face quantity over `self.get_faces()`; an unassigned face
raises (`none`). -/
def Town.sum_faces (t : Town) (g : TileFace → Nat) : Option Nat :=
  t.face.foldlM (fun n f? => f?.map (fun face => n + g face)) 0

/-- The positions whose (assigned) face satisfies `pred`, via
`enumerate(self.get_faces())`; an unassigned face raises (`none`). -/
def Town.face_positions (t : Town) (pred : TileFace → Bool) :
    Option (List Nat) :=
  t.face.enum.foldlM
    (fun acc pf => pf.2.map (fun face => if pred face then acc ++ [pf.1] else acc)) []

/-- 4-adjacency of the 3×3 grid (`posgraph` in `Town.most_adjacent`). -/
def grid_adj (a b : Nat) : Bool :=
  (b = a + LEN_SIDE || a = b + LEN_SIDE ||
    (a / LEN_SIDE = b / LEN_SIDE && (b = a + 1 || a = b + 1)))

/-- `Town.most_adjacent`: the size of the largest 4-connected cluster
among `positions` (`max` over the connected components of the induced
subgraph of the grid graph); an empty subgraph raises (`none`). -/
def Town.most_adjacent (positions : List Nat) : Option Nat :=
  let nodes := (positions.filter (fun p => p < NUM_TILE)).dedup
  if nodes.isEmpty then none
  else
    (nodes.map (fun start =>
      ((fun s => s ++ nodes.filter (fun n => n ∉ s && s.any (fun m => grid_adj m n)))^[NUM_TILE]
        [start]).length)).max?

/-- The running state of theme 20's two seq detectors. -/
inductive SeqEnd where
  | noneE
  | agentE
  | alienE
  | burgerE
deriving DecidableEq, Repr

/-- One step of theme 20's right-directed detector. -/
def theme20_right (s : Nat × SeqEnd) (o : TownObject) : Nat × SeqEnd :=
  let (num, rse) := s
  let (num, rse) :=
    if rse = .agentE then
      let rse := match o with
        | .alien _ .right _ _ _ _ => SeqEnd.alienE
        | _ => rse
      (num, if rse ≠ .alienE then SeqEnd.noneE else rse)
    else if rse = .alienE then
      (match o with | .hamburger _ _ => num + 1 | _ => num, SeqEnd.noneE)
    else (num, rse)
  (num, if rse = .noneE then
      match o with
      | .agent _ .right _ _ => SeqEnd.agentE
      | _ => rse
    else rse)

/-- One step of theme 20's left-directed detector. -/
def theme20_left (s : Nat × SeqEnd) (o : TownObject) : Nat × SeqEnd :=
  let (num, lse) := s
  let (num, lse) :=
    if lse = .burgerE then
      let lse := match o with
        | .alien _ .left _ _ _ _ => SeqEnd.alienE
        | _ => lse
      (num, if lse ≠ .alienE then SeqEnd.noneE else lse)
    else if lse = .alienE then
      (match o with | .agent _ .left _ _ => num + 1 | _ => num, SeqEnd.noneE)
    else (num, lse)
  (num, if lse = .noneE then
      match o with
      | .hamburger _ _ => SeqEnd.burgerE
      | _ => lse
    else lse)

/-- One loop iteration of theme 20: the right-directed detector runs
first, then the left-directed one (state: count, right state, left
state). -/
def theme20_step (s : Nat × SeqEnd × SeqEnd) (o : TownObject) :
    Nat × SeqEnd × SeqEnd :=
  let right := theme20_right (s.1, s.2.1) o
  let left := theme20_left (right.1, s.2.2) o
  (left.1, right.2, left.2)

/-- Theme 2's per-path bracket scan (state: right-facing agent seen,
aliens counted since, candidate values). -/
def theme2_step (st : Bool × Nat × List Nat) (o : TownObject) :
    Bool × Nat × List Nat :=
  let (rfa, stuck, lst) := st
  if !rfa then
    match o with
    | .agent _ .right _ _ => (true, stuck, lst)
    | _ => (false, stuck, lst)
  else
    let stuck := match o with | .alien _ _ _ _ _ _ => stuck + 1 | _ => stuck
    match o with
    | .agent _ d _ _ =>
        if d = .left then (false, 0, lst ++ [stuck]) else (true, 0, lst)
    | _ => (rfa, stuck, lst)

/-- Theme 16's per-path scan (state: hamburgers since the last alien,
right-facing free alien seen, candidate values). -/
def theme16_step (st : Nat × Bool × List Nat) (o : TownObject) :
    Nat × Bool × List Nat :=
  let (hip, rfa, lst) := st
  match o with
  | .hamburger _ _ => (hip + 1, rfa, lst)
  | .alien _ d c _ _ _ =>
      if !c then
        if rfa then (0, if d = .left then false else rfa, lst ++ [hip])
        else
          if d = .right then (0, true, lst)
          else if d = .left then (0, false, lst ++ [hip])
          else (0, false, lst)
      else (hip, rfa, lst)
  | _ => (hip, rfa, lst)

/-- Theme 18's per-path scan (state: an agent was seen, right- and
left-facing aliens counted since, candidate values). -/
def theme18_step (st : Bool × Nat × Nat × List Nat) (o : TownObject) :
    Bool × Nat × Nat × List Nat :=
  let (ae, nr, nl, lst) := st
  match o with
  | .agent _ _ _ _ =>
      (true, 0, 0, (if ae then lst ++ [nl] else lst) ++ [nr])
  | .alien _ d _ _ _ _ =>
      if d = .right then (ae, nr + 1, nl, lst)
      else if d = .left then (ae, nr, nl + 1, lst)
      else (ae, nr, nl, lst)
  | _ => (ae, nr, nl, lst)

/-- `Town.theme_point`: the score of theme `no` (`none` models a raised
exception). -/
def Town.theme_point (t : Town) (no : Nat) : Option Int :=
  -- 宇宙人をつかまえた数が多い
  if no = 1 then do
    let a := t.paths.foldl (fun n p => p.get_objects.foldl (fun n o =>
      match o with
      | .alien _ _ c _ _ _ => if !(!c) then n + 1 else n
      | _ => n) n) 0
    let b ← t.sum_faces (fun f => f.num_alien_offroad_captured)
    pure ((a + b : Nat) : Int)
  -- 2人のエージェントではさみうちにした宇宙人の数が多い
  else if no = 2 then
    let lst := t.paths.foldl (fun lst p =>
      (p.get_objects.foldl theme2_step (false, 0, lst)).2.2) []
    pure ((lst.foldl max 0 : Nat) : Int)
  -- となりあっている『犬がいるタイル』の数が多い
  else if no = 3 then do
    let dog_exists ← t.face_positions (fun f => 0 < f.num_dog)
    if 0 < dog_exists.length then do
      let m ← Town.most_adjacent dog_exists
      pure (m : Int)
    else pure 0
  -- 町を完成させるのが早い
  else if no = 4 then pure 0
  -- 道が長い
  else if no = 5 then do
    let m ← (t.paths.map (fun p => p.get_length)).max?
    pure (m : Int)
  -- カーブの数が多い
  else if no = 6 then do
    let n ← t.sum_faces (fun f =>
      f.roads.foldl (fun n r => n + (if r.is_curve then 1 else 0)) 0)
    pure (n : Int)
  -- 家の数が多い
  else if no = 7 then do
    let n ← t.sum_faces (fun f => f.num_house)
    pure (n : Int)
  -- 【宇宙人の数×ハンバーガーの数】が大きい
  else if no = 8 then
    let na := t.paths.foldl (fun n p => p.get_objects.foldl (fun n o =>
      match o with
      | .alien _ _ c _ _ _ => if !c then n + 1 else n
      | _ => n) n) 0
    let nh := t.paths.foldl (fun n p => p.get_objects.foldl (fun n o =>
      match o with
      | .hamburger _ _ => n + 1
      | _ => n) n) 0
    pure ((na * nh : Nat) : Int)
  -- エージェントの数が多い
  else if no = 9 then do
    let n ← t.sum_faces (fun f => f.get_num_agent)
    pure (n : Int)
  -- 道の本数が多い
  else if no = 10 then pure (t.paths.length : Int)
  -- 『道のないタイル』の数が多い
  else if no = 11 then do
    let n ← t.sum_faces (fun f => if f.roads.length = 0 then 1 else 0)
    pure (n : Int)
  -- 犬の数が多い
  else if no = 12 then do
    let n ← t.sum_faces (fun f => f.num_dog)
    pure (n : Int)
  -- 同じ長さの道の本数が多い
  else if no = 13 then do
    let lens := t.paths.map (fun p => p.get_length)
    let m ← (lens.dedup.map (fun x => lens.count x)).max?
    pure (m : Int)
  -- ひとつの道にいるエージェントの数が多い
  else if no = 14 then
    let lst := t.paths.map (fun p => p.get_objects.foldl (fun n o =>
      match o with
      | .agent _ _ _ _ => n + 1
      | _ => n) 0)
    pure ((lst.foldl max 0 : Nat) : Int)
  -- 道の本数が少ない
  else if no = 15 then pure (-(t.paths.length : Int))
  -- 1匹の宇宙人が向いている方向にあるハンバーガーの数が多い
  else if no = 16 then
    let lst := t.paths.foldl (fun lst p =>
      let r := p.get_objects.foldl theme16_step (0, false, lst)
      if r.2.1 then r.2.2 ++ [r.1] else r.2.2) []
    pure ((lst.foldl max 0 : Nat) : Int)
  -- 【UFO の数×宇宙人の数】が多い
  else if no = 17 then do
    let nu ← t.sum_faces (fun f => f.num_ufo)
    let na := t.paths.foldl (fun n p => p.get_objects.foldl (fun n o =>
      match o with
      | .alien _ _ c _ _ _ => if !c then n + 1 else n
      | _ => n) n) 0
    pure ((nu * na : Nat) : Int)
  -- ひとつの道でエージェントの方向を向いている宇宙人の数が多い
  else if no = 18 then
    let lst := t.paths.foldl (fun lst p =>
      let r := p.get_objects.foldl theme18_step (false, 0, 0, lst)
      if r.1 then r.2.2.2 ++ [r.2.2.1] else r.2.2.2) []
    pure ((lst.foldl max 0 : Nat) : Int)
  -- ひとつの道にいる宇宙人の数が多い
  else if no = 19 then
    let lst := t.paths.map (fun p => p.get_objects.foldl (fun n o =>
      match o with
      | .alien _ _ c _ _ _ => if !c then n + 1 else n
      | _ => n) 0)
    pure ((lst.foldl max 0 : Nat) : Int)
  -- 町にある【エージェント+宇宙人+ハンバーガー】の組み合わせの数が多い
  else if no = 20 then
    let n := t.paths.foldl (fun num p =>
      (p.get_objects.foldl theme20_step (num, SeqEnd.noneE, SeqEnd.noneE)).1) 0
    pure ((n : Nat) : Int)
  -- となりあっている『宇宙人がいないタイル』の数が多い
  else if no = 21 then do
    let alien_not_exists ← t.face_positions (fun f => !f.alien_exist)
    if 0 < alien_not_exists.length then do
      let m ← Town.most_adjacent alien_not_exists
      pure (m : Int)
    else pure 0
  -- となりあっている『市民がいるタイル』の数が多い
  else if no = 22 then do
    let citizen_exists ← t.face_positions (fun f => 0 < f.get_num_citizen)
    if 0 < citizen_exists.length then do
      let m ← Town.most_adjacent citizen_exists
      pure (m : Int)
    else pure 0
  -- となりあっている『家があるタイル』の数が多い
  else if no = 23 then do
    let house_exists ← t.face_positions (fun f => 0 < f.num_house)
    if 0 < house_exists.length then do
      let m ← Town.most_adjacent house_exists
      pure (m : Int)
    else pure 0
  -- 【市民1人 + 犬1匹】のペアの数が多い
  else if no = 24 then do
    let nc ← t.sum_faces (fun f => f.get_num_citizen)
    let nd ← t.sum_faces (fun f => f.num_dog)
    pure ((min nc nd : Nat) : Int)
  -- 女の子の数が多い
  else if no = 25 then do
    let n ← t.sum_faces (fun f => f.num_girl)
    pure (n : Int)
  -- 男の子の数が多い
  else if no = 26 then do
    let n ← t.sum_faces (fun f => f.num_boy)
    pure (n : Int)
  else pure 0

/-! ## C4: the `[right Agent, right Alien, Hamburger]` end-to-end path -/

/-- The occupant sequence `[right-facing Agent, right-facing Alien,
Hamburger]` as `Path.__init__` builds it (directions set, states fresh). -/
def capture_seq_fresh (fa fb : Int) : List TownObject :=
  [.agent fa .right false none,
   .alien fb .right false none false none,
   .hamburger false []]

/-- The same sequence after `check_food_chain`: the agent captures the
alien, and the alien also eats the hamburger. -/
def capture_seq_resolved (fa fb : Int) : List TownObject :=
  [.agent fa .right true (some 1),
   .alien fb .right true (some 0) true (some 2),
   .hamburger true [1]]

/-- Resolving the fresh sequence yields exactly the resolved one. -/
theorem check_food_chain_capture_seq (le re : Int) (len : Nat) (fa fb : Int) :
    Path.check_food_chain
      { left_end := le, right_end := re, length := len,
        objects := capture_seq_fresh fa fb } =
    some { left_end := le, right_end := re, length := len,
           objects := capture_seq_resolved fa fb } := rfl

/-- C4 (amended): in a town whose derived paths are exactly one path that
resolves from `[right Agent, right Alien, Hamburger]`, with one agent on
the faces and no off-road captured alien, theme 20 scores 1, theme 9
scores 1, and theme 1 scores 1 — not 0: the right-facing agent captures
the alien (the alien also eats the hamburger, but eating does not affect
theme 1). -/
theorem theme_points_capture_path (t : Town) (p : Path)
    (le re : Int) (len : Nat) (fa fb : Int)
    (hres : Path.check_food_chain
      { left_end := le, right_end := re, length := len,
        objects := capture_seq_fresh fa fb } = some p)
    (hpaths : t.paths = [p])
    (hagents : t.sum_faces (fun f => f.get_num_agent) = some 1)
    (hoffroad : t.sum_faces (fun f => f.num_alien_offroad_captured) = some 0) :
    t.theme_point 20 = some 1 ∧ t.theme_point 9 = some 1 ∧
    t.theme_point 1 = some 1 := by
  rw [check_food_chain_capture_seq] at hres
  have hp : p = { left_end := le, right_end := re, length := len,
                  objects := capture_seq_resolved fa fb } :=
    Option.some_injective _ hres.symm
  subst hp
  refine ⟨?_, ?_, ?_⟩
  · have h20 : t.theme_point 20 = some
        (((t.paths.foldl (fun num p =>
          (p.get_objects.foldl theme20_step (num, SeqEnd.noneE, SeqEnd.noneE)).1) 0 : Nat) : Int)) := rfl
    rw [h20, hpaths]
    rfl
  · have h9 : t.theme_point 9 = (t.sum_faces (fun f => f.get_num_agent)).bind
        (fun n => some ((n : Nat) : Int)) := rfl
    rw [h9, hagents]
    rfl
  · have h1 : t.theme_point 1 =
        (t.sum_faces (fun f => f.num_alien_offroad_captured)).bind
          (fun b => some (((t.paths.foldl (fun n p =>
            p.get_objects.foldl (fun n o =>
              match o with
              | .alien _ _ c _ _ _ => if !(!c) then n + 1 else n
              | _ => n) n) 0) + b : Nat) : Int)) := rfl
    rw [h1, hoffroad, hpaths]
    rfl

/-- A nine-face town carrying exactly the one path above and one agent on
its faces. -/
def capture_town : Town :=
  { face :=
      [some { roads := [{ initial_edge := 0, terminal_edge := 1,
                          agent_face := some 1 }], num_girl := 1 },
       some {}, some {}, some {}, some {}, some {}, some {}, some {}, some {}],
    making_failed := false,
    paths := [{ left_end := 0, right_end := 1, length := 1,
                objects := capture_seq_resolved 0 1 }] }

/-- C4 counterexample: `capture_town` satisfies every hypothesis of the
claim (one derived path resolving from `[right Agent, Alien, Hamburger]`,
no other agents, no off-road captured aliens), yet theme 1 scores 1, not
the claimed 0. -/
theorem theme1_capture_counterexample :
    Path.check_food_chain
      { left_end := 0, right_end := 1, length := 1,
        objects := capture_seq_fresh 0 1 } =
      some { left_end := 0, right_end := 1, length := 1,
             objects := capture_seq_resolved 0 1 } ∧
    capture_town.paths = [{ left_end := 0, right_end := 1, length := 1,
                            objects := capture_seq_resolved 0 1 }] ∧
    capture_town.sum_faces (fun f => f.get_num_agent) = some 1 ∧
    capture_town.sum_faces (fun f => f.num_alien_offroad_captured) = some 0 ∧
    capture_town.theme_point 1 = some 1 ∧
    capture_town.theme_point 1 ≠ some 0 :=
  ⟨rfl, rfl, by decide, by decide, by decide, by decide⟩

/-- Witness for C4's amended theorem at `capture_town`. -/
theorem theme_points_capture_path_witness :
    capture_town.theme_point 20 = some 1 ∧
    capture_town.theme_point 9 = some 1 ∧
    capture_town.theme_point 1 = some 1 :=
  theme_points_capture_path capture_town _ 0 1 1 0 1 rfl rfl
    (by decide) (by decide)

/-! ## C9: theme behaviour on an empty path list -/

/-- `sum_faces` never raises when all nine faces are assigned. -/
theorem sum_faces_isSome (t : Town) (hfaces : ∀ f? ∈ t.face, f?.isSome)
    (g : TileFace → Nat) : (t.sum_faces g).isSome := by
  unfold Town.sum_faces
  suffices h : ∀ (l : List (Option TileFace)) (init : Nat),
      (∀ f? ∈ l, f?.isSome) →
      (l.foldlM (fun (n : Nat) (f? : Option TileFace) =>
        f?.map (fun face => n + g face)) init).isSome by
    exact h t.face 0 hfaces
  intro l
  induction l with
  | nil => intro init _; exact rfl
  | cons hd tl ih =>
      intro init hl
      rcases Option.isSome_iff_exists.mp (hl hd (List.mem_cons_self hd tl)) with ⟨f, hf⟩
      rw [List.foldlM_cons, hf]
      simpa using ih (init + g f) (fun x hx => hl x (List.mem_cons_of_mem _ hx))

/-- `face_positions` never raises when all faces are assigned, and every
returned position is a valid index. -/
theorem face_positions_isSome (t : Town) (hfaces : ∀ f? ∈ t.face, f?.isSome)
    (pred : TileFace → Bool) :
    ∃ ps, t.face_positions pred = some ps ∧ ∀ p ∈ ps, p < t.face.length := by
  unfold Town.face_positions
  suffices h : ∀ (l : List (Nat × Option TileFace)) (acc : List Nat),
      (∀ x ∈ l, x.2.isSome) →
      ∃ ps, (l.foldlM (fun (acc : List Nat) (pf : Nat × Option TileFace) =>
          pf.2.map (fun face => if pred face then acc ++ [pf.1] else acc)) acc) = some ps ∧
        ∀ p ∈ ps, p ∈ acc ∨ ∃ x ∈ l, x.1 = p by
    rcases h t.face.enum [] (fun x hx => by
      have hg := List.mem_enum_iff_getElem?.mp hx
      rcases List.getElem?_eq_some_iff.mp hg with ⟨hlt, hEq⟩
      have : x.2 ∈ t.face := hEq ▸ List.getElem_mem hlt
      exact hfaces x.2 this) with ⟨ps, hps, hmem⟩
    refine ⟨ps, hps, fun p hp => ?_⟩
    rcases hmem p hp with h | ⟨x, hx, rfl⟩
    · simp at h
    · have hg := List.mem_enum_iff_getElem?.mp hx
      exact (List.getElem?_eq_some_iff.mp hg).1
  intro l
  induction l with
  | nil => intro acc _; exact ⟨acc, rfl, fun p hp => Or.inl hp⟩
  | cons hd tl ih =>
      intro acc hl
      rcases Option.isSome_iff_exists.mp (hl hd (List.mem_cons_self hd tl)) with ⟨f, hf⟩
      rw [List.foldlM_cons, hf]
      rcases ih (if pred f then acc ++ [hd.1] else acc)
        (fun x hx => hl x (List.mem_cons_of_mem _ hx)) with ⟨ps, hps, hmem⟩
      refine ⟨ps, by simpa using hps, fun p hp => ?_⟩
      rcases hmem p hp with h | ⟨x, hx, rfl⟩
      · by_cases hpred : pred f
        · rw [if_pos hpred] at h
          rcases List.mem_append.mp h with h | h
          · exact Or.inl h
          · exact Or.inr ⟨hd, List.mem_cons_self hd tl,
              (List.mem_singleton.mp h).symm⟩
        · rw [if_neg hpred] at h
          exact Or.inl h
      · exact Or.inr ⟨x, List.mem_cons_of_mem _ hx, rfl⟩

/-- `most_adjacent` never raises on a nonempty in-range position list. -/
theorem most_adjacent_isSome (ps : List Nat) (p : Nat) (hp : p ∈ ps)
    (hbound : ∀ q ∈ ps, q < NUM_TILE) : (Town.most_adjacent ps).isSome := by
  unfold Town.most_adjacent
  have hmem : p ∈ (ps.filter (fun q => q < NUM_TILE)).dedup := by
    rw [List.mem_dedup]
    exact List.mem_filter.mpr ⟨hp, by simpa using hbound p hp⟩
  have hne : (ps.filter (fun q => q < NUM_TILE)).dedup ≠ [] :=
    List.ne_nil_of_mem hmem
  rw [if_neg (by simpa using hne)]
  rcases List.exists_cons_of_ne_nil hne with ⟨x, xs, hx⟩
  rw [hx]
  simp [List.max?_cons]

/-- C9 (amended): for a town whose nine faces are all assigned but whose
path list is empty, themes 5 and 13 raise (`max` of an empty sequence)
while every other theme 1–26 returns an integer; the other per-path
maximum themes (2, 14, 16, 18, 19) return 0 thanks to their 0 seed.
(The original claim also covered towns whose making failed; those have
unassigned faces, on which the face-scanning themes raise too.) -/
theorem theme_points_empty_path_list (t : Town)
    (hpaths : t.paths = [])
    (hlen : t.face.length = NUM_TILE)
    (hfaces : ∀ f? ∈ t.face, f?.isSome) :
    t.theme_point 5 = none ∧ t.theme_point 13 = none ∧
    (∀ no, 1 ≤ no → no ≤ NUM_THEME → no ≠ 5 → no ≠ 13 →
      (t.theme_point no).isSome) ∧
    t.theme_point 2 = some 0 ∧ t.theme_point 14 = some 0 ∧
    t.theme_point 16 = some 0 ∧ t.theme_point 18 = some 0 ∧
    t.theme_point 19 = some 0 := by
  have hsum : ∀ g : TileFace → Nat, ∃ v, t.sum_faces g = some v :=
    fun g => Option.isSome_iff_exists.mp (sum_faces_isSome t hfaces g)
  have hcluster : ∀ pred : TileFace → Bool,
      ∃ ps, t.face_positions pred = some ps ∧
        (0 < ps.length → ∃ m, Town.most_adjacent ps = some m) := by
    intro pred
    rcases face_positions_isSome t hfaces pred with ⟨ps, hps, hbnd⟩
    refine ⟨ps, hps, fun hlen0 => ?_⟩
    rcases List.exists_mem_of_ne_nil ps (List.ne_nil_of_length_pos hlen0) with ⟨p, hp⟩
    exact Option.isSome_iff_exists.mp (most_adjacent_isSome ps p hp
      (fun q hq => hlen ▸ hbnd q hq))
  have h2 : t.theme_point 2 = some 0 := by
    simp [Town.theme_point, hpaths]
  have h14 : t.theme_point 14 = some 0 := by
    simp [Town.theme_point, hpaths]
  have h16 : t.theme_point 16 = some 0 := by
    simp [Town.theme_point, hpaths]
  have h18 : t.theme_point 18 = some 0 := by
    simp [Town.theme_point, hpaths]
  have h19 : t.theme_point 19 = some 0 := by
    simp [Town.theme_point, hpaths]
  refine ⟨?_, ?_, ?_, h2, h14, h16, h18, h19⟩
  · simp [Town.theme_point, hpaths]
  · simp [Town.theme_point, hpaths]
  · intro no h1 h26 hne5 hne13
    have h26n : no ≤ 26 := h26
    clear h26
    interval_cases no
    · rcases hsum (fun f => f.num_alien_offroad_captured) with ⟨v, hv⟩
      simp [Town.theme_point, hpaths, hv]
    · rw [h2]; rfl
    · rcases hcluster (fun f => 0 < f.num_dog) with ⟨ps, hps, hm⟩
      by_cases h0 : 0 < ps.length
      · rcases hm h0 with ⟨m, hmm⟩
        simp [Town.theme_point, hps, h0, hmm]
      · simp [Town.theme_point, hps, h0]
    · simp [Town.theme_point]
    · exact absurd rfl hne5
    · rcases hsum (fun f =>
        f.roads.foldl (fun n r => n + (if r.is_curve then 1 else 0)) 0) with ⟨v, hv⟩
      simp [Town.theme_point, hv]
    · rcases hsum (fun f => f.num_house) with ⟨v, hv⟩
      simp [Town.theme_point, hv]
    · simp [Town.theme_point, hpaths]
    · rcases hsum (fun f => f.get_num_agent) with ⟨v, hv⟩
      simp [Town.theme_point, hv]
    · simp [Town.theme_point]
    · rcases hsum (fun f => if f.roads = [] then 1 else 0) with ⟨v, hv⟩
      simp [Town.theme_point, hv]
    · rcases hsum (fun f => f.num_dog) with ⟨v, hv⟩
      simp [Town.theme_point, hv]
    · exact absurd rfl hne13
    · rw [h14]; rfl
    · simp [Town.theme_point]
    · rw [h16]; rfl
    · rcases hsum (fun f => f.num_ufo) with ⟨v, hv⟩
      simp [Town.theme_point, hpaths, hv]
    · rw [h18]; rfl
    · rw [h19]; rfl
    · simp [Town.theme_point, hpaths]
    · rcases hcluster (fun f => !f.alien_exist) with ⟨ps, hps, hm⟩
      by_cases h0 : 0 < ps.length
      · rcases hm h0 with ⟨m, hmm⟩
        simp [Town.theme_point, hps, h0, hmm]
      · simp [Town.theme_point, hps, h0]
    · rcases hcluster (fun f => 0 < f.get_num_citizen) with ⟨ps, hps, hm⟩
      by_cases h0 : 0 < ps.length
      · rcases hm h0 with ⟨m, hmm⟩
        simp [Town.theme_point, hps, h0, hmm]
      · simp [Town.theme_point, hps, h0]
    · rcases hcluster (fun f => 0 < f.num_house) with ⟨ps, hps, hm⟩
      by_cases h0 : 0 < ps.length
      · rcases hm h0 with ⟨m, hmm⟩
        simp [Town.theme_point, hps, h0, hmm]
      · simp [Town.theme_point, hps, h0]
    · rcases hsum (fun f => f.get_num_citizen) with ⟨v, hv⟩
      rcases hsum (fun f => f.num_dog) with ⟨w, hw⟩
      simp [Town.theme_point, hv, hw]
    · rcases hsum (fun f => f.num_girl) with ⟨v, hv⟩
      simp [Town.theme_point, hv]
    · rcases hsum (fun f => f.num_boy) with ⟨v, hv⟩
      simp [Town.theme_point, hv]

/-- A fully placed town with no roads at all (every face empty). -/
def roadless_town : Town :=
  { face := List.replicate NUM_TILE (some {}), making_failed := false, paths := [] }

/-- Witness for C9's amended theorem at `roadless_town`. -/
theorem theme_points_empty_path_list_witness :
    roadless_town.theme_point 5 = none ∧
    (roadless_town.theme_point 1).isSome = true :=
  ⟨(theme_points_empty_path_list roadless_town rfl (by decide) (by decide)).1,
   (theme_points_empty_path_list roadless_town rfl (by decide)
      (by decide)).2.2.1 1 (by decide) (by decide) (by decide) (by decide)⟩

/-- C9 counterexample: a failed town (no face assigned) has an empty path
list, yet theme 1 — which the claim says returns an integer — raises on
the unassigned faces. -/
theorem theme_point_failed_town_raises :
    ({ face := List.replicate NUM_TILE none, making_failed := true,
       paths := [] } : Town).paths = [] ∧
    ({ face := List.replicate NUM_TILE none, making_failed := true,
       paths := [] } : Town).theme_point 1 = none := by
  exact ⟨rfl, by decide⟩

/-! ## `utils.Search`: synonym-to-original expansion (`convert_synonym_original`)

Patterns are digit lists (`int(c)` of each character).  `itertools`
iterators are embedded as list producers; only membership in the produced
list matters for the claims. -/

/-- `Search.replace`: `s[:n] + str(c) + s[n+1:]`. -/
def Search.replace (s : List Nat) (n : Nat) (c : Nat) : List Nat :=
  s.take n ++ [c] ++ s.drop (n + 1)

/-- `Search.rotate`: flip/rotate the placement digit at index `n` by `a`:
`((s[n] // 4 + a // 4) % 2) * 4 + (s[n] % 4 + a) % 4` (only in-range `n`
is ever used; `getD` stands for the checked `s[n]`). -/
def Search.rotate (s : List Nat) (n : Nat) (a : Nat) : List Nat :=
  Search.replace s n (((s.getD n 0 / 4 + a / 4) % 2) * 4 + (s.getD n 0 % 4 + a) % 4)

/-- `itertools.permutations(l, r)`: all length-`r` sequences of entries
of `l` at pairwise distinct positions, in index order. -/
def rperms {α : Type} : List α → Nat → List (List α)
  | _, 0 => [[]]
  | l, r + 1 =>
      l.enum.flatMap (fun ke => (rperms (l.eraseIdx ke.1) r).map (ke.2 :: ·))

/-- `itertools.product(*ls)`: all choices of one entry per list. -/
def list_product {α : Type} : List (List α) → List (List α)
  | [] => [[]]
  | l :: ls => l.flatMap (fun x => (list_product ls).map (x :: ·))

/-- `synonym_original_ref`: for each road-shape class, the groups of
`(tile index, placement code)` pairs that realise the shape (two-digit
strings `"td"` in the source). -/
def synonym_original_ref : Nat → List (List (Nat × Nat))
  | 0 => [[(0, 0)], [(3, 0)], [(5, 4)]]
  | 1 => [[(1, 0)], [(2, 6)], [(5, 0)], [(8, 0)]]
  | 2 => [[(0, 4), (0, 6)], [(2, 1), (2, 3)], [(4, 1), (4, 3)], [(7, 1), (7, 3)]]
  | 3 => [[(3, 4)], [(6, 4), (6, 6)], [(7, 4), (7, 6)], [(8, 4)]]
  | 4 => [[(1, 4), (1, 5), (1, 6), (1, 7)], [(4, 4), (4, 5)], [(6, 0), (6, 1), (6, 2), (6, 3)]]
  | _ => []

/-- The number of road-shape classes (`num_synonym`). -/
def num_synonym : Nat := 5

/-- The class-to-positions index (`indices` in the source): fold over
`enumerate(position_synonym)`; a class digit outside 0–4 raises
(`IndexError`), modelled as `none`. -/
def synonym_indices (position_synonym : List Nat) : Option (List (List Nat)) :=
  position_synonym.enum.foldlM
    (fun (idx : List (List Nat)) pi =>
      if pi.2 < num_synonym then
        some (idx.set pi.2 (idx.getD pi.2 [] ++ [pi.1]))
      else none)
    (List.replicate num_synonym [])

/-- `Search.convert_synonym_original`: expand one synonym pattern into
all concrete arrangement patterns, keeping only combinations whose nine
tile indices are pairwise distinct. -/
def Search.convert_synonym_original (pattern_synonym : List Nat) :
    Option (List (List Nat)) := do
  let position_synonym := pattern_synonym.take NUM_TILE
  let direction_synonym := pattern_synonym.drop NUM_TILE
  let indices ← synonym_indices position_synonym
  let tilefaces := (List.range num_synonym).map (fun i =>
    (rperms (synonym_original_ref i) (position_synonym.count i)).flatMap
      (fun groups => list_product groups))
  pure ((list_product tilefaces).filterMap (fun tileface_set =>
    if ((tileface_set.flatten.map (fun c => c.1)).dedup).length = NUM_TILE then
      some (
        let pd := (List.range num_synonym).foldl
          (fun (pd : List Nat × List Nat) i =>
            (tileface_set.getD i []).enum.foldl (fun pd jc =>
              (Search.replace pd.1 ((indices.getD i []).getD jc.1 0) jc.2.1,
               Search.rotate pd.2 ((indices.getD i []).getD jc.1 0) jc.2.2)) pd)
          (position_synonym, direction_synonym)
        pd.1 ++ pd.2)
    else none))

/-! ## C7: every emitted arrangement uses each tile exactly once -/

theorem replace_eq_set (s : List Nat) (n c : Nat) (h : n < s.length) :
    Search.replace s n c = s.set n c := by
  induction s generalizing n with
  | nil => simp at h
  | cons hd tl ih =>
      cases n with
      | zero => rfl
      | succ m =>
          have hm : m < tl.length := by simpa using h
          show hd :: Search.replace tl m c = hd :: tl.set m c
          rw [ih m hm]

theorem replace_length (s : List Nat) (n c : Nat) (h : n < s.length) :
    (Search.replace s n c).length = s.length := by
  rw [replace_eq_set s n c h]
  simp

theorem replace_getD_same (s : List Nat) (n c : Nat) (h : n < s.length) :
    (Search.replace s n c).getD n 0 = c := by
  rw [replace_eq_set s n c h, List.getD_eq_getElem?_getD, ← List.get?_eq_getElem?,
    List.get?_set_eq_of_lt c h]
  rfl

theorem replace_getD_other (s : List Nat) (n c k : Nat) (hn : n < s.length)
    (hk : k ≠ n) :
    (Search.replace s n c).getD k 0 = s.getD k 0 := by
  rw [replace_eq_set s n c hn, List.getD_eq_getElem?_getD, ← List.get?_eq_getElem?,
    List.get?_set_ne c s (fun hc => hk hc.symm), List.get?_eq_getElem?,
    ← List.getD_eq_getElem?_getD]

/-- The position half of the substitution loop, as a write list. -/
def apply_writes (s : List Nat) (ws : List (Nat × Nat)) : List Nat :=
  ws.foldl (fun s w => Search.replace s w.1 w.2) s

theorem apply_writes_length (ws : List (Nat × Nat)) (s : List Nat)
    (h : ∀ w ∈ ws, w.1 < s.length) :
    (apply_writes s ws).length = s.length := by
  induction ws generalizing s with
  | nil => rfl
  | cons w rest ih =>
      have hw : w.1 < s.length := h w (List.mem_cons_self w rest)
      have hlen := replace_length s w.1 w.2 hw
      show (apply_writes (Search.replace s w.1 w.2) rest).length = s.length
      rw [ih (Search.replace s w.1 w.2)
        (fun x hx => by rw [hlen]; exact h x (List.mem_cons_of_mem _ hx)), hlen]

theorem apply_writes_getD_untouched (ws : List (Nat × Nat)) (s : List Nat)
    (k : Nat) (hbound : ∀ w ∈ ws, w.1 < s.length) (hmiss : k ∉ ws.map Prod.fst) :
    (apply_writes s ws).getD k 0 = s.getD k 0 := by
  induction ws generalizing s with
  | nil => rfl
  | cons w rest ih =>
      have hw : w.1 < s.length := hbound w (List.mem_cons_self w rest)
      have hlen := replace_length s w.1 w.2 hw
      have hk : k ≠ w.1 := fun hc => hmiss (by simp [hc])
      show (apply_writes (Search.replace s w.1 w.2) rest).getD k 0 = s.getD k 0
      rw [ih (Search.replace s w.1 w.2)
          (fun x hx => by rw [hlen]; exact hbound x (List.mem_cons_of_mem _ hx))
          (fun hc => hmiss (by simp at hc ⊢; exact Or.inr hc)),
        replace_getD_other s w.1 w.2 k hw hk]

theorem apply_writes_getD_written (ws : List (Nat × Nat)) (s : List Nat)
    (k v : Nat) (hnodup : (ws.map Prod.fst).Nodup)
    (hbound : ∀ w ∈ ws, w.1 < s.length) (hmem : (k, v) ∈ ws) :
    (apply_writes s ws).getD k 0 = v := by
  induction ws generalizing s with
  | nil => simp at hmem
  | cons w rest ih =>
      have hw : w.1 < s.length := hbound w (List.mem_cons_self w rest)
      have hlen := replace_length s w.1 w.2 hw
      have hbound' : ∀ x ∈ rest, x.1 < (Search.replace s w.1 w.2).length :=
        fun x hx => by rw [hlen]; exact hbound x (List.mem_cons_of_mem _ hx)
      rcases List.mem_cons.mp hmem with rfl | hmem'
      · show (apply_writes (Search.replace s k v) rest).getD k 0 = v
        rw [apply_writes_getD_untouched rest (Search.replace s k v) k hbound'
            (by simpa using (List.nodup_cons.mp hnodup).1),
          replace_getD_same s k v hw]
      · show (apply_writes (Search.replace s w.1 w.2) rest).getD k 0 = v
        exact ih _ (List.nodup_cons.mp hnodup).2 hbound' hmem'

theorem foldl_pair {α β γ : Type} (F : α → γ → α) (G : β → γ → β)
    (L : List γ) (a : α) (b : β) :
    L.foldl (fun pd x => (F pd.1 x, G pd.2 x)) (a, b) =
      (L.foldl F a, L.foldl G b) := by
  induction L generalizing a b with
  | nil => rfl
  | cons x xs ih => exact ih (F a x) (G b x)

theorem foldl_flatMap {α γ : Type} (f : α → γ → α) (g : β → List γ)
    (L : List β) (a : α) :
    (L.flatMap g).foldl f a = L.foldl (fun a x => (g x).foldl f a) a := by
  induction L generalizing a with
  | nil => rfl
  | cons x xs ih =>
      rw [List.flatMap_cons, List.foldl_append, ih]
      rfl

theorem range_flatMap_getD {α : Type} (L : List (List α)) :
    (List.range L.length).flatMap (fun i => L.getD i []) = L.flatten := by
  induction L with
  | nil => rfl
  | cons x xs ih =>
      rw [List.length_cons, List.range_succ_eq_map, List.flatMap_cons,
        List.flatMap_map, List.flatten_cons]
      exact congrArg (fun t => x ++ t) ih

theorem enumFrom_map_getD (l2 : List α) (l : List Nat) (n : Nat)
    (h : n + l2.length = l.length) :
    (l2.enumFrom n).map (fun jc => l.getD jc.1 0) = l.drop n := by
  induction l2 generalizing n with
  | nil =>
      simp only [List.enumFrom_nil, List.map_nil]
      symm
      rw [List.drop_eq_nil_iff]
      simp only [List.length_nil, Nat.add_zero] at h
      omega
  | cons x xs ih =>
      rw [List.enumFrom_cons, List.map_cons, ih (n + 1) (by simp at h; omega)]
      have hn : n < l.length := by simp at h; omega
      rw [List.getD_eq_getElem?_getD, List.getElem?_eq_getElem hn]
      rw [List.drop_eq_getElem_cons hn]
      rfl

theorem rperms_mem {α : Type} (r : Nat) (l : List α) (x : List α)
    (h : x ∈ rperms l r) : x.length = r ∧ ∀ y ∈ x, y ∈ l := by
  induction r generalizing l x with
  | zero =>
      unfold rperms at h
      rcases List.mem_singleton.mp h with rfl
      exact ⟨rfl, by simp⟩
  | succ n ih =>
      unfold rperms at h
      rcases List.mem_flatMap.mp h with ⟨ke, hke, hx⟩
      rcases List.mem_map.mp hx with ⟨t, ht, rfl⟩
      rcases ih (l.eraseIdx ke.1) t ht with ⟨hlen, hmem⟩
      have hke2 : ke.2 ∈ l := by
        have := List.mem_enum_iff_getElem?.mp hke
        rcases List.getElem?_eq_some_iff.mp this with ⟨hlt, hEq⟩
        exact hEq ▸ List.getElem_mem hlt
      refine ⟨by simp [hlen], fun y hy => ?_⟩
      rcases List.mem_cons.mp hy with rfl | hy'
      · exact hke2
      · exact (List.eraseIdx_sublist l ke.1).subset (hmem y hy')

theorem list_product_mem {α : Type} (ls : List (List α)) (x : List α)
    (h : x ∈ list_product ls) :
    List.Forall₂ (fun a l => a ∈ l) x ls := by
  induction ls generalizing x with
  | nil =>
      unfold list_product at h
      rcases List.mem_singleton.mp h with rfl
      exact List.Forall₂.nil
  | cons l rest ih =>
      unfold list_product at h
      rcases List.mem_flatMap.mp h with ⟨a, ha, hx⟩
      rcases List.mem_map.mp hx with ⟨t, ht, rfl⟩
      exact List.Forall₂.cons ha (ih t ht)

theorem synonym_indices_fold (l : List (Nat × Nat)) (idx0 idxf : List (List Nat))
    (hlen0 : idx0.length = num_synonym)
    (h : l.foldlM (fun (idx : List (List Nat)) pi =>
        if pi.2 < num_synonym then
          some (idx.set pi.2 (idx.getD pi.2 [] ++ [pi.1]))
        else none) idx0 = some idxf) :
    (∀ x ∈ l, x.2 < num_synonym) ∧ idxf.length = num_synonym ∧
    ∀ i, i < num_synonym → idxf.getD i [] =
      idx0.getD i [] ++ (l.filter (fun x => x.2 == i)).map Prod.fst := by
  induction l generalizing idx0 with
  | nil =>
      rcases Option.some_injective _ h with rfl
      refine ⟨?_, hlen0, ?_⟩
      · intro x hx
        cases hx
      · intro i _
        exact (List.append_nil _).symm
  | cons pd tl ih =>
      rw [List.foldlM_cons] at h
      by_cases hd : pd.2 < num_synonym
      · rw [if_pos hd] at h
        simp only [Option.pure_def, Option.bind_eq_bind, Option.some_bind] at h
        have hlen1 : (idx0.set pd.2 (idx0.getD pd.2 [] ++ [pd.1])).length =
            num_synonym := by simpa using hlen0
        rcases ih _ hlen1 h with ⟨hall, hlenf, hget⟩
        refine ⟨?_, hlenf, ?_⟩
        · intro x hx
          rcases List.mem_cons.mp hx with rfl | hx'
          · exact hd
          · exact hall x hx'
        · intro i hi
          rw [hget i hi, List.filter_cons]
          by_cases hdi : pd.2 = i
          · subst hdi
            rw [if_pos (by simp), List.map_cons]
            have : (idx0.set pd.2 (idx0.getD pd.2 [] ++ [pd.1])).getD pd.2 [] =
                idx0.getD pd.2 [] ++ [pd.1] := by
              rw [List.getD_eq_getElem?_getD, ← List.get?_eq_getElem?,
                List.get?_set_eq_of_lt _ (hlen0 ▸ hd)]
              rfl
            rw [this, List.append_assoc]
            rfl
          · rw [if_neg (by simpa using hdi)]
            have : (idx0.set pd.2 (idx0.getD pd.2 [] ++ [pd.1])).getD i [] =
                idx0.getD i [] := by
              rw [List.getD_eq_getElem?_getD, ← List.get?_eq_getElem?,
                List.get?_set_ne _ _ hdi, List.get?_eq_getElem?,
                ← List.getD_eq_getElem?_getD]
            rw [this]
      · rw [if_neg hd] at h
        simp at h

theorem enumFrom_filter_digit_length (ps : List Nat) (i : Nat) :
    ∀ n, ((ps.enumFrom n).filter (fun x => x.2 == i)).length = ps.count i := by
  induction ps with
  | nil => intro n; simp
  | cons d tl ih =>
      intro n
      rw [List.enumFrom_cons, List.filter_cons, List.count_cons]
      by_cases hdi : d = i
      · subst hdi
        rw [if_pos (by simp), List.length_cons, ih (n + 1)]
        simp
      · rw [if_neg (by simpa using hdi), ih (n + 1)]
        simp [Ne.symm hdi, hdi]

theorem idx_list_sublist_range (ps : List Nat) (φ : Nat × Nat → Bool) :
    ((ps.enum.filter φ).map Prod.fst).Sublist (List.range ps.length) := by
  have h1 : (ps.enum.filter φ).Sublist ps.enum := List.filter_sublist _
  have h2 := h1.map Prod.fst
  rwa [List.enum_map_fst] at h2

theorem mem_idx_list (ps : List Nat) (i p : Nat) :
    p ∈ (ps.enum.filter (fun x => x.2 == i)).map Prod.fst ↔ ps.get? p = some i := by
  constructor
  · intro h
    rcases List.mem_map.mp h with ⟨x, hx, rfl⟩
    rcases List.mem_filter.mp hx with ⟨hxe, hxi⟩
    have := List.mem_enum_iff_getElem?.mp hxe
    rw [List.get?_eq_getElem?, this]
    simpa using hxi
  · intro h
    refine List.mem_map.mpr ⟨(p, i), List.mem_filter.mpr ⟨?_, by simp⟩, rfl⟩
    exact List.mem_enum_iff_getElem?.mpr (by rwa [List.get?_eq_getElem?] at h)

theorem indicator_range_sum (n d : Nat) :
    ((List.range n).map (fun i => if d = i then 1 else 0)).sum =
      if d < n then 1 else 0 := by
  induction n with
  | zero => simp
  | succ m ih =>
      rw [List.range_succ, List.map_append, List.sum_append, ih]
      by_cases hdm : d = m
      · subst hdm
        simp [Nat.lt_irrefl, Nat.lt_succ_self]
      · by_cases hlt : d < m
        · simp [hdm, hlt, Nat.lt_succ_of_lt hlt]
        · have : ¬ d < m + 1 := by omega
          simp [hdm, hlt, this]

theorem counts_sum_eq_length (ps : List Nat) (n : Nat) (h : ∀ d ∈ ps, d < n) :
    ((List.range n).map (fun i => ps.count i)).sum = ps.length := by
  induction ps with
  | nil => simp
  | cons d tl ih =>
      have hd : d < n := h d (List.mem_cons_self d tl)
      have htl := ih (fun x hx => h x (List.mem_cons_of_mem _ hx))
      have hsplit : ∀ i : Nat, (d :: tl).count i = tl.count i + (if d = i then 1 else 0) := by
        intro i
        rw [List.count_cons]
        by_cases hdi : i = d
        · subst hdi; simp
        · simp [hdi, Ne.symm hdi]
      calc ((List.range n).map (fun i => (d :: tl).count i)).sum
          = ((List.range n).map (fun i => tl.count i + (if d = i then 1 else 0))).sum := by
            congr 1
            exact List.map_congr_left (fun i _ => hsplit i)
        _ = ((List.range n).map (fun i => tl.count i)).sum +
            ((List.range n).map (fun i => if d = i then 1 else 0)).sum := by
            rw [← List.sum_map_add]
        _ = tl.length + 1 := by rw [htl, indicator_range_sum, if_pos hd]
        _ = (d :: tl).length := by simp

theorem forall₂_mem_left {α β : Type} {R : α → β → Prop} {x : List α}
    {y : List β} (h : List.Forall₂ R x y) : ∀ a ∈ x, ∃ b ∈ y, R a b := by
  induction h with
  | nil => intro a ha; cases ha
  | cons hr _ ih =>
      intro a ha
      rcases List.mem_cons.mp ha with rfl | ha'
      · exact ⟨_, List.mem_cons_self _ _, hr⟩
      · rcases ih a ha' with ⟨b, hb, hab⟩
        exact ⟨b, List.mem_cons_of_mem _ hb, hab⟩

theorem getD_map_range {α : Type} (n i : Nat) (f : Nat → α) (d : α)
    (h : i < n) : ((List.range n).map f).getD i d = f i := by
  rw [List.getD_eq_getElem?_getD, List.getElem?_map, List.getElem?_range h]
  rfl

theorem forall₂_getD {α β : Type} {R : α → β → Prop} {x : List α} {y : List β}
    (h : List.Forall₂ R x y) (i : Nat) (hi : i < x.length) (dx : α) (dy : β) :
    R (x.getD i dx) (y.getD i dy) := by
  induction h generalizing i with
  | nil => simp at hi
  | cons hr hrest ih =>
      cases i with
      | zero => exact hr
      | succ m => exact ih m (by simpa using hi)

theorem nodup_of_dedup_length {α : Type} [DecidableEq α] (l : List α)
    (h : l.dedup.length = l.length) : l.Nodup := by
  have hsub := List.dedup_sublist l
  have heq := hsub.eq_of_length h
  rw [← heq]
  exact List.nodup_dedup l

theorem foldl_fun_congr {α γ : Type} (f g : α → γ → α)
    (h : ∀ a x, f a x = g a x) (l : List γ) (a : α) :
    l.foldl f a = l.foldl g a := by
  induction l generalizing a with
  | nil => rfl
  | cons x xs ih => rw [List.foldl_cons, List.foldl_cons, h, ih]

/-- C7: every arrangement pattern yielded by `convert_synonym_original`
on an 18-digit synonym pattern has, as its first nine digits, a
permutation of the tile indices 0–8 (each catalog tile used exactly
once). -/
theorem convert_synonym_original_uses_each_tile (pattern_synonym : List Nat)
    (outs : List (List Nat)) (out : List Nat)
    (hplen : pattern_synonym.length = NUM_TILE * 2)
    (hconv : Search.convert_synonym_original pattern_synonym = some outs)
    (hout : out ∈ outs) :
    (out.take NUM_TILE).Perm (List.range NUM_TILE) := by
  unfold Search.convert_synonym_original at hconv
  dsimp only at hconv
  rcases hsi : synonym_indices (pattern_synonym.take NUM_TILE) with _ | idx
  · rw [hsi] at hconv
    simp at hconv
  rw [hsi] at hconv
  simp only [Option.pure_def, Option.bind_eq_bind, Option.some_bind,
    Option.some.injEq] at hconv
  subst hconv
  rcases List.mem_filterMap.mp hout with ⟨ts, hts, hF⟩
  have hps_len : (pattern_synonym.take NUM_TILE).length = NUM_TILE := by
    rw [List.length_take, hplen]
    decide
  by_cases hguard :
      (List.map (fun c => c.1) ts.flatten).dedup.length = NUM_TILE
  swap
  · rw [if_neg hguard] at hF
    cases hF
  rw [if_pos hguard] at hF
  have hbody := Option.some_injective _ hF
  subst hbody
  -- facts about the class index table
  rcases synonym_indices_fold _ _ idx (by simp [num_synonym]) hsi
    with ⟨hdigits, hidxlen, hidxget⟩
  have hreplicate : ∀ i : Nat,
      (List.replicate num_synonym ([] : List Nat)).getD i [] = [] := by
    intro i
    rw [List.getD_eq_getElem?_getD, List.getElem?_replicate]
    by_cases hi : i < num_synonym <;> simp [hi]
  have hidx : ∀ i, i < num_synonym → idx.getD i [] =
      ((pattern_synonym.take NUM_TILE).enum.filter
        (fun x => x.2 == i)).map Prod.fst := by
    intro i hi
    rw [hidxget i hi, hreplicate i, List.nil_append]
  have hidx_len : ∀ i, i < num_synonym →
      (idx.getD i []).length = (pattern_synonym.take NUM_TILE).count i := by
    intro i hi
    rw [hidx i hi, List.length_map]
    exact enumFrom_filter_digit_length _ i 0
  have hidx_nodup : ∀ i, i < num_synonym → (idx.getD i []).Nodup := by
    intro i hi
    rw [hidx i hi]
    exact ((idx_list_sublist_range _ _).nodup) (List.nodup_range _)
  have hidx_bound : ∀ i, i < num_synonym → ∀ p ∈ idx.getD i [], p < NUM_TILE := by
    intro i hi p hp
    rw [hidx i hi] at hp
    have := (idx_list_sublist_range (pattern_synonym.take NUM_TILE)
      (fun x => x.2 == i)).subset hp
    rw [hps_len] at this
    exact List.mem_range.mp this
  have hidx_digit : ∀ i, i < num_synonym → ∀ p ∈ idx.getD i [],
      (pattern_synonym.take NUM_TILE).get? p = some i := by
    intro i hi p hp
    rw [hidx i hi] at hp
    exact (mem_idx_list _ i p).mp hp
  -- facts about the chosen code tuples
  have hts_f2 := list_product_mem _ ts hts
  have hts_len : ts.length = num_synonym := by
    have := hts_f2.length_eq
    simpa [num_synonym] using this
  have hts_i : ∀ i, i < num_synonym →
      (ts.getD i []).length = (pattern_synonym.take NUM_TILE).count i ∧
      ∀ c ∈ ts.getD i [], c ∈ (synonym_original_ref i).flatten := by
    intro i hi
    have hmem : ts.getD i [] ∈
        ((List.range num_synonym).map (fun i =>
          (rperms (synonym_original_ref i)
            ((pattern_synonym.take NUM_TILE).count i)).flatMap
            (fun groups => list_product groups))).getD i [] := by
      have := forall₂_getD hts_f2 i (by rw [hts_len]; exact hi) [] []
      exact this
    rw [getD_map_range num_synonym i _ [] hi] at hmem
    rcases List.mem_flatMap.mp hmem with ⟨groups, hgroups, htsi⟩
    rcases rperms_mem _ _ _ hgroups with ⟨hglen, hgmem⟩
    have hf2 := list_product_mem _ _ htsi
    constructor
    · rw [hf2.length_eq, hglen]
    · intro c hc
      rcases forall₂_mem_left hf2 c hc with ⟨g, hg, hcg⟩
      exact List.mem_flatten.mpr ⟨g, hgmem g hg, hcg⟩
  -- the write list of the position half
  have hws_key : ∀ (a : List Nat),
      ((List.range num_synonym).foldl (fun s i =>
        (ts.getD i []).enum.foldl (fun s jc =>
          Search.replace s ((idx.getD i []).getD jc.1 0) jc.2.1) s) a) =
      apply_writes a ((List.range num_synonym).flatMap (fun i =>
        ((ts.getD i []).enum).map (fun jc =>
          ((idx.getD i []).getD jc.1 0, jc.2.1)))) := by
    intro a
    unfold apply_writes
    rw [foldl_flatMap]
    refine foldl_fun_congr _ _ (fun s i => ?_) _ a
    rw [List.foldl_map]
  have flatMap_congr_mem : ∀ {α β : Type} (l : List α) (f g : α → List β),
      (∀ x ∈ l, f x = g x) → l.flatMap f = l.flatMap g := by
    intro α β l f g h
    induction l with
    | nil => rfl
    | cons x xs ih =>
        rw [List.flatMap_cons, List.flatMap_cons,
          h x (List.mem_cons_self x xs),
          ih (fun y hy => h y (List.mem_cons_of_mem _ hy))]
  have hws_fst : ((List.range num_synonym).flatMap (fun i =>
      ((ts.getD i []).enum).map (fun jc =>
        ((idx.getD i []).getD jc.1 0, jc.2.1)))).map Prod.fst = idx.flatten := by
    rw [List.map_flatMap]
    rw [flatMap_congr_mem (List.range num_synonym) _
      (fun i => idx.getD i []) ?_]
    · rw [show num_synonym = idx.length from hidxlen.symm]
      exact range_flatMap_getD idx
    · intro i hi
      have hi5 := List.mem_range.mp hi
      rw [List.map_map]
      have hlen0 : 0 + (ts.getD i []).length = (idx.getD i []).length := by
        rw [Nat.zero_add, (hts_i i hi5).1, hidx_len i hi5]
      have := enumFrom_map_getD (ts.getD i []) (idx.getD i []) 0 hlen0
      rw [List.drop_zero] at this
      exact this
  have hws_snd : ((List.range num_synonym).flatMap (fun i =>
      ((ts.getD i []).enum).map (fun jc =>
        ((idx.getD i []).getD jc.1 0, jc.2.1)))).map Prod.snd =
      ts.flatten.map (fun c => c.1) := by
    rw [List.map_flatMap]
    rw [flatMap_congr_mem (List.range num_synonym) _
      (fun i => (ts.getD i []).map (fun c => c.1)) ?_]
    · rw [← List.map_flatMap]
      rw [show num_synonym = ts.length from hts_len.symm, range_flatMap_getD ts]
    · intro i _
      rw [List.map_map]
      have h1 : ((ts.getD i []).enum).map
          (Prod.snd ∘ fun jc => ((idx.getD i []).getD jc.1 0, jc.2.1)) =
          (((ts.getD i []).enum).map Prod.snd).map (fun c => c.1) := by
        rw [List.map_map]
        rfl
      rw [h1, List.enum_map_snd]
  have hfst_nodup : (((List.range num_synonym).flatMap (fun i =>
      ((ts.getD i []).enum).map (fun jc =>
        ((idx.getD i []).getD jc.1 0, jc.2.1)))).map Prod.fst).Nodup := by
    rw [hws_fst]
    apply List.nodup_flatten.mpr
    constructor
    · intro l hl
      rcases List.mem_iff_getElem.mp hl with ⟨i, hilt, rfl⟩
      have : idx.getD i [] = idx[i] := by
        rw [List.getD_eq_getElem?_getD, List.getElem?_eq_getElem hilt]
        rfl
      rw [← this]
      exact hidx_nodup i (hidxlen ▸ hilt)
    · apply List.pairwise_iff_getElem.mpr
      intro i j hi hj hij
      intro p hpi hpj
      have hgi : idx.getD i [] = idx[i] := by
        rw [List.getD_eq_getElem?_getD, List.getElem?_eq_getElem hi]
        rfl
      have hgj : idx.getD j [] = idx[j] := by
        rw [List.getD_eq_getElem?_getD, List.getElem?_eq_getElem hj]
        rfl
      have hdi := hidx_digit i (hidxlen ▸ hi) p (by rw [hgi]; exact hpi)
      have hdj := hidx_digit j (hidxlen ▸ hj) p (by rw [hgj]; exact hpj)
      rw [hdi] at hdj
      exact Nat.ne_of_lt hij (Option.some_injective _ hdj)
  have hfst_bound : ∀ w ∈ ((List.range num_synonym).flatMap (fun i =>
      ((ts.getD i []).enum).map (fun jc =>
        ((idx.getD i []).getD jc.1 0, jc.2.1)))),
      w.1 < NUM_TILE := by
    intro w hw
    have hmf : w.1 ∈ idx.flatten := by
      rw [← hws_fst]
      exact List.mem_map.mpr ⟨w, hw, rfl⟩
    rcases List.mem_flatten.mp hmf with ⟨l, hl, hwl⟩
    rcases List.mem_iff_getElem.mp hl with ⟨i, hilt, rfl⟩
    have : idx.getD i [] = idx[i] := by
      rw [List.getD_eq_getElem?_getD, List.getElem?_eq_getElem hilt]
      rfl
    exact hidx_bound i (hidxlen ▸ hilt) w.1 (by rw [this]; exact hwl)
  have hps_digit : ∀ d ∈ pattern_synonym.take NUM_TILE, d < num_synonym := by
    intro d hd
    rcases List.mem_iff_getElem.mp hd with ⟨k, hk, hkd⟩
    exact hdigits (k, d) (List.mem_enum_iff_getElem?.mpr
      (by rw [List.getElem?_eq_getElem hk, hkd]))
  set ws := (List.range num_synonym).flatMap (fun i =>
      ((ts.getD i []).enum).map (fun jc =>
        ((idx.getD i []).getD jc.1 0, jc.2.1))) with hws_def
  have hbound9 : ∀ w ∈ ws, w.1 < (pattern_synonym.take NUM_TILE).length := by
    intro w hw
    rw [hps_len]
    exact hfst_bound w hw
  have hfinal_len :
      (apply_writes (pattern_synonym.take NUM_TILE) ws).length = NUM_TILE := by
    rw [apply_writes_length ws _ hbound9, hps_len]
  have hsplit : (List.range num_synonym).foldl
      (fun (pd : List Nat × List Nat) i =>
        (ts.getD i []).enum.foldl (fun pd jc =>
          (Search.replace pd.1 ((idx.getD i []).getD jc.1 0) jc.2.1,
           Search.rotate pd.2 ((idx.getD i []).getD jc.1 0) jc.2.2)) pd)
      (pattern_synonym.take NUM_TILE, pattern_synonym.drop NUM_TILE) =
      ((List.range num_synonym).foldl (fun s i =>
          (ts.getD i []).enum.foldl (fun s jc =>
            Search.replace s ((idx.getD i []).getD jc.1 0) jc.2.1) s)
        (pattern_synonym.take NUM_TILE),
       (List.range num_synonym).foldl (fun s i =>
          (ts.getD i []).enum.foldl (fun s jc =>
            Search.rotate s ((idx.getD i []).getD jc.1 0) jc.2.2) s)
        (pattern_synonym.drop NUM_TILE)) := by
    rw [foldl_fun_congr
        (fun (pd : List Nat × List Nat) i =>
          (ts.getD i []).enum.foldl (fun pd jc =>
            (Search.replace pd.1 ((idx.getD i []).getD jc.1 0) jc.2.1,
             Search.rotate pd.2 ((idx.getD i []).getD jc.1 0) jc.2.2)) pd)
        (fun (pd : List Nat × List Nat) i =>
          ((ts.getD i []).enum.foldl (fun s jc =>
             Search.replace s ((idx.getD i []).getD jc.1 0) jc.2.1) pd.1,
           (ts.getD i []).enum.foldl (fun s jc =>
             Search.rotate s ((idx.getD i []).getD jc.1 0) jc.2.2) pd.2))
        (fun pd i => by
          rcases pd with ⟨a, b⟩
          exact foldl_pair
            (fun s (jc : Nat × (Nat × Nat)) =>
              Search.replace s ((idx.getD i []).getD jc.1 0) jc.2.1)
            (fun s (jc : Nat × (Nat × Nat)) =>
              Search.rotate s ((idx.getD i []).getD jc.1 0) jc.2.2)
            _ a b)
        (List.range num_synonym)
        (pattern_synonym.take NUM_TILE, pattern_synonym.drop NUM_TILE)]
    exact foldl_pair
      (fun s i => (ts.getD i []).enum.foldl (fun s jc =>
        Search.replace s ((idx.getD i []).getD jc.1 0) jc.2.1) s)
      (fun s i => (ts.getD i []).enum.foldl (fun s jc =>
        Search.rotate s ((idx.getD i []).getD jc.1 0) jc.2.2) s)
      _ _ _
  rw [hsplit]
  dsimp only
  rw [hws_key, List.take_append_of_le_length
      (by apply le_of_eq; rw [hfinal_len]),
    List.take_of_length_le (by apply le_of_eq; exact hfinal_len)]
  -- facts about the multiset of written tile indices
  have hflat : ts.flatten = (List.range num_synonym).flatMap
      (fun i => ts.getD i []) := by
    rw [show num_synonym = ts.length from hts_len.symm, range_flatMap_getD]
  have hvs_len : (ts.flatten.map (fun c => c.1)).length = NUM_TILE := by
    rw [List.length_map, hflat, List.length_flatMap]
    simp only [Function.comp_def]
    rw [List.map_congr_left (fun i hi => (hts_i i (List.mem_range.mp hi)).1)]
    rw [counts_sum_eq_length _ _ hps_digit, hps_len]
  have hvs_nodup : (ts.flatten.map (fun c => c.1)).Nodup :=
    nodup_of_dedup_length _ (by rw [hvs_len]; exact hguard)
  have href : ∀ i ∈ List.range num_synonym,
      ∀ c ∈ (synonym_original_ref i).flatten, c.1 < NUM_TILE := by decide
  have hvs_bound : ∀ v ∈ ts.flatten.map (fun c => c.1), v < NUM_TILE := by
    intro v hv
    rcases List.mem_map.mp hv with ⟨c, hc, rfl⟩
    rcases List.mem_flatten.mp hc with ⟨l, hl, hcl⟩
    rcases List.mem_iff_getElem.mp hl with ⟨i, hilt, rfl⟩
    have hgi : ts.getD i [] = ts[i] := by
      rw [List.getD_eq_getElem?_getD, List.getElem?_eq_getElem hilt]
      rfl
    have hi5 : i < num_synonym := hts_len ▸ hilt
    exact href i (List.mem_range.mpr hi5) c
      ((hts_i i hi5).2 c (by rw [hgi]; exact hcl))
  have hgetD_get : ∀ (l : List Nat) (i : Nat) (h : i < l.length),
      l.getD i 0 = l.get ⟨i, h⟩ := by
    intro l i h
    rw [List.getD_eq_getElem?_getD, List.getElem?_eq_getElem h]
    rfl
  have hcover : ∀ k, k < NUM_TILE → ∃ v, (k, v) ∈ ws ∧
      v ∈ ts.flatten.map (fun c => c.1) := by
    intro k hk
    have hklen : k < (pattern_synonym.take NUM_TILE).length := by
      rw [hps_len]
      exact hk
    have hd : (pattern_synonym.take NUM_TILE).get? k =
        some ((pattern_synonym.take NUM_TILE).get ⟨k, hklen⟩) :=
      List.get?_eq_get hklen
    have hd5 : (pattern_synonym.take NUM_TILE).get ⟨k, hklen⟩ < num_synonym :=
      hps_digit _ (List.get_mem _ _ hklen)
    have hkidx : k ∈ idx.getD ((pattern_synonym.take NUM_TILE).get ⟨k, hklen⟩) [] := by
      rw [hidx _ hd5]
      exact (mem_idx_list _ _ _).mpr hd
    have hkfst : k ∈ ws.map Prod.fst := by
      rw [hws_fst]
      refine List.mem_flatten.mpr
        ⟨idx.getD ((pattern_synonym.take NUM_TILE).get ⟨k, hklen⟩) [], ?_, hkidx⟩
      have hdlt : (pattern_synonym.take NUM_TILE).get ⟨k, hklen⟩ < idx.length := by
        rw [hidxlen]
        exact hd5
      have : idx.getD ((pattern_synonym.take NUM_TILE).get ⟨k, hklen⟩) [] =
          idx[(pattern_synonym.take NUM_TILE).get ⟨k, hklen⟩] := by
        rw [List.getD_eq_getElem?_getD, List.getElem?_eq_getElem hdlt]
        rfl
      rw [this]
      exact List.getElem_mem hdlt
    rcases List.mem_map.mp hkfst with ⟨w, hw, hwk⟩
    refine ⟨w.2, ?_, ?_⟩
    · have hw' : w = (k, w.2) := by
        rw [← hwk]
      exact hw' ▸ hw
    · rw [← hws_snd]
      exact List.mem_map.mpr ⟨w, hw, rfl⟩
  have hwrite : ∀ k, k < NUM_TILE → ∃ v, (k, v) ∈ ws ∧
      (apply_writes (pattern_synonym.take NUM_TILE) ws).getD k 0 = v ∧
      v ∈ ts.flatten.map (fun c => c.1) := by
    intro k hk
    rcases hcover k hk with ⟨v, hvw, hvvs⟩
    exact ⟨v, hvw,
      apply_writes_getD_written ws _ k v hfst_nodup hbound9 hvw, hvvs⟩
  have hsnd_nodup : (ws.map Prod.snd).Nodup := by
    rw [hws_snd]
    exact hvs_nodup
  have hfinal_nodup : (apply_writes (pattern_synonym.take NUM_TILE) ws).Nodup := by
    rw [List.nodup_iff_injective_get]
    intro a b hab
    have ha9 : a.1 < NUM_TILE := lt_of_lt_of_le a.isLt (le_of_eq hfinal_len)
    have hb9 : b.1 < NUM_TILE := lt_of_lt_of_le b.isLt (le_of_eq hfinal_len)
    rcases hwrite a.1 ha9 with ⟨va, hva, hgva, _⟩
    rcases hwrite b.1 hb9 with ⟨vb, hvb, hgvb, _⟩
    have hga : (apply_writes (pattern_synonym.take NUM_TILE) ws).get a = va := by
      rw [← hgva, hgetD_get _ a.1 a.isLt]
    have hgb : (apply_writes (pattern_synonym.take NUM_TILE) ws).get b = vb := by
      rw [← hgvb, hgetD_get _ b.1 b.isLt]
    have hvab : va = vb := by
      rw [← hga, ← hgb, hab]
    have hpair : (a.1, va) = (b.1, vb) :=
      List.inj_on_of_nodup_map hsnd_nodup hva hvb (by simpa using hvab)
    exact Fin.ext (congrArg Prod.fst hpair)
  have hfinal_bound : ∀ v ∈ apply_writes (pattern_synonym.take NUM_TILE) ws,
      v < NUM_TILE := by
    intro v hv
    rcases List.mem_iff_get.mp hv with ⟨a, rfl⟩
    have ha9 : a.1 < NUM_TILE := lt_of_lt_of_le a.isLt (le_of_eq hfinal_len)
    rcases hwrite a.1 ha9 with ⟨va, _, hgva, hvavs⟩
    have hga : (apply_writes (pattern_synonym.take NUM_TILE) ws).get a = va := by
      rw [← hgva, hgetD_get _ a.1 a.isLt]
    rw [hga]
    exact hvs_bound va hvavs
  have hrange_nodup : (List.range NUM_TILE).Nodup := List.nodup_range _
  apply List.perm_of_nodup_nodup_toFinset_eq hfinal_nodup hrange_nodup
  apply Finset.eq_of_subset_of_card_le
  · intro v hv
    rw [List.mem_toFinset] at hv ⊢
    exact List.mem_range.mpr (hfinal_bound v hv)
  · rw [List.toFinset_card_of_nodup hfinal_nodup,
      List.toFinset_card_of_nodup hrange_nodup,
      hfinal_len, List.length_range]




set_option maxRecDepth 4000 in
/-- C7 witness at the synonym pattern 011112333 000000000. -/
theorem convert_synonym_original_uses_each_tile_witness :
    (((((Search.convert_synonym_original
        [0,1,1,1,1,2,3,3,3,0,0,0,0,0,0,0,0,0]).getD []).headD []).take
          NUM_TILE).Perm (List.range NUM_TILE)) :=
  convert_synonym_original_uses_each_tile
    [0,1,1,1,1,2,3,3,3,0,0,0,0,0,0,0,0,0]
    ((Search.convert_synonym_original
        [0,1,1,1,1,2,3,3,3,0,0,0,0,0,0,0,0,0]).getD [])
    (((Search.convert_synonym_original
        [0,1,1,1,1,2,3,3,3,0,0,0,0,0,0,0,0,0]).getD []).headD [])
    (by decide)
    (by rfl)
    (by decide)


/-! ## C5: re-running the scan on an already-resolved path

`check_food_chain`'s control flow reads only occupant skeletons (type
and `dir`), which no mutation changes, so a second run replays exactly
the same mutation trajectory.  Every mutation is a field overwrite
except `Hamburger.eaten`, which appends to `ate_alien`. -/

/-- Erase a hamburger's `ate_alien` list; agents and aliens unchanged. -/
def TownObject.scrub_ate : TownObject → TownObject
  | .hamburger e _ => .hamburger e []
  | o => o

/-- The `is_eaten` flag of a hamburger (`false` for agents and aliens). -/
def TownObject.eaten_flag : TownObject → Bool
  | .hamburger e _ => e
  | _ => false

/-- Apply a sequence of mutations to one occupant. -/
def applySeq (o : TownObject) (l : List FcOp) : Option TownObject :=
  l.foldlM (fun o op => op.applyObj o) o

/-- The argument of a `capture` mutation (`none` for other ops). -/
def FcOp.captureArg : FcOp → Option Nat
  | .opCapture _ j => some j
  | _ => none

/-- The argument of a `captured` mutation (`none` for other ops). -/
def FcOp.capturedArg : FcOp → Option Nat
  | .opCaptured _ j => some j
  | _ => none

/-- The argument of an `eat` mutation (`none` for other ops). -/
def FcOp.eatArg : FcOp → Option Nat
  | .opEat _ j => some j
  | _ => none

/-- The argument of an `eaten` mutation (`none` for other ops). -/
def FcOp.eatenArg : FcOp → Option Nat
  | .opEaten _ j => some j
  | _ => none

/-- Last-write-wins update of a `(flag, slot)` field pair by the ops
whose extractor `P` matches. -/
def lastWrite (P : FcOp → Option Nat) (l : List FcOp) (x : Bool × Option Nat) :
    Bool × Option Nat :=
  l.foldl (fun b op => match P op with | some j => (true, some j) | none => b) x

/-- Whether some op of `l` matches `P` (starting from flag `e`). -/
def anyWrite (P : FcOp → Option Nat) (l : List FcOp) (e : Bool) : Bool :=
  l.foldl (fun b op => match P op with | some _ => true | none => b) e

/-- The arguments appended to `ate_alien` by the `eaten` mutations. -/
def eatenArgs (l : List FcOp) : List Nat :=
  l.filterMap FcOp.eatenArg

/-- The scan's whole mutation trajectory and final scan state, computed
from the occupants' skeletons alone. -/
def fc_ops (sks : List ObjSkel) : ChainState → List Nat →
    Option (List FcOp × ChainState)
  | st, [] => some ([], st)
  | st, i :: rest =>
      (sks.get? i).bind (fun sk =>
        (fc_ops sks (fc_decide sk st i).2 rest).map
          (fun r => ((fc_decide sk st i).1 ++ r.1, r.2)))

theorem applyObj_skel (op : FcOp) (o o' : TownObject)
    (h : op.applyObj o = some o') : o'.skel = o.skel := by
  cases op <;> cases o <;>
    simp only [FcOp.applyObj, Option.some.injEq] at h <;>
    first
    | exact absurd h (by simp)
    | (subst h; rfl)

theorem set_get?_self {α : Type} (l : List α) (n : Nat) (a : α)
    (h : l.get? n = some a) : l.set n a = l := by
  induction l generalizing n with
  | nil => simp at h
  | cons x xs ih =>
      cases n with
      | zero =>
          simp at h
          rw [h]
          rfl
      | succ m =>
          simp only [List.get?_cons_succ] at h
          show x :: xs.set m a = x :: xs
          rw [ih m h]

theorem apply_skel (os : List TownObject) (op : FcOp) (os' : List TownObject)
    (h : FcOp.apply os op = some os') :
    os'.map TownObject.skel = os.map TownObject.skel := by
  unfold FcOp.apply at h
  simp only [Option.pure_def, Option.bind_eq_bind] at h
  cases hg : os.get? op.target with
  | none => rw [hg] at h; simp at h
  | some o =>
      rw [hg] at h
      simp only [Option.some_bind] at h
      cases ha : op.applyObj o with
      | none => rw [ha] at h; simp at h
      | some o2 =>
          rw [ha] at h
          simp only [Option.some_bind, Option.some.injEq] at h
          subst h
          rw [List.map_set]
          rw [applyObj_skel op o o2 ha]
          apply set_get?_self
          rw [List.get?_map, hg]
          rfl

theorem fc_apply_ops_skels (ops : List FcOp) :
    ∀ (os os' : List TownObject), fc_apply_ops os ops = some os' →
    os'.map TownObject.skel = os.map TownObject.skel := by
  induction ops with
  | nil =>
      intro os os' h
      simp only [fc_apply_ops, List.foldlM_nil] at h
      cases h
      rfl
  | cons op rest ih =>
      intro os os' h
      simp only [fc_apply_ops, List.foldlM_cons, Option.bind_eq_bind] at h
      cases ha : FcOp.apply os op with
      | none => rw [ha] at h; simp at h
      | some osA =>
          rw [ha] at h
          simp only [Option.some_bind] at h
          rw [ih osA os' h, apply_skel os op osA ha]

theorem fc_apply_ops_append (os : List TownObject) (l1 l2 : List FcOp) :
    fc_apply_ops os (l1 ++ l2) =
      (fc_apply_ops os l1).bind (fun os1 => fc_apply_ops os1 l2) := by
  induction l1 generalizing os with
  | nil => rfl
  | cons op rest ih =>
      simp only [fc_apply_ops, List.cons_append, List.foldlM_cons,
        Option.bind_eq_bind]
      cases ha : FcOp.apply os op with
      | none => rfl
      | some osA =>
          simp only [Option.some_bind]
          exact ih osA

theorem fc_run_eq_ops (idxs : List Nat) :
    ∀ (os : List TownObject) (st : ChainState),
    fc_run os st idxs =
      (fc_ops (os.map TownObject.skel) st idxs).bind
        (fun r => (fc_apply_ops os r.1).map (fun os2 => (os2, r.2))) := by
  induction idxs with
  | nil =>
      intro os st
      simp only [fc_run, List.foldlM_nil, fc_ops, Option.some_bind,
        fc_apply_ops, Option.map_some']
      rfl
  | cons i rest ih =>
      intro os st
      simp only [fc_run, List.foldlM_cons, Option.bind_eq_bind] at ih ⊢
      simp only [fc_ops]
      cases hg : os.get? i with
      | none =>
          have hgs : (os.map TownObject.skel).get? i = none := by
            rw [List.get?_map, hg]
            rfl
          have hg2 : os[i]? = none := by
            rw [← List.get?_eq_getElem?]
            exact hg
          have hstep : fc_step os st i = none := by
            simp [fc_step, hg, hg2]
          rw [hgs, hstep]
          simp
      | some o =>
          have hgs : (os.map TownObject.skel).get? i = some o.skel := by
            rw [List.get?_map, hg]
            rfl
          rw [hgs]
          simp only [Option.some_bind]
          cases ha : fc_apply_ops os (fc_decide o.skel st i).1 with
          | none =>
              have hstep : fc_step os st i = none := by
                simp only [fc_step, hg, Option.pure_def, Option.bind_eq_bind,
                  Option.some_bind, ha]
                rfl
              rw [hstep]
              simp only [Option.none_bind]
              cases hops : fc_ops (os.map TownObject.skel)
                  (fc_decide o.skel st i).2 rest with
              | none => simp
              | some q =>
                  simp only [Option.map_some', Option.some_bind]
                  rw [fc_apply_ops_append, ha]
                  rfl
          | some osA =>
              have hstep : fc_step os st i =
                  some (osA, (fc_decide o.skel st i).2) := by
                simp only [fc_step, hg, Option.pure_def, Option.bind_eq_bind,
                  Option.some_bind, ha]
              rw [hstep]
              simp only [Option.some_bind]
              have hskA := fc_apply_ops_skels _ _ _ ha
              have hih := ih osA (fc_decide o.skel st i).2
              rw [hskA] at hih
              rw [hih]
              cases hops : fc_ops (os.map TownObject.skel)
                  (fc_decide o.skel st i).2 rest with
              | none => simp
              | some q =>
                  simp only [Option.map_some', Option.some_bind]
                  rw [fc_apply_ops_append, ha]
                  rfl

theorem applyObj_some_of_skel (op : FcOp) (o p o' : TownObject)
    (hsk : p.skel = o.skel) (h : op.applyObj o = some o') :
    ∃ p', op.applyObj p = some p' := by
  cases op <;> cases o <;> cases p <;>
    simp [FcOp.applyObj] at h <;>
    first
    | exact ⟨_, rfl⟩
    | simp [TownObject.skel] at hsk

theorem fc_apply_ops_some_of_skels (ops : List FcOp) :
    ∀ (a b : List TownObject), a.map TownObject.skel = b.map TownObject.skel →
    ∀ a', fc_apply_ops a ops = some a' →
    ∃ b', fc_apply_ops b ops = some b' := by
  induction ops with
  | nil => intro a b _ a' _; exact ⟨b, rfl⟩
  | cons op rest ih =>
      intro a b hsk a' h
      simp only [fc_apply_ops, List.foldlM_cons, Option.bind_eq_bind] at h ⊢
      cases ha : FcOp.apply a op with
      | none => rw [ha] at h; simp at h
      | some aA =>
          rw [ha] at h
          simp only [Option.some_bind] at h
          unfold FcOp.apply at ha
          simp only [Option.pure_def, Option.bind_eq_bind] at ha
          cases hga : a.get? op.target with
          | none => rw [hga] at ha; simp at ha
          | some o =>
              rw [hga] at ha
              simp only [Option.some_bind] at ha
              cases hao : op.applyObj o with
              | none => rw [hao] at ha; simp at ha
              | some o2 =>
                  rw [hao] at ha
                  simp only [Option.some_bind, Option.some.injEq] at ha
                  subst ha
                  have hgb : ∃ q, b.get? op.target = some q ∧
                      q.skel = o.skel := by
                    have := congrArg (fun l => l.get? op.target) hsk
                    simp only [List.get?_map, hga] at this
                    cases hq : b.get? op.target with
                    | none => rw [hq] at this; simp at this
                    | some q =>
                        rw [hq] at this
                        simp only [Option.map_some', Option.some.injEq] at this
                        exact ⟨q, rfl, this.symm⟩
                  obtain ⟨q, hq, hqsk⟩ := hgb
                  obtain ⟨q2, hq2⟩ := applyObj_some_of_skel op o q o2 hqsk hao
                  have happb : FcOp.apply b op = some (b.set op.target q2) := by
                    unfold FcOp.apply
                    rw [hq]
                    simp only [Option.pure_def, Option.bind_eq_bind,
                      Option.some_bind, hq2]
                  have hskAB : (a.set op.target o2).map TownObject.skel =
                      (b.set op.target q2).map TownObject.skel := by
                    rw [List.map_set, List.map_set, hsk,
                      applyObj_skel op o o2 hao,
                      applyObj_skel op q q2 hq2, hqsk]
                  obtain ⟨b', hb'⟩ := ih _ _ hskAB a' h
                  refine ⟨b', ?_⟩
                  rw [happb]
                  simp only [Option.some_bind]
                  exact hb'

theorem fc_apply_ops_get? (ops : List FcOp) :
    ∀ (os os' : List TownObject), fc_apply_ops os ops = some os' →
    ∀ i, os'.get? i =
      (os.get? i).bind
        (fun o => applySeq o (ops.filter (fun op => op.target == i))) := by
  induction ops with
  | nil =>
      intro os os' h i
      simp only [fc_apply_ops, List.foldlM_nil] at h
      cases h
      simp only [List.filter_nil]
      cases os.get? i <;> rfl
  | cons op rest ih =>
      intro os os' h i
      simp only [fc_apply_ops, List.foldlM_cons, Option.bind_eq_bind] at h
      cases ha : FcOp.apply os op with
      | none => rw [ha] at h; simp at h
      | some osA =>
          rw [ha] at h
          simp only [Option.some_bind] at h
          have hrec := ih osA os' h i
          unfold FcOp.apply at ha
          simp only [Option.pure_def, Option.bind_eq_bind] at ha
          cases hga : os.get? op.target with
          | none => rw [hga] at ha; simp at ha
          | some o =>
              rw [hga] at ha
              simp only [Option.some_bind] at ha
              cases hao : op.applyObj o with
              | none => rw [hao] at ha; simp at ha
              | some o2 =>
                  rw [hao] at ha
                  simp only [Option.some_bind, Option.some.injEq] at ha
                  subst ha
                  rw [hrec]
                  by_cases hit : op.target = i
                  · subst hit
                    obtain ⟨hlt, -⟩ := List.get?_eq_some.mp hga
                    rw [List.get?_set_eq_of_lt _ hlt, hga]
                    simp only [Option.some_bind, List.filter_cons,
                      beq_self_eq_true, if_true]
                    simp only [applySeq, List.foldlM_cons, Option.bind_eq_bind,
                      hao, Option.some_bind]
                  · rw [List.get?_set_ne _ _ hit]
                    have hne : (op.target == i) = false := by
                      simp only [beq_eq_false_iff_ne, ne_eq]
                      exact hit
                    rw [List.filter_cons, hne]
                    simp

theorem foldl_write_idem {β : Type} (g : β → FcOp → β)
    (hop : ∀ op, (∀ b b', g b op = g b' op) ∨ (∀ b, g b op = b))
    (l : List FcOp) : ∀ x, l.foldl g (l.foldl g x) = l.foldl g x := by
  induction l using List.reverseRecOn with
  | nil => intro x; rfl
  | append_singleton l0 op ih =>
      intro x
      simp only [List.foldl_append, List.foldl_cons, List.foldl_nil]
      rcases hop op with hconst | hid
      · exact hconst _ _
      · rw [hid, hid, ih]

theorem lastWrite_idem (P : FcOp → Option Nat) (l : List FcOp)
    (x : Bool × Option Nat) :
    lastWrite P l (lastWrite P l x) = lastWrite P l x := by
  apply foldl_write_idem
  intro op
  cases hP : P op with
  | some j => exact Or.inl (fun b b' => by simp [hP])
  | none => exact Or.inr (fun b => by simp [hP])

theorem anyWrite_idem (P : FcOp → Option Nat) (l : List FcOp) (e : Bool) :
    anyWrite P l (anyWrite P l e) = anyWrite P l e := by
  apply foldl_write_idem
  intro op
  cases hP : P op with
  | some j => exact Or.inl (fun b b' => by simp [hP])
  | none => exact Or.inr (fun b => by simp [hP])

theorem anyWrite_true (P : FcOp → Option Nat) (l : List FcOp) :
    anyWrite P l true = true := by
  induction l with
  | nil => rfl
  | cons op rest ih =>
      unfold anyWrite at ih ⊢
      rw [List.foldl_cons]
      cases hP : P op <;> simp only [hP] <;> exact ih

theorem anyWrite_false (P : FcOp → Option Nat) (l : List FcOp) (e : Bool)
    (h : anyWrite P l e = false) : l.filterMap P = [] ∧ e = false := by
  induction l generalizing e with
  | nil => exact ⟨rfl, h⟩
  | cons op rest ih =>
      unfold anyWrite at h
      rw [List.foldl_cons] at h
      cases hP : P op with
      | some j =>
          rw [hP] at h
          have := ih true h
          exact absurd (anyWrite_true P rest) (by rw [show anyWrite P rest true = false from h]; simp)
      | none =>
          rw [hP] at h
          have := ih e h
          rw [List.filterMap_cons, hP]
          exact this

theorem applySeq_agent_run (l : List FcOp)
    (hall : ∀ op ∈ l, (FcOp.captureArg op).isSome = true) :
    ∀ (f : Int) (d : Dir) (c : Bool) (ca : Option Nat),
    applySeq (.agent f d c ca) l =
      some (.agent f d (lastWrite FcOp.captureArg l (c, ca)).1
                       (lastWrite FcOp.captureArg l (c, ca)).2) := by
  induction l with
  | nil => intro f d c ca; rfl
  | cons op rest ih =>
      intro f d c ca
      have hop := hall op (List.mem_cons_self op rest)
      cases op with
      | opCapture t j =>
          have hrest := fun op h => hall op (List.mem_cons_of_mem _ h)
          simp only [applySeq, List.foldlM_cons, Option.bind_eq_bind]
          have happ : FcOp.applyObj (.opCapture t j) (.agent f d c ca) =
              some (.agent f d true (some j)) := rfl
          rw [happ]
          simp only [Option.some_bind]
          have := ih hrest f d true (some j)
          simp only [applySeq] at this
          rw [this]
          simp [lastWrite, FcOp.captureArg]
      | opCaptured t j => simp [FcOp.captureArg] at hop
      | opEat t j => simp [FcOp.captureArg] at hop
      | opEaten t j => simp [FcOp.captureArg] at hop

theorem applySeq_agent_ops (l : List FcOp) :
    ∀ (f : Int) (d : Dir) (c : Bool) (ca : Option Nat) (o' : TownObject),
    applySeq (.agent f d c ca) l = some o' →
    ∀ op ∈ l, (FcOp.captureArg op).isSome = true := by
  induction l with
  | nil => intro _ _ _ _ _ _ op hop; simp at hop
  | cons op0 rest ih =>
      intro f d c ca o' h op hop
      simp only [applySeq, List.foldlM_cons, Option.bind_eq_bind] at h
      cases op0 with
      | opCapture t j =>
          simp only [FcOp.applyObj, Option.some_bind] at h
          rcases List.mem_cons.mp hop with rfl | hmem
          · rfl
          · exact ih f d true (some j) o' h op hmem
      | opCaptured t j => simp [FcOp.applyObj] at h
      | opEat t j => simp [FcOp.applyObj] at h
      | opEaten t j => simp [FcOp.applyObj] at h

theorem applySeq_alien_run (l : List FcOp)
    (hall : ∀ op ∈ l, (FcOp.capturedArg op).isSome = true ∨
      (FcOp.eatArg op).isSome = true) :
    ∀ (f : Int) (d : Dir) (c : Bool) (ca : Option Nat) (e : Bool)
      (eh : Option Nat),
    applySeq (.alien f d c ca e eh) l =
      some (.alien f d (lastWrite FcOp.capturedArg l (c, ca)).1
                       (lastWrite FcOp.capturedArg l (c, ca)).2
                       (lastWrite FcOp.eatArg l (e, eh)).1
                       (lastWrite FcOp.eatArg l (e, eh)).2) := by
  induction l with
  | nil => intro f d c ca e eh; rfl
  | cons op rest ih =>
      intro f d c ca e eh
      have hop := hall op (List.mem_cons_self op rest)
      have hrest := fun op h => hall op (List.mem_cons_of_mem _ h)
      cases op with
      | opCaptured t j =>
          simp only [applySeq, List.foldlM_cons, Option.bind_eq_bind]
          have happ : FcOp.applyObj (.opCaptured t j) (.alien f d c ca e eh) =
              some (.alien f d true (some j) e eh) := rfl
          rw [happ]
          simp only [Option.some_bind]
          have := ih hrest f d true (some j) e eh
          simp only [applySeq] at this
          rw [this]
          simp [lastWrite, FcOp.capturedArg, FcOp.eatArg]
      | opEat t j =>
          simp only [applySeq, List.foldlM_cons, Option.bind_eq_bind]
          have happ : FcOp.applyObj (.opEat t j) (.alien f d c ca e eh) =
              some (.alien f d c ca true (some j)) := rfl
          rw [happ]
          simp only [Option.some_bind]
          have := ih hrest f d c ca true (some j)
          simp only [applySeq] at this
          rw [this]
          simp [lastWrite, FcOp.capturedArg, FcOp.eatArg]
      | opCapture t j => simp [FcOp.capturedArg, FcOp.eatArg] at hop
      | opEaten t j => simp [FcOp.capturedArg, FcOp.eatArg] at hop

theorem applySeq_alien_ops (l : List FcOp) :
    ∀ (f : Int) (d : Dir) (c : Bool) (ca : Option Nat) (e : Bool)
      (eh : Option Nat) (o' : TownObject),
    applySeq (.alien f d c ca e eh) l = some o' →
    ∀ op ∈ l, (FcOp.capturedArg op).isSome = true ∨
      (FcOp.eatArg op).isSome = true := by
  induction l with
  | nil => intro _ _ _ _ _ _ _ _ op hop; simp at hop
  | cons op0 rest ih =>
      intro f d c ca e eh o' h op hop
      simp only [applySeq, List.foldlM_cons, Option.bind_eq_bind] at h
      cases op0 with
      | opCaptured t j =>
          simp only [FcOp.applyObj, Option.some_bind] at h
          rcases List.mem_cons.mp hop with rfl | hmem
          · exact Or.inl rfl
          · exact ih f d true (some j) e eh o' h op hmem
      | opEat t j =>
          simp only [FcOp.applyObj, Option.some_bind] at h
          rcases List.mem_cons.mp hop with rfl | hmem
          · exact Or.inr rfl
          · exact ih f d c ca true (some j) o' h op hmem
      | opCapture t j => simp [FcOp.applyObj] at h
      | opEaten t j => simp [FcOp.applyObj] at h

theorem applySeq_hamburger_run (l : List FcOp)
    (hall : ∀ op ∈ l, (FcOp.eatenArg op).isSome = true) :
    ∀ (e : Bool) (ate : List Nat),
    applySeq (.hamburger e ate) l =
      some (.hamburger (anyWrite FcOp.eatenArg l e) (ate ++ eatenArgs l)) := by
  induction l with
  | nil => intro e ate; simp [applySeq, anyWrite, eatenArgs]
  | cons op rest ih =>
      intro e ate
      have hop := hall op (List.mem_cons_self op rest)
      have hrest := fun op h => hall op (List.mem_cons_of_mem _ h)
      cases op with
      | opEaten t j =>
          simp only [applySeq, List.foldlM_cons, Option.bind_eq_bind]
          have happ : FcOp.applyObj (.opEaten t j) (.hamburger e ate) =
              some (.hamburger true (ate ++ [j])) := rfl
          rw [happ]
          simp only [Option.some_bind]
          have := ih hrest true (ate ++ [j])
          simp only [applySeq] at this
          rw [this]
          have h1 : anyWrite FcOp.eatenArg (FcOp.opEaten t j :: rest) e =
              anyWrite FcOp.eatenArg rest true := by
            simp [anyWrite, FcOp.eatenArg]
          have h2 : eatenArgs (FcOp.opEaten t j :: rest) = j :: eatenArgs rest := by
            simp [eatenArgs, FcOp.eatenArg]
          rw [h1, h2]
          simp
      | opCapture t j => simp [FcOp.eatenArg] at hop
      | opCaptured t j => simp [FcOp.eatenArg] at hop
      | opEat t j => simp [FcOp.eatenArg] at hop

theorem applySeq_hamburger_ops (l : List FcOp) :
    ∀ (e : Bool) (ate : List Nat) (o' : TownObject),
    applySeq (.hamburger e ate) l = some o' →
    ∀ op ∈ l, (FcOp.eatenArg op).isSome = true := by
  induction l with
  | nil => intro _ _ _ _ op hop; simp at hop
  | cons op0 rest ih =>
      intro e ate o' h op hop
      simp only [applySeq, List.foldlM_cons, Option.bind_eq_bind] at h
      cases op0 with
      | opEaten t j =>
          simp only [FcOp.applyObj, Option.some_bind] at h
          rcases List.mem_cons.mp hop with rfl | hmem
          · rfl
          · exact ih true (ate ++ [j]) o' h op hmem
      | opCapture t j => simp [FcOp.applyObj] at h
      | opCaptured t j => simp [FcOp.applyObj] at h
      | opEat t j => simp [FcOp.applyObj] at h

theorem applySeq_twice (l : List FcOp) (o o' : TownObject)
    (h : applySeq o l = some o') :
    ∃ o'', applySeq o' l = some o'' ∧
      o''.scrub_ate = o'.scrub_ate ∧
      (o'.eaten_flag = false → o'' = o') := by
  cases o with
  | agent f d c ca =>
      have hall := applySeq_agent_ops l f d c ca o' h
      rw [applySeq_agent_run l hall f d c ca] at h
      have ho' := Option.some_injective _ h
      subst ho'
      refine ⟨_, applySeq_agent_run l hall f d _ _, ?_, fun _ => ?_⟩ <;>
        rw [lastWrite_idem]
  | alien f d c ca e eh =>
      have hall := applySeq_alien_ops l f d c ca e eh o' h
      rw [applySeq_alien_run l hall f d c ca e eh] at h
      have ho' := Option.some_injective _ h
      subst ho'
      refine ⟨_, applySeq_alien_run l hall f d _ _ _ _, ?_, fun _ => ?_⟩ <;>
        rw [lastWrite_idem, lastWrite_idem]
  | hamburger e ate =>
      have hall := applySeq_hamburger_ops l e ate o' h
      rw [applySeq_hamburger_run l hall e ate] at h
      have ho' := Option.some_injective _ h
      subst ho'
      refine ⟨_, applySeq_hamburger_run l hall _ _, ?_, ?_⟩
      · simp only [TownObject.scrub_ate, anyWrite_idem]
      · intro hflag
        simp only [TownObject.eaten_flag] at hflag
        obtain ⟨hargs, -⟩ := anyWrite_false FcOp.eatenArg l e hflag
        have hea : eatenArgs l = [] := hargs
        rw [anyWrite_idem, hea, List.append_nil]

theorem fc_apply_ops_twice (ops : List FcOp) (os os1 : List TownObject)
    (h : fc_apply_ops os ops = some os1) :
    ∃ os2, fc_apply_ops os1 ops = some os2 ∧
      os2.map TownObject.scrub_ate = os1.map TownObject.scrub_ate ∧
      ((∀ o ∈ os1, o.eaten_flag = false) → os2 = os1) := by
  have hsk := fc_apply_ops_skels ops os os1 h
  obtain ⟨os2, h2⟩ := fc_apply_ops_some_of_skels ops os os1 hsk.symm os1 h
  refine ⟨os2, h2, ?_, ?_⟩
  · apply List.ext_get?
    intro i
    rw [List.get?_map, List.get?_map]
    have e1 := fc_apply_ops_get? ops os os1 h i
    have e2 := fc_apply_ops_get? ops os1 os2 h2 i
    cases hgo : os.get? i with
    | none =>
        rw [hgo] at e1
        simp only [Option.none_bind] at e1
        rw [e1] at e2
        simp only [Option.none_bind] at e2
        rw [e1, e2]
    | some o =>
        rw [hgo] at e1
        simp only [Option.some_bind] at e1
        cases hseq : applySeq o (ops.filter (fun op => op.target == i)) with
        | none =>
            rw [hseq] at e1
            rw [e1] at e2
            simp only [Option.none_bind] at e2
            rw [e1, e2]
        | some o1 =>
            rw [hseq] at e1
            rw [e1] at e2
            simp only [Option.some_bind] at e2
            obtain ⟨o2, ho2, hscr, -⟩ := applySeq_twice _ o o1 hseq
            rw [e2, ho2, e1]
            simp only [Option.map_some', Option.some.injEq]
            exact hscr
  · intro hfree
    apply List.ext_get?
    intro i
    have e1 := fc_apply_ops_get? ops os os1 h i
    have e2 := fc_apply_ops_get? ops os1 os2 h2 i
    cases hgo : os.get? i with
    | none =>
        rw [hgo] at e1
        simp only [Option.none_bind] at e1
        rw [e1] at e2
        simp only [Option.none_bind] at e2
        rw [e1, e2]
    | some o =>
        rw [hgo] at e1
        simp only [Option.some_bind] at e1
        cases hseq : applySeq o (ops.filter (fun op => op.target == i)) with
        | none =>
            rw [hseq] at e1
            rw [e1] at e2
            simp only [Option.none_bind] at e2
            rw [e1, e2]
        | some o1 =>
            rw [hseq] at e1
            rw [e1] at e2
            simp only [Option.some_bind] at e2
            obtain ⟨o2, ho2, -, hid⟩ := applySeq_twice _ o o1 hseq
            have hmem : o1 ∈ os1 := List.get?_mem e1
            rw [e2, ho2, e1, hid (hfree o1 hmem)]

/-- C5 (amended): re-running `check_food_chain` on an already-resolved
path succeeds, replays the same mutation trajectory, and leaves every
agent and alien (and every hamburger's `is_eaten` flag) unchanged; only
`ate_alien` lists may change (they are re-appended).  When no occupant
is an eaten hamburger, the second run changes nothing at all. -/
theorem check_food_chain_rerun (p p1 : Path)
    (h : p.check_food_chain = some p1) :
    ∃ p2, p1.check_food_chain = some p2 ∧
      p2.objects.map TownObject.scrub_ate =
        p1.objects.map TownObject.scrub_ate ∧
      ((∀ o ∈ p1.objects, o.eaten_flag = false) → p2 = p1) := by
  unfold Path.check_food_chain at h
  cases hr : fc_run p.objects {} (List.range p.objects.length) with
  | none => rw [hr] at h; simp at h
  | some r =>
      rw [hr] at h
      simp only [Option.map_some', Option.some.injEq] at h
      have hA := fc_run_eq_ops (List.range p.objects.length) p.objects {}
      rw [hr] at hA
      cases hops : fc_ops (p.objects.map TownObject.skel) {}
          (List.range p.objects.length) with
      | none => rw [hops] at hA; simp at hA
      | some q =>
          rw [hops] at hA
          simp only [Option.some_bind] at hA
          cases happ : fc_apply_ops p.objects q.1 with
          | none => rw [happ] at hA; simp at hA
          | some osA =>
              rw [happ] at hA
              simp only [Option.map_some', Option.some.injEq] at hA
              subst hA
              have hp1 : p1.objects = osA := by
                rw [← h]
              have hskA := fc_apply_ops_skels q.1 p.objects osA happ
              have hlen : osA.length = p.objects.length := by
                have := congrArg List.length hskA
                simpa using this
              obtain ⟨os2, h2, hscr, hid⟩ :=
                fc_apply_ops_twice q.1 p.objects osA happ
              refine ⟨{ p1 with objects := os2 }, ?_, ?_, ?_⟩
              · unfold Path.check_food_chain
                rw [hp1, hlen]
                have hA2 := fc_run_eq_ops (List.range p.objects.length) osA {}
                rw [hskA, hops] at hA2
                rw [hA2]
                simp only [Option.some_bind]
                rw [h2]
                rfl
              · rw [hp1]
                exact hscr
              · intro hfree
                rw [hp1] at hfree
                rw [hid hfree, ← hp1]

/-- The regression-fixture arrangement pattern `"206745813361230035"`. -/
def fixture_pattern : List Nat := [2,0,6,7,4,5,8,1,3,3,6,1,2,3,0,0,3,5]

/-- The accepted Town built by `Town.make` from the fixture pattern. -/
def fixture_town : Town :=
  ((Town.make fixture_pattern Tile.get_original).toOption).getD Town.init

/-- The first derived path of the fixture town: a left-facing agent, an
eaten hamburger (`ate_alien = [2]`), and a left-facing alien eating it. -/
def fixture_path0 : Path :=
  { left_end := 4, right_end := 11, length := 6,
    objects := [.agent 3 .left false none,
                .hamburger true [2],
                .alien 7 .left false none true (some 1)] }

/-- `fixture_path0` after a second resolution: `ate_alien` is `[2, 2]`. -/
def fixture_path0_rerun : Path :=
  { left_end := 4, right_end := 11, length := 6,
    objects := [.agent 3 .left false none,
                .hamburger true [2, 2],
                .alien 7 .left false none true (some 1)] }

/-- C5 counterexample: the fixture pattern yields an accepted Town whose
first path holds an eaten hamburger; re-running `check_food_chain` on
that already-resolved path appends to `ate_alien` again (`[2]` becomes
`[2, 2]`), so the re-resolved path differs from the stored one. -/
theorem check_food_chain_second_run_duplicates :
    Town.make fixture_pattern Tile.get_original = Except.ok fixture_town ∧
    fixture_town.paths.head? = some fixture_path0 ∧
    fixture_path0.check_food_chain = some fixture_path0_rerun ∧
    fixture_path0_rerun ≠ fixture_path0 :=
  ⟨by rfl, by rfl, by rfl, by decide⟩

/-- Witness for C5's amended theorem: a resolved `[right Alien,
Hamburger]` path re-resolves successfully and scrub-equally. -/
theorem check_food_chain_rerun_witness :
    ∃ p2,
      Path.check_food_chain
        { left_end := 0, right_end := 1, length := 1,
          objects := [.alien 0 .right false none true (some 1),
                      .hamburger true [0]] } = some p2 ∧
      p2.objects.map TownObject.scrub_ate =
        [TownObject.alien 0 .right false none true (some 1),
         TownObject.hamburger true [0]].map TownObject.scrub_ate ∧
      ((∀ o ∈ [TownObject.alien 0 .right false none true (some 1),
               TownObject.hamburger true [0]],
          o.eaten_flag = false) →
        p2 = { left_end := 0, right_end := 1, length := 1,
               objects := [.alien 0 .right false none true (some 1),
                           .hamburger true [0]] }) :=
  check_food_chain_rerun
    { left_end := 0, right_end := 1, length := 1,
      objects := [.alien 0 .right false none false none,
                  .hamburger false []] }
    { left_end := 0, right_end := 1, length := 1,
      objects := [.alien 0 .right false none true (some 1),
                  .hamburger true [0]] }
    (by rfl)


/-! ## C6: canonical-representative selection in `search_synonym`

`utils.Search`: whole-board rotation of a synonym pattern, the
numerically-smallest rotated form (`first_synonym_town`), and the
synonym-town enumeration (`search_synonym`). -/

/-- `Search.position_lookup`: position remapping for board rotations. -/
def Search.position_lookup : List (List Nat) :=
  [[0, 1, 2, 3, 4, 5, 6, 7, 8],
   [2, 5, 8, 1, 4, 7, 0, 3, 6],
   [8, 7, 6, 5, 4, 3, 2, 1, 0],
   [6, 3, 0, 7, 4, 1, 8, 5, 2]]

/-- `Search.rotate_synonym_tile` on a `(class digit, dir digit)` pair.  A
class digit outside 0–4 raises `NotImplementedError` (`none`). -/
def Search.rotate_synonym_tile (tp : Nat × Nat) (angle : Nat) :
    Option (Nat × Nat) :=
  if tp.1 = 0 ∨ tp.1 = 4 then some tp
  else if tp.1 = 1 then some (tp.1, (tp.2 + angle) % 4)
  else if tp.1 = 2 ∨ tp.1 = 3 then some (tp.1, (tp.2 + angle) % 2)
  else none

/-- `Search.rotate_synonym_town`: rotate a whole synonym pattern.  `none`
models the uncaught exceptions (bad class digit, short pattern). -/
def Search.rotate_synonym_town (pattern : List Nat) (angle : Nat) :
    Option (List Nat) :=
  if angle ≠ 0 then do
    let tiles ← (List.range NUM_TILE).mapM (fun i => do
      let a ← pattern.get? i
      let b ← pattern.get? (i + NUM_TILE)
      pure (a, b))
    let r_tiles ← tiles.mapM (fun tp => Search.rotate_synonym_tile tp angle)
    let row ← Search.position_lookup.get? angle
    let remap ← row.mapM (fun p => r_tiles.get? p)
    pure (remap.map Prod.fst ++ remap.map Prod.snd)
  else pure pattern

/-- `int("".join(digits))`: the value of a decimal digit string. -/
def digits_to_nat (l : List Nat) : Nat :=
  l.foldl (fun a d => 10 * a + d) 0

/-- Fuel-based decimal digit extraction (structural recursion so the
kernel can evaluate it on concrete numbers). -/
def nat_to_digits_go : Nat → Nat → List Nat
  | 0, _ => []
  | fuel + 1, n =>
      if n = 0 then [] else nat_to_digits_go fuel (n / 10) ++ [n % 10]

/-- `str(n)` as a digit list (most significant first; `str(0)` differs
from the empty list only in leading zeros, which `zfill` restores). -/
def nat_to_digits (n : Nat) : List Nat :=
  nat_to_digits_go n n

theorem nat_to_digits_go_eq : ∀ fuel n, n ≤ fuel →
    nat_to_digits_go fuel n = (Nat.digits 10 n).reverse
  | 0, n, h => by
      have hn : n = 0 := Nat.le_zero.mp h
      subst hn
      simp [nat_to_digits_go]
  | fuel + 1, n, h => by
      by_cases hn : n = 0
      · subst hn
        simp [nat_to_digits_go]
      · have hlt : n / 10 < n := Nat.div_lt_self (Nat.pos_of_ne_zero hn)
          (by norm_num)
        rw [show nat_to_digits_go (fuel + 1) n =
            (if n = 0 then [] else
              nat_to_digits_go fuel (n / 10) ++ [n % 10]) from rfl,
          if_neg hn,
          nat_to_digits_go_eq fuel (n / 10) (by omega),
          Nat.digits_def' (by norm_num : (1 : Nat) < 10)
            (Nat.pos_of_ne_zero hn),
          List.reverse_cons]

theorem nat_to_digits_eq (n : Nat) :
    nat_to_digits n = (Nat.digits 10 n).reverse :=
  nat_to_digits_go_eq n n (Nat.le_refl n)

/-- `str.zfill(w)`: left-pad with zeros to width `w`. -/
def zfill (w : Nat) (l : List Nat) : List Nat :=
  List.replicate (w - l.length) 0 ++ l

/-- `Search.first_synonym_town`: the numerically smallest of the four
whole-board rotations, re-padded to 18 digits. -/
def Search.first_synonym_town (pattern : List Nat) : Option (List Nat) := do
  let rots ← (List.range 4).mapM (fun a => Search.rotate_synonym_town pattern a)
  match rots.map digits_to_nat with
  | [] => none
  | v :: vs => pure (zfill (NUM_TILE * 2) (nat_to_digits (vs.foldl min v)))

/-- `search_synonym`'s default `num_tiles` argument. -/
def num_tiles_default : List Nat := [3, 4, 4, 4, 3]

/-- `search_synonym`'s default `num_angle` argument. -/
def num_angle_default : List Nat := [1, 4, 2, 2, 1]

/-- The `under_num_tiles` check: every class count within its limit (the
source sets the flag in a loop with early `break`; with `num_synonym = 5`
classes the loop outcome is exactly this conjunction). -/
def under_num_tiles (pos : List Nat) : Bool :=
  (List.range num_synonym).all (fun i => pos.count i ≤ num_tiles_default.getD i 0)

/-- `indices[i]`: the positions of class `i` in ascending order
(`re.finditer` yields matches left to right). -/
def synonym_pos_indices (pos : List Nat) (i : Nat) : List Nat :=
  (pos.enum.filter (fun x => x.2 == i)).map Prod.fst

/-- `angles[i]`: all direction tuples for the class-`i` tiles
(`itertools.product(range(num_angle[i]), repeat=count)`). -/
def angles_for (pos : List Nat) (i : Nat) : List (List Nat) :=
  list_product (List.replicate (pos.count i) (List.range (num_angle_default.getD i 0)))

/-- The inner double loop writing one `angle_set` into the carried
`direction_synonym` string via `Search.replace`. -/
def synonym_angle_write (indices : List (List Nat)) (dir : List Nat)
    (angle_set : List (List Nat)) : List Nat :=
  (angle_set.enum).foldl (fun dir ia =>
    (ia.2.enum).foldl (fun dir ja =>
      Search.replace dir ((indices.getD ia.1 []).getD ja.1 0) ja.2) dir) dir

/-- The body of `search_synonym` for one `position_synonym`: skip it when
over the count limits, otherwise run every `angle_set`, carrying
`direction_synonym` across iterations exactly as the source does, and
collect the yielded patterns.  `none` models a crash (an exception from
`Town(...)` or `first_synonym_town`). -/
def yields_for_pos (pos : List Nat) : Option (List (List Nat)) :=
  if under_num_tiles pos then
    ((list_product ((List.range num_synonym).map (fun i => angles_for pos i))).foldlM
      (fun (acc : List Nat × List (List Nat)) angle_set => do
        let dir := synonym_angle_write
          ((List.range num_synonym).map (fun i => synonym_pos_indices pos i))
          acc.1 angle_set
        let pattern := pos ++ dir
        match Town.make pattern Tile.get_synonym with
        | .error _ => none
        | .ok town =>
            if town.has_failed then pure (dir, acc.2)
            else do
              let fs ← Search.first_synonym_town pattern
              if pattern = fs then pure (dir, acc.2 ++ [pattern])
              else pure (dir, acc.2))
      (List.replicate NUM_TILE 0, [])).map Prod.snd
  else pure []

/-- `Search.search_synonym` (the file output is ignored): concatenate the
yields of every `position_synonym` in enumeration order. -/
def Search.search_synonym : Option (List (List Nat)) :=
  (list_product (List.replicate NUM_TILE (List.range num_synonym))).foldlM
    (fun out pos => (yields_for_pos pos).map (fun ys => out ++ ys)) []

/-- `Town(pattern, Tile.get_synonym()).has_failed()` is false: the
constructor completes without raising and accepts the placement. -/
def synonym_accepted (pattern : List Nat) : Bool :=
  match Town.make pattern Tile.get_synonym with
  | .ok t => !t.has_failed
  | .error _ => false

/-- `P` is yielded by `search_synonym`: its own position block runs
without crashing and emits `P`. -/
def synonym_search_yields (P : List Nat) : Prop :=
  ∃ ys, yields_for_pos (P.take NUM_TILE) = some ys ∧ P ∈ ys

theorem digits_to_nat_eq_ofDigits (l : List Nat) :
    digits_to_nat l = Nat.ofDigits 10 l.reverse := by
  induction l using List.reverseRecOn with
  | nil => rfl
  | append_singleton l0 d ih =>
      unfold digits_to_nat at ih ⊢
      rw [List.foldl_append, List.foldl_cons, List.foldl_nil,
        List.reverse_append]
      simp only [List.reverse_cons, List.reverse_nil, List.nil_append,
        List.singleton_append, Nat.ofDigits_cons]
      rw [← ih]
      ring

theorem digits_trailing (L : List Nat) (hd : ∀ d ∈ L, d < 10) :
    ∃ k, Nat.digits 10 (Nat.ofDigits 10 L) ++ List.replicate k 0 = L ∧
      (Nat.digits 10 (Nat.ofDigits 10 L)).length + k = L.length := by
  induction L using List.reverseRecOn with
  | nil => exact ⟨0, by simp, by simp⟩
  | append_singleton L0 d ih =>
      by_cases hdz : d = 0
      · subst hdz
        have hof : Nat.ofDigits 10 (L0 ++ [0]) = Nat.ofDigits 10 L0 := by
          rw [Nat.ofDigits_append]
          simp [Nat.ofDigits]
        obtain ⟨k, hk, hklen⟩ := ih (fun x hx => hd x (List.mem_append_left _ hx))
        refine ⟨k + 1, ?_, ?_⟩
        · rw [hof, List.replicate_succ', ← List.append_assoc, hk]
        · rw [hof]
          simp only [List.length_append, List.length_singleton]
          omega
      · refine ⟨0, ?_, ?_⟩
        · simp only [List.replicate_zero, List.append_nil]
          exact Nat.digits_ofDigits 10 (by norm_num) _ hd
            (fun h => by
              rw [List.getLast_append]
              exact hdz)
        · rw [Nat.digits_ofDigits 10 (by norm_num) _ hd
            (fun h => by
              rw [List.getLast_append]
              exact hdz)]
          rfl

theorem zfill_digits_roundtrip (l : List Nat) (hd : ∀ d ∈ l, d < 10) :
    zfill l.length (nat_to_digits (digits_to_nat l)) = l := by
  obtain ⟨k, hk, hklen⟩ := digits_trailing l.reverse
    (fun x hx => hd x (List.mem_reverse.mp hx))
  rw [digits_to_nat_eq_ofDigits]
  unfold zfill
  rw [nat_to_digits_eq]
  have hlr : l = List.replicate k 0 ++
      (Nat.digits 10 (Nat.ofDigits 10 l.reverse)).reverse := by
    have := congrArg List.reverse hk
    rw [List.reverse_append, List.reverse_replicate, List.reverse_reverse] at this
    exact this.symm
  have hlen : l.length -
      ((Nat.digits 10 (Nat.ofDigits 10 l.reverse)).reverse).length = k := by
    rw [List.length_reverse] at hklen ⊢
    omega
  rw [hlen, ← hlr]

/-- The rotated direction digit of one synonym tile (the value
`rotate_synonym_tile` puts in the ones place, for a valid class). -/
def rot_dir (cls d a : Nat) : Nat :=
  if cls = 0 ∨ cls = 4 then d
  else if cls = 1 then (d + a) % 4
  else (d + a) % 2

theorem rotate_synonym_tile_eq (c d a : Nat) (hc : c < num_synonym) :
    Search.rotate_synonym_tile (c, d) a = some (c, rot_dir c d a) := by
  have hc5 : c < 5 := hc
  interval_cases c <;> simp [Search.rotate_synonym_tile, rot_dir]

theorem rot_dir_zero (c d : Nat) (hc : c < num_synonym)
    (hd : d < num_angle_default.getD c 0) : rot_dir c d 0 = d := by
  have hc5 : c < 5 := hc
  interval_cases c <;>
    simp only [num_angle_default, List.getD_cons_zero, List.getD_cons_succ] at hd <;>
    simp [rot_dir] <;> omega

theorem rot_dir_bound (c d a : Nat) (hc : c < num_synonym)
    (hd : d < num_angle_default.getD c 0) :
    rot_dir c d a < num_angle_default.getD c 0 := by
  have hc5 : c < 5 := hc
  interval_cases c <;>
    simp only [num_angle_default, List.getD_cons_zero, List.getD_cons_succ] at hd ⊢ <;>
    simp [rot_dir] <;> omega

theorem mapM_eq_map {α β : Type} (f : α → Option β) (g : α → β) :
    ∀ (l : List α), (∀ x ∈ l, f x = some (g x)) → l.mapM f = some (l.map g) := by
  intro l
  induction l with
  | nil => intro _; rfl
  | cons x xs ih =>
      intro h
      rw [List.mapM_cons, h x (List.mem_cons_self x xs),
        ih (fun y hy => h y (List.mem_cons_of_mem _ hy))]
      rfl

theorem get?_some {α : Type} (l : List α) (i : Nat) (d : α)
    (h : i < l.length) : l.get? i = some (l.getD i d) := by
  rw [List.get?_eq_getElem?, List.getElem?_eq_getElem h,
    List.getD_eq_getElem?_getD, List.getElem?_eq_getElem h]
  rfl

theorem map_getD_range_take {α : Type} (l : List α) (d : α) (n : Nat)
    (h : n ≤ l.length) :
    (List.range n).map (fun k => l.getD k d) = l.take n := by
  apply List.ext_get?
  intro i
  rw [List.get?_eq_getElem?, List.getElem?_map, List.get?_eq_getElem?,
    List.getElem?_take]
  by_cases hi : i < n
  · rw [List.getElem?_range hi, if_pos hi, Option.map_some',
      List.getElem?_eq_getElem (lt_of_lt_of_le hi h)]
    rw [List.getD_eq_getElem?_getD, List.getElem?_eq_getElem (lt_of_lt_of_le hi h)]
    rfl
  · rw [if_neg hi]
    have : (List.range n)[i]? = none := by
      rw [List.getElem?_eq_none_iff]
      simpa using Nat.le_of_not_lt hi
    rw [this]
    rfl

theorem getD_drop {α : Type} (l : List α) (m k : Nat) (d : α) :
    (l.drop m).getD k d = l.getD (m + k) d := by
  rw [List.getD_eq_getElem?_getD, List.getD_eq_getElem?_getD, List.getElem?_drop]

theorem row0_decomp (P : List Nat) (hlen : P.length = NUM_TILE * 2)
    (hcls : ∀ k ∈ List.range NUM_TILE, P.getD k 0 < num_synonym)
    (hdir : ∀ k ∈ List.range NUM_TILE, P.getD (k + NUM_TILE) 0 <
      num_angle_default.getD (P.getD k 0) 0) :
    ((Search.position_lookup.getD 0 []).map (fun p => P.getD p 0)) ++
      ((Search.position_lookup.getD 0 []).map (fun p =>
        rot_dir (P.getD p 0) (P.getD (p + NUM_TILE) 0) 0)) = P := by
  have hlen18 : P.length = 18 := hlen
  have hrow : Search.position_lookup.getD 0 [] = List.range NUM_TILE := by decide
  rw [hrow]
  have h2 : (List.range NUM_TILE).map (fun p =>
      rot_dir (P.getD p 0) (P.getD (p + NUM_TILE) 0) 0) =
      (List.range NUM_TILE).map (fun p => P.getD (p + NUM_TILE) 0) :=
    List.map_congr_left (fun p hp => rot_dir_zero _ _ (hcls p hp) (hdir p hp))
  rw [h2]
  have h3 : (List.range NUM_TILE).map (fun p => P.getD p 0) = P.take NUM_TILE :=
    map_getD_range_take P 0 NUM_TILE (by rw [hlen18]; decide)
  have h5 : (List.range NUM_TILE).map (fun p => P.getD (p + NUM_TILE) 0) =
      (List.range NUM_TILE).map (fun p => (P.drop NUM_TILE).getD p 0) :=
    List.map_congr_left (fun p _ => by
      rw [getD_drop, Nat.add_comm p NUM_TILE])
  have h6 : (List.range NUM_TILE).map (fun p => (P.drop NUM_TILE).getD p 0) =
      (P.drop NUM_TILE).take NUM_TILE :=
    map_getD_range_take _ 0 NUM_TILE (by
      rw [List.length_drop, hlen18]
      decide)
  have h7 : (P.drop NUM_TILE).take NUM_TILE = P.drop NUM_TILE := by
    apply List.take_of_length_le
    rw [List.length_drop, hlen18]
    decide
  rw [h3, h5, h6, h7, List.take_append_drop]

theorem rotate_synonym_town_spec (P : List Nat) (a : Nat) (ha : a < 4)
    (hlen : P.length = NUM_TILE * 2)
    (hcls : ∀ k ∈ List.range NUM_TILE, P.getD k 0 < num_synonym)
    (hdir : ∀ k ∈ List.range NUM_TILE, P.getD (k + NUM_TILE) 0 <
      num_angle_default.getD (P.getD k 0) 0) :
    Search.rotate_synonym_town P a = some (
      ((Search.position_lookup.getD a []).map (fun p => P.getD p 0)) ++
      ((Search.position_lookup.getD a []).map (fun p =>
        rot_dir (P.getD p 0) (P.getD (p + NUM_TILE) 0) a))) := by
  have hlen18 : P.length = 18 := hlen
  by_cases ha0 : a = 0
  · subst ha0
    rw [row0_decomp P hlen hcls hdir]
    rfl
  · unfold Search.rotate_synonym_town
    rw [if_pos ha0]
    simp only [Option.pure_def, Option.bind_eq_bind]
    have h1 : (List.range NUM_TILE).mapM (fun i =>
        (P.get? i).bind (fun x => (P.get? (i + NUM_TILE)).bind (fun y =>
          some (x, y)))) =
        some ((List.range NUM_TILE).map (fun i =>
          (P.getD i 0, P.getD (i + NUM_TILE) 0))) := by
      apply mapM_eq_map
      intro i hi
      have hi9 : i < 9 := List.mem_range.mp hi
      rw [get?_some P i 0 (by rw [hlen18]; omega),
        get?_some P (i + NUM_TILE) 0 (by
          rw [hlen18]
          have : i + NUM_TILE < 9 + 9 := by
            have hN : (NUM_TILE : Nat) = 9 := rfl
            omega
          omega)]
      rfl
    rw [h1]
    simp only [Option.some_bind]
    have h2 : ((List.range NUM_TILE).map (fun i =>
        (P.getD i 0, P.getD (i + NUM_TILE) 0))).mapM
        (fun tp => Search.rotate_synonym_tile tp a) =
        some (((List.range NUM_TILE).map (fun i =>
          (P.getD i 0, P.getD (i + NUM_TILE) 0))).map (fun tp =>
            (tp.1, rot_dir tp.1 tp.2 a))) := by
      apply mapM_eq_map
      intro tp htp
      rcases List.mem_map.mp htp with ⟨i, hi, rfl⟩
      exact rotate_synonym_tile_eq _ _ a (hcls i hi)
    rw [h2]
    simp only [Option.some_bind]
    have hrow : Search.position_lookup.get? a =
        some (Search.position_lookup.getD a []) :=
      get?_some _ a [] (by
        rw [show Search.position_lookup.length = 4 from rfl]
        exact ha)
    rw [hrow]
    simp only [Option.some_bind]
    have hrowmem : ∀ b ∈ List.range 4,
        ∀ p ∈ Search.position_lookup.getD b [], p < 9 := by decide
    have h4 : (Search.position_lookup.getD a []).mapM
        (fun p => (((List.range NUM_TILE).map (fun i =>
          (P.getD i 0, P.getD (i + NUM_TILE) 0))).map (fun tp =>
            (tp.1, rot_dir tp.1 tp.2 a))).get? p) =
        some ((Search.position_lookup.getD a []).map (fun p =>
          (P.getD p 0, rot_dir (P.getD p 0) (P.getD (p + NUM_TILE) 0) a))) := by
      apply mapM_eq_map
      intro p hp
      have hp9 : p < 9 := hrowmem a (List.mem_range.mpr ha) p hp
      rw [List.map_map, get?_some _ p (0, 0) (by
        rw [List.length_map, List.length_range]
        exact hp9)]
      rw [getD_map_range NUM_TILE p _ _ hp9]
      rfl
    rw [h4]
    simp only [Option.some_bind, Option.some.injEq]
    rw [List.map_map, List.map_map]
    rfl

/-- The rotated pattern in explicit form (what `rotate_synonym_town`
returns on valid 18-digit synonym patterns, by
`rotate_synonym_town_spec`). -/
def rot_pattern (P : List Nat) (a : Nat) : List Nat :=
  ((Search.position_lookup.getD a []).map (fun p => P.getD p 0)) ++
  ((Search.position_lookup.getD a []).map (fun p =>
    rot_dir (P.getD p 0) (P.getD (p + NUM_TILE) 0) a))

theorem getD_map_lt {α β : Type} (f : α → β) (l : List α) (q : Nat)
    (d : α) (db : β) (h : q < l.length) :
    (l.map f).getD q db = f (l.getD q d) := by
  rw [List.getD_eq_getElem?_getD, List.getElem?_map,
    List.getElem?_eq_getElem h, List.getD_eq_getElem?_getD,
    List.getElem?_eq_getElem h]
  rfl

theorem row_length (a : Nat) (ha : a < 4) :
    (Search.position_lookup.getD a []).length = 9 := by
  interval_cases a <;> rfl

theorem row_mem_lt (a : Nat) (ha : a < 4) :
    ∀ p ∈ Search.position_lookup.getD a [], p < 9 := by
  interval_cases a <;> decide

theorem rot_pattern_length (P : List Nat) (a : Nat) (ha : a < 4) :
    (rot_pattern P a).length = NUM_TILE * 2 := by
  unfold rot_pattern
  rw [List.length_append, List.length_map, List.length_map, row_length a ha]
  rfl

theorem rot_pattern_getD_cls (P : List Nat) (a : Nat) (ha : a < 4)
    (p : Nat) (hp : p < 9) :
    (rot_pattern P a).getD p 0 =
      P.getD ((Search.position_lookup.getD a []).getD p 0) 0 := by
  unfold rot_pattern
  rw [List.getD_append _ _ _ _ (by rw [List.length_map, row_length a ha]; exact hp)]
  exact getD_map_lt _ _ p 0 0 (by rw [row_length a ha]; exact hp)

theorem rot_pattern_getD_dir (P : List Nat) (a : Nat) (ha : a < 4)
    (p : Nat) (hp : p < 9) :
    (rot_pattern P a).getD (p + NUM_TILE) 0 =
      rot_dir (P.getD ((Search.position_lookup.getD a []).getD p 0) 0)
        (P.getD ((Search.position_lookup.getD a []).getD p 0 + NUM_TILE) 0)
        a := by
  unfold rot_pattern
  have hlm : ((Search.position_lookup.getD a []).map
      (fun p => P.getD p 0)).length = 9 := by
    rw [List.length_map, row_length a ha]
  have hps : p + NUM_TILE = ((Search.position_lookup.getD a []).map
      (fun p => P.getD p 0)).length + p := by
    rw [hlm]
    have h9 : (NUM_TILE : Nat) = 9 := rfl
    omega
  rw [hps, List.getD_append_right _ _ _ _ (by omega)]
  rw [Nat.add_sub_cancel_left]
  exact getD_map_lt _ _ p 0 0 (by rw [row_length a ha]; exact hp)

theorem getD_lt_mem {α : Type} (l : List α) (p : Nat) (d : α)
    (h : p < l.length) : l.getD p d ∈ l := by
  rw [List.getD_eq_getElem?_getD, List.getElem?_eq_getElem h]
  exact List.getElem_mem h

theorem row_getD_lt (a : Nat) (ha : a < 4) (k : Nat) (hk : k < 9) :
    (Search.position_lookup.getD a []).getD k 0 < 9 :=
  row_mem_lt a ha _ (getD_lt_mem _ k 0 (by rw [row_length a ha]; exact hk))

theorem rot_pattern_valid_cls (P : List Nat) (a : Nat) (ha : a < 4)
    (hcls : ∀ k ∈ List.range NUM_TILE, P.getD k 0 < num_synonym) :
    ∀ k ∈ List.range NUM_TILE, (rot_pattern P a).getD k 0 < num_synonym := by
  intro k hk
  have hk9 : k < 9 := List.mem_range.mp hk
  rw [rot_pattern_getD_cls P a ha k hk9]
  exact hcls _ (List.mem_range.mpr (row_getD_lt a ha k hk9))

theorem rot_pattern_valid_dir (P : List Nat) (a : Nat) (ha : a < 4)
    (hcls : ∀ k ∈ List.range NUM_TILE, P.getD k 0 < num_synonym)
    (hdir : ∀ k ∈ List.range NUM_TILE, P.getD (k + NUM_TILE) 0 <
      num_angle_default.getD (P.getD k 0) 0) :
    ∀ k ∈ List.range NUM_TILE, (rot_pattern P a).getD (k + NUM_TILE) 0 <
      num_angle_default.getD ((rot_pattern P a).getD k 0) 0 := by
  intro k hk
  have hk9 : k < 9 := List.mem_range.mp hk
  rw [rot_pattern_getD_cls P a ha k hk9, rot_pattern_getD_dir P a ha k hk9]
  exact rot_dir_bound _ _ a
    (hcls _ (List.mem_range.mpr (row_getD_lt a ha k hk9)))
    (hdir _ (List.mem_range.mpr (row_getD_lt a ha k hk9)))

theorem rot_dir_comp (c d a b : Nat) (hc : c < num_synonym) :
    rot_dir c (rot_dir c d a) b = rot_dir c d ((a + b) % 4) := by
  have hc5 : c < 5 := hc
  interval_cases c <;> simp [rot_dir] <;> omega

theorem row_comp : ∀ x ∈ List.range 4, ∀ y ∈ List.range 4,
    (Search.position_lookup.getD y []).map
      (fun p => (Search.position_lookup.getD x []).getD p 0) =
    Search.position_lookup.getD ((x + y) % 4) [] := by decide

theorem rot_pattern_comp (P : List Nat) (a b : Nat) (ha : a < 4) (hb : b < 4)
    (hcls : ∀ k ∈ List.range NUM_TILE, P.getD k 0 < num_synonym) :
    rot_pattern (rot_pattern P a) b = rot_pattern P ((a + b) % 4) := by
  have hL : rot_pattern (rot_pattern P a) b =
      ((Search.position_lookup.getD b []).map
        (fun p => (rot_pattern P a).getD p 0)) ++
      ((Search.position_lookup.getD b []).map (fun p =>
        rot_dir ((rot_pattern P a).getD p 0)
          ((rot_pattern P a).getD (p + NUM_TILE) 0) b)) := rfl
  have h1 : (Search.position_lookup.getD b []).map
      (fun p => (rot_pattern P a).getD p 0) =
      (Search.position_lookup.getD b []).map (fun p =>
        P.getD ((Search.position_lookup.getD a []).getD p 0) 0) :=
    List.map_congr_left (fun p hp =>
      rot_pattern_getD_cls P a ha p (row_mem_lt b hb p hp))
  have h2 : (Search.position_lookup.getD b []).map (fun p =>
      rot_dir ((rot_pattern P a).getD p 0)
        ((rot_pattern P a).getD (p + NUM_TILE) 0) b) =
      (Search.position_lookup.getD b []).map (fun p =>
        rot_dir (P.getD ((Search.position_lookup.getD a []).getD p 0) 0)
          (P.getD ((Search.position_lookup.getD a []).getD p 0 + NUM_TILE) 0)
          ((a + b) % 4)) :=
    List.map_congr_left (fun p hp => by
      have hp9 := row_mem_lt b hb p hp
      rw [rot_pattern_getD_cls P a ha p hp9, rot_pattern_getD_dir P a ha p hp9,
        rot_dir_comp _ _ a b
          (hcls _ (List.mem_range.mpr (row_getD_lt a ha p hp9)))])
  rw [hL, h1, h2]
  have hm1 : ((Search.position_lookup.getD b []).map
      (fun p => (Search.position_lookup.getD a []).getD p 0)).map
        (fun q => P.getD q 0) =
      (Search.position_lookup.getD b []).map (fun p =>
        P.getD ((Search.position_lookup.getD a []).getD p 0) 0) := by
    rw [List.map_map]
    rfl
  have hm2 : ((Search.position_lookup.getD b []).map
      (fun p => (Search.position_lookup.getD a []).getD p 0)).map
        (fun q => rot_dir (P.getD q 0) (P.getD (q + NUM_TILE) 0) ((a + b) % 4)) =
      (Search.position_lookup.getD b []).map (fun p =>
        rot_dir (P.getD ((Search.position_lookup.getD a []).getD p 0) 0)
          (P.getD ((Search.position_lookup.getD a []).getD p 0 + NUM_TILE) 0)
          ((a + b) % 4)) := by
    rw [List.map_map]
    rfl
  rw [← hm1, ← hm2,
    row_comp a (List.mem_range.mpr ha) b (List.mem_range.mpr hb)]
  rfl

theorem rot_pattern_take (P : List Nat) (a : Nat) (ha : a < 4) :
    (rot_pattern P a).take NUM_TILE =
      (Search.position_lookup.getD a []).map (fun p => P.getD p 0) := by
  unfold rot_pattern
  rw [List.take_append_of_le_length (by
      rw [List.length_map, row_length a ha]
      decide),
    List.take_of_length_le (by
      rw [List.length_map, row_length a ha]
      decide)]

theorem rot_pattern_count (P : List Nat) (a : Nat) (ha : a < 4)
    (hlen : P.length = NUM_TILE * 2) (i : Nat) :
    ((rot_pattern P a).take NUM_TILE).count i = (P.take NUM_TILE).count i := by
  rw [rot_pattern_take P a ha]
  have hperm : (Search.position_lookup.getD a []).Perm (List.range NUM_TILE) := by
    interval_cases a <;> decide
  have hP := (hperm.map (fun p => P.getD p 0)).count_eq i
  rw [hP, map_getD_range_take P 0 NUM_TILE (by rw [hlen]; decide)]

/-- The smallest of the four rotated patterns' numeric values. -/
def minVals (P : List Nat) : Nat :=
  min (min (min (digits_to_nat (rot_pattern P 0)) (digits_to_nat (rot_pattern P 1)))
    (digits_to_nat (rot_pattern P 2))) (digits_to_nat (rot_pattern P 3))

theorem first_synonym_town_spec (P : List Nat)
    (hlen : P.length = NUM_TILE * 2)
    (hcls : ∀ k ∈ List.range NUM_TILE, P.getD k 0 < num_synonym)
    (hdir : ∀ k ∈ List.range NUM_TILE, P.getD (k + NUM_TILE) 0 <
      num_angle_default.getD (P.getD k 0) 0) :
    Search.first_synonym_town P =
      some (zfill (NUM_TILE * 2) (nat_to_digits (minVals P))) := by
  unfold Search.first_synonym_town
  simp only [Option.pure_def, Option.bind_eq_bind]
  have h1 : (List.range 4).mapM (fun a => Search.rotate_synonym_town P a) =
      some ((List.range 4).map (fun a => rot_pattern P a)) := by
    apply mapM_eq_map
    intro a hA
    exact rotate_synonym_town_spec P a (List.mem_range.mp hA) hlen hcls hdir
  rw [h1]
  simp only [Option.some_bind]
  rfl

theorem min4_rot (v : Nat → Nat) (c : Nat) (hc : c < 4) :
    min (min (min (v ((c + 0) % 4)) (v ((c + 1) % 4))) (v ((c + 2) % 4)))
      (v ((c + 3) % 4)) =
    min (min (min (v 0) (v 1)) (v 2)) (v 3) := by
  interval_cases c <;>
    simp only [Nat.reduceAdd, Nat.reduceMod, Nat.zero_add, Nat.add_zero,
      Nat.zero_mod, Nat.mod_self] <;>
    omega

theorem minVals_rot (P : List Nat) (c : Nat) (hc : c < 4)
    (hcls : ∀ k ∈ List.range NUM_TILE, P.getD k 0 < num_synonym) :
    minVals (rot_pattern P c) = minVals P := by
  have h := fun b (hb : b < 4) => rot_pattern_comp P c b hc hb hcls
  unfold minVals
  rw [h 0 (by decide), h 1 (by decide), h 2 (by decide), h 3 (by decide)]
  exact min4_rot (fun x => digits_to_nat (rot_pattern P x)) c hc

theorem minVals_choice (P : List Nat) :
    ∃ a, a < 4 ∧ digits_to_nat (rot_pattern P a) = minVals P := by
  unfold minVals
  rcases min_cases (min (min (digits_to_nat (rot_pattern P 0))
      (digits_to_nat (rot_pattern P 1))) (digits_to_nat (rot_pattern P 2)))
      (digits_to_nat (rot_pattern P 3)) with ⟨h3, -⟩ | ⟨h3, -⟩
  · rcases min_cases (min (digits_to_nat (rot_pattern P 0))
        (digits_to_nat (rot_pattern P 1))) (digits_to_nat (rot_pattern P 2))
        with ⟨h2, -⟩ | ⟨h2, -⟩
    · rcases min_cases (digits_to_nat (rot_pattern P 0))
          (digits_to_nat (rot_pattern P 1)) with ⟨h1, -⟩ | ⟨h1, -⟩
      · exact ⟨0, by decide, by rw [h3, h2, h1]⟩
      · exact ⟨1, by decide, by rw [h3, h2, h1]⟩
    · exact ⟨2, by decide, by rw [h3, h2]⟩
  · exact ⟨3, by decide, by rw [h3]⟩

theorem mem_list_product_iff {α : Type} (ls : List (List α)) (x : List α) :
    x ∈ list_product ls ↔ List.Forall₂ (fun a l => a ∈ l) x ls := by
  constructor
  · exact list_product_mem ls x
  · intro h
    induction h with
    | nil => exact List.mem_singleton.mpr rfl
    | cons hal hrest ih =>
        unfold list_product
        rename_i a l x' ls'
        exact List.mem_flatMap.mpr ⟨a, hal, List.mem_map.mpr ⟨x', ih, rfl⟩⟩

theorem enum_eq_map_range {α : Type} (l : List α) (d : α) :
    l.enum = (List.range l.length).map (fun i => (i, l.getD i d)) := by
  apply List.ext_get?
  intro i
  by_cases hi : i < l.length
  · rw [List.get?_eq_getElem?, List.getElem?_enum,
      List.get?_eq_getElem?, List.getElem?_map, List.getElem?_range hi,
      List.getElem?_eq_getElem hi]
    simp only [Option.map_some']
    rw [List.getD_eq_getElem?_getD, List.getElem?_eq_getElem hi]
    rfl
  · rw [List.get?_eq_getElem?, List.getElem?_enum,
      List.get?_eq_getElem?, List.getElem?_map]
    rw [List.getElem?_eq_none_iff.mpr (by simpa using Nat.le_of_not_lt hi),
      List.getElem?_eq_none_iff.mpr (by
        rw [List.length_range]
        exact Nat.le_of_not_lt hi)]
    rfl

theorem synonym_pos_indices_length (pos : List Nat) (i : Nat) :
    (synonym_pos_indices pos i).length = pos.count i := by
  unfold synonym_pos_indices
  rw [List.length_map]
  exact enumFrom_filter_digit_length pos i 0

theorem synonym_pos_indices_mem (pos : List Nat) (i k : Nat) :
    k ∈ synonym_pos_indices pos i ↔ pos.get? k = some i :=
  mem_idx_list pos i k

theorem synonym_pos_indices_nodup (pos : List Nat) (i : Nat) :
    (synonym_pos_indices pos i).Nodup :=
  (idx_list_sublist_range pos _).nodup (List.nodup_range _)

theorem synonym_pos_indices_bound (pos : List Nat) (i k : Nat)
    (h : k ∈ synonym_pos_indices pos i) : k < pos.length :=
  List.mem_range.mp ((idx_list_sublist_range pos _).mem h)

/-- The write list one `angle_set` performs on `direction_synonym`. -/
def aw_writes (indices : List (List Nat)) (angle_set : List (List Nat)) :
    List (Nat × Nat) :=
  (angle_set.enum).flatMap (fun ia =>
    ia.2.enum.map (fun ja => ((indices.getD ia.1 []).getD ja.1 0, ja.2)))

theorem synonym_angle_write_eq (indices : List (List Nat)) (d0 : List Nat)
    (angle_set : List (List Nat)) :
    synonym_angle_write indices d0 angle_set =
      apply_writes d0 (aw_writes indices angle_set) := by
  unfold synonym_angle_write apply_writes aw_writes
  rw [foldl_flatMap]
  refine foldl_fun_congr _ _ (fun s ia => ?_) _ _
  rw [List.foldl_map]

theorem flatMap_congr_mem {α β : Type} (l : List α) (f g : α → List β)
    (h : ∀ x ∈ l, f x = g x) : l.flatMap f = l.flatMap g := by
  induction l with
  | nil => rfl
  | cons x xs ih =>
      rw [List.flatMap_cons, List.flatMap_cons, h x (List.mem_cons_self x xs),
        ih (fun y hy => h y (List.mem_cons_of_mem _ hy))]

theorem aw_writes_shape (pos : List Nat) (angle_set : List (List Nat))
    (hlen : angle_set.length = num_synonym) :
    aw_writes ((List.range num_synonym).map (synonym_pos_indices pos))
      angle_set =
    (List.range num_synonym).flatMap (fun i =>
      ((angle_set.getD i []).enum).map (fun ja =>
        ((synonym_pos_indices pos i).getD ja.1 0, ja.2))) := by
  unfold aw_writes
  rw [enum_eq_map_range angle_set [], hlen, List.flatMap_map]
  apply flatMap_congr_mem
  intro i hi
  have hi5 := List.mem_range.mp hi
  rw [getD_map_range num_synonym i _ _ hi5]

theorem aw_ws_fst (pos : List Nat) (angle_set : List (List Nat))
    (hlen : angle_set.length = num_synonym)
    (hcnt : ∀ i, i < num_synonym →
      (angle_set.getD i []).length = pos.count i) :
    (aw_writes ((List.range num_synonym).map (synonym_pos_indices pos))
      angle_set).map Prod.fst =
    (List.range num_synonym).flatMap (fun i => synonym_pos_indices pos i) := by
  rw [aw_writes_shape pos angle_set hlen, List.map_flatMap]
  apply flatMap_congr_mem
  intro i hi
  have hi5 := List.mem_range.mp hi
  rw [List.map_map]
  have hlen0 : 0 + (angle_set.getD i []).length =
      (synonym_pos_indices pos i).length := by
    rw [Nat.zero_add, hcnt i hi5, synonym_pos_indices_length]
  have := enumFrom_map_getD (angle_set.getD i []) (synonym_pos_indices pos i)
    0 hlen0
  rw [List.drop_zero] at this
  exact this

theorem aw_ws_fst_nodup (pos : List Nat) (angle_set : List (List Nat))
    (hlen : angle_set.length = num_synonym)
    (hcnt : ∀ i, i < num_synonym →
      (angle_set.getD i []).length = pos.count i) :
    ((aw_writes ((List.range num_synonym).map (synonym_pos_indices pos))
      angle_set).map Prod.fst).Nodup := by
  rw [aw_ws_fst pos angle_set hlen hcnt]
  apply List.nodup_flatMap.mpr
  constructor
  · intro i _
    exact synonym_pos_indices_nodup pos i
  · apply List.pairwise_iff_getElem.mpr
    intro i j hi hj hij
    simp only [Function.onFun]
    have h1 : (List.range num_synonym)[i] = i := by simp
    have h2 : (List.range num_synonym)[j] = j := by simp
    rw [h1, h2]
    intro p hpi hpj
    have hdi := (synonym_pos_indices_mem pos i p).mp hpi
    have hdj := (synonym_pos_indices_mem pos j p).mp hpj
    rw [hdi] at hdj
    exact Nat.ne_of_lt hij (Option.some_injective _ hdj)

theorem aw_ws_mem (pos : List Nat) (angle_set : List (List Nat))
    (hlen : angle_set.length = num_synonym) (k v : Nat) :
    ((k, v) ∈ aw_writes ((List.range num_synonym).map
      (synonym_pos_indices pos)) angle_set) ↔
    ∃ i, i < num_synonym ∧ ∃ j, j < (angle_set.getD i []).length ∧
      (synonym_pos_indices pos i).getD j 0 = k ∧
      (angle_set.getD i []).getD j 0 = v := by
  rw [aw_writes_shape pos angle_set hlen]
  constructor
  · intro h
    rcases List.mem_flatMap.mp h with ⟨i, hi, hkv⟩
    rcases List.mem_map.mp hkv with ⟨⟨j1, j2⟩, hja, hje⟩
    have hje1 : (synonym_pos_indices pos i).getD j1 0 = k :=
      congrArg Prod.fst hje
    have hje2 : j2 = v := congrArg Prod.snd hje
    have hja2 := List.mem_enum_iff_getElem?.mp hja
    refine ⟨i, List.mem_range.mp hi, j1, ?_, hje1, ?_⟩
    · exact (List.getElem?_eq_some_iff.mp hja2).1
    · rw [List.getD_eq_getElem?_getD, hja2]
      exact hje2
  · intro ⟨i, hi, j, hj, hk, hv⟩
    apply List.mem_flatMap.mpr
    refine ⟨i, List.mem_range.mpr hi, ?_⟩
    apply List.mem_map.mpr
    refine ⟨(j, (angle_set.getD i []).getD j 0), ?_, ?_⟩
    · apply List.mem_enum_iff_getElem?.mpr
      have : (angle_set.getD i [])[j]? =
          some ((angle_set.getD i []).getD j 0) := by
        rw [← List.get?_eq_getElem?]
        exact get?_some _ j 0 hj
      exact this
    · rw [hk, hv]
  
theorem aw_ws_bound (pos : List Nat) (angle_set : List (List Nat))
    (hlen : angle_set.length = num_synonym)
    (hcnt : ∀ i, i < num_synonym →
      (angle_set.getD i []).length = pos.count i) :
    ∀ w ∈ aw_writes ((List.range num_synonym).map
      (synonym_pos_indices pos)) angle_set, w.1 < pos.length := by
  intro w hw
  have := (aw_ws_mem pos angle_set hlen w.1 w.2).mp (by
    rw [show (w.1, w.2) = w from rfl]
    exact hw)
  rcases this with ⟨i, hi, j, hj, hk, -⟩
  have hjlen : j < (synonym_pos_indices pos i).length := by
    rw [synonym_pos_indices_length, ← hcnt i hi]
    exact hj
  exact synonym_pos_indices_bound pos i w.1
    (hk ▸ getD_lt_mem _ j 0 hjlen)

theorem aw_ws_cover (pos : List Nat) (angle_set : List (List Nat))
    (hlen : angle_set.length = num_synonym)
    (hcls : ∀ d ∈ pos, d < num_synonym)
    (hcnt : ∀ i, i < num_synonym →
      (angle_set.getD i []).length = pos.count i) :
    ∀ k, k < pos.length → ∃ v, ((k, v) ∈ aw_writes ((List.range num_synonym).map
      (synonym_pos_indices pos)) angle_set) ∧
      v ∈ angle_set.getD (pos.getD k 0) [] := by
  intro k hk
  have hd : pos.get? k = some (pos.getD k 0) := get?_some pos k 0 hk
  have hd5 : pos.getD k 0 < num_synonym :=
    hcls _ (getD_lt_mem pos k 0 hk)
  have hkidx : k ∈ synonym_pos_indices pos (pos.getD k 0) :=
    (synonym_pos_indices_mem pos _ k).mpr hd
  rcases List.mem_iff_getElem.mp hkidx with ⟨j, hjlt, hje⟩
  have hjlt2 : j < (angle_set.getD (pos.getD k 0) []).length := by
    rw [hcnt _ hd5, ← synonym_pos_indices_length]
    exact hjlt
  refine ⟨(angle_set.getD (pos.getD k 0) []).getD j 0, ?_, ?_⟩
  · apply (aw_ws_mem pos angle_set hlen _ _).mpr
    refine ⟨pos.getD k 0, hd5, j, hjlt2, ?_, rfl⟩
    rw [List.getD_eq_getElem?_getD, List.getElem?_eq_getElem hjlt]
    exact hje
  · exact getD_lt_mem _ j 0 hjlt2

theorem apply_writes_indep (ws : List (Nat × Nat)) (s s' : List Nat)
    (hlen : s.length = s'.length)
    (hb : ∀ w ∈ ws, w.1 < s.length)
    (hnod : (ws.map Prod.fst).Nodup)
    (hcov : ∀ k, k < s.length → ∃ v, (k, v) ∈ ws) :
    apply_writes s ws = apply_writes s' ws := by
  have hb' : ∀ w ∈ ws, w.1 < s'.length := by
    intro w hw
    rw [← hlen]
    exact hb w hw
  apply List.ext_get?
  intro k
  by_cases hk : k < s.length
  · rcases hcov k hk with ⟨v, hv⟩
    have h1 := apply_writes_getD_written ws s k v hnod hb hv
    have h2 := apply_writes_getD_written ws s' k v hnod hb' hv
    rw [get?_some _ k 0 (by rw [apply_writes_length ws s hb]; exact hk),
      get?_some _ k 0 (by
        rw [apply_writes_length ws s' hb', ← hlen]
        exact hk),
      h1, h2]
  · rw [List.get?_eq_getElem?, List.get?_eq_getElem?,
      List.getElem?_eq_none_iff.mpr (by
        rw [apply_writes_length ws s hb]
        exact Nat.le_of_not_lt hk),
      List.getElem?_eq_none_iff.mpr (by
        rw [apply_writes_length ws s' hb', ← hlen]
        exact Nat.le_of_not_lt hk)]

/-- The direction string an `angle_set` produces (independent of the
carried string, which it fully overwrites). -/
def dir_of (pos : List Nat) (angle_set : List (List Nat)) : List Nat :=
  synonym_angle_write ((List.range num_synonym).map (synonym_pos_indices pos))
    (List.replicate NUM_TILE 0) angle_set

/-- The `angle_set` that writes a given direction string. -/
def angle_set_of (pos dir : List Nat) : List (List Nat) :=
  (List.range num_synonym).map (fun i =>
    (synonym_pos_indices pos i).map (fun k => dir.getD k 0))

theorem dir_of_length (pos : List Nat) (angle_set : List (List Nat))
    (hpos : pos.length = NUM_TILE)
    (hlen : angle_set.length = num_synonym)
    (hcnt : ∀ i, i < num_synonym →
      (angle_set.getD i []).length = pos.count i) :
    (dir_of pos angle_set).length = NUM_TILE := by
  unfold dir_of
  rw [synonym_angle_write_eq, apply_writes_length _ _ (by
    intro w hw
    rw [List.length_replicate, ← hpos]
    exact aw_ws_bound pos angle_set hlen hcnt w hw)]
  exact List.length_replicate _ _

theorem synonym_angle_write_indep (pos : List Nat)
    (angle_set : List (List Nat)) (d0 : List Nat)
    (hpos : pos.length = NUM_TILE) (hd0 : d0.length = NUM_TILE)
    (hcls : ∀ d ∈ pos, d < num_synonym)
    (hlen : angle_set.length = num_synonym)
    (hcnt : ∀ i, i < num_synonym →
      (angle_set.getD i []).length = pos.count i) :
    synonym_angle_write ((List.range num_synonym).map
      (synonym_pos_indices pos)) d0 angle_set = dir_of pos angle_set := by
  unfold dir_of
  rw [synonym_angle_write_eq, synonym_angle_write_eq]
  apply apply_writes_indep
  · rw [hd0, List.length_replicate]
  · intro w hw
    rw [hd0, ← hpos]
    exact aw_ws_bound pos angle_set hlen hcnt w hw
  · exact aw_ws_fst_nodup pos angle_set hlen hcnt
  · intro k hk
    rcases aw_ws_cover pos angle_set hlen hcls hcnt k (by
      rw [hpos, ← hd0]; exact hk) with ⟨v, hv, -⟩
    exact ⟨v, hv⟩

theorem dir_of_getD (pos : List Nat) (angle_set : List (List Nat))
    (hpos : pos.length = NUM_TILE)
    (hcls : ∀ d ∈ pos, d < num_synonym)
    (hlen : angle_set.length = num_synonym)
    (hcnt : ∀ i, i < num_synonym →
      (angle_set.getD i []).length = pos.count i) :
    ∀ k, k < NUM_TILE → ∃ v, (dir_of pos angle_set).getD k 0 = v ∧
      v ∈ angle_set.getD (pos.getD k 0) [] := by
  intro k hk
  rcases aw_ws_cover pos angle_set hlen hcls hcnt k (by rw [hpos]; exact hk)
    with ⟨v, hv, hvm⟩
  refine ⟨v, ?_, hvm⟩
  unfold dir_of
  rw [synonym_angle_write_eq]
  exact apply_writes_getD_written _ _ k v
    (aw_ws_fst_nodup pos angle_set hlen hcnt)
    (by
      intro w hw
      rw [List.length_replicate, ← hpos]
      exact aw_ws_bound pos angle_set hlen hcnt w hw)
    hv

theorem forall₂_replicate_right {α : Type} (l : List α) (L : List α)
    (k : Nat) (hlen : l.length = k) (h : ∀ x ∈ l, x ∈ L) :
    List.Forall₂ (fun a m => a ∈ m) l (List.replicate k L) := by
  induction l generalizing k with
  | nil =>
      cases hlen
      exact List.Forall₂.nil
  | cons x xs ih =>
      cases hlen
      rw [List.length_cons, List.replicate_succ]
      exact List.Forall₂.cons (h x (List.mem_cons_self x xs))
        (ih _ rfl (fun y hy => h y (List.mem_cons_of_mem _ hy)))

theorem forall₂_map_range {α β : Type} (R : α → β → Prop) (n : Nat)
    (f : Nat → α) (g : Nat → β) (h : ∀ i ∈ List.range n, R (f i) (g i)) :
    List.Forall₂ R ((List.range n).map f) ((List.range n).map g) := by
  induction n with
  | zero =>
      rw [List.range_zero, List.map_nil, List.map_nil]
      exact List.Forall₂.nil
  | succ m ih =>
      rw [List.range_succ, List.map_append, List.map_append]
      apply List.rel_append
      · exact ih (fun i hi => h i (by
          rw [List.range_succ]
          exact List.mem_append_left _ hi))
      · exact List.Forall₂.cons (h m (by
          rw [List.range_succ]
          exact List.mem_append_right _ (List.mem_singleton.mpr rfl)))
          List.Forall₂.nil

theorem angle_set_of_mem_product (pos dir : List Nat)
    (hcls : ∀ d ∈ pos, d < num_synonym)
    (hbound : ∀ k, k < pos.length → dir.getD k 0 <
      num_angle_default.getD (pos.getD k 0) 0) :
    angle_set_of pos dir ∈
      list_product ((List.range num_synonym).map (fun i => angles_for pos i)) := by
  apply (mem_list_product_iff _ _).mpr
  unfold angle_set_of
  apply forall₂_map_range
  intro i hi
  unfold angles_for
  apply (mem_list_product_iff _ _).mpr
  apply forall₂_replicate_right
  · rw [List.length_map, synonym_pos_indices_length]
  · intro x hx
    rcases List.mem_map.mp hx with ⟨k, hk, rfl⟩
    have hgk := (synonym_pos_indices_mem pos i k).mp hk
    have hklt : k < pos.length := synonym_pos_indices_bound pos i k hk
    have hcls_k : pos.getD k 0 = i := by
      have := get?_some pos k 0 hklt
      rw [this] at hgk
      exact Option.some_injective _ hgk
    apply List.mem_range.mpr
    have := hbound k hklt
    rw [hcls_k] at this
    exact this

theorem angle_set_of_len (pos dir : List Nat) :
    (angle_set_of pos dir).length = num_synonym := by
  unfold angle_set_of
  rw [List.length_map, List.length_range]

theorem angle_set_of_cnt (pos dir : List Nat) :
    ∀ i, i < num_synonym →
      ((angle_set_of pos dir).getD i []).length = pos.count i := by
  intro i hi
  unfold angle_set_of
  rw [getD_map_range num_synonym i _ _ hi, List.length_map,
    synonym_pos_indices_length]

theorem dir_of_angle_set_of (pos dir : List Nat)
    (hpos : pos.length = NUM_TILE) (hdir : dir.length = NUM_TILE)
    (hcls : ∀ d ∈ pos, d < num_synonym) :
    dir_of pos (angle_set_of pos dir) = dir := by
  have hlen := angle_set_of_len pos dir
  have hcnt := angle_set_of_cnt pos dir
  apply List.ext_get?
  intro k
  by_cases hk : k < NUM_TILE
  · have hwrit : (k, dir.getD k 0) ∈ aw_writes
        ((List.range num_synonym).map (synonym_pos_indices pos))
        (angle_set_of pos dir) := by
      apply (aw_ws_mem pos _ hlen _ _).mpr
      have hd5 : pos.getD k 0 < num_synonym :=
        hcls _ (getD_lt_mem pos k 0 (by rw [hpos]; exact hk))
      have hkidx : k ∈ synonym_pos_indices pos (pos.getD k 0) :=
        (synonym_pos_indices_mem pos _ k).mpr
          (get?_some pos k 0 (by rw [hpos]; exact hk))
      rcases List.mem_iff_getElem.mp hkidx with ⟨j, hjlt, hje⟩
      refine ⟨pos.getD k 0, hd5, j, ?_, ?_, ?_⟩
      · rw [hcnt _ hd5, ← synonym_pos_indices_length]
        exact hjlt
      · rw [List.getD_eq_getElem?_getD, List.getElem?_eq_getElem hjlt]
        exact hje
      · unfold angle_set_of
        rw [getD_map_range num_synonym _ _ _ hd5,
          getD_map_lt _ _ j 0 0 hjlt]
        rw [show (synonym_pos_indices pos (pos.getD k 0)).getD j 0 = k from by
          rw [List.getD_eq_getElem?_getD, List.getElem?_eq_getElem hjlt]
          exact hje]
    have h1 : (dir_of pos (angle_set_of pos dir)).getD k 0 = dir.getD k 0 := by
      unfold dir_of
      rw [synonym_angle_write_eq]
      exact apply_writes_getD_written _ _ k _
        (aw_ws_fst_nodup pos _ hlen hcnt)
        (by
          intro w hw
          rw [List.length_replicate, ← hpos]
          exact aw_ws_bound pos _ hlen hcnt w hw)
        hwrit
    rw [get?_some _ k 0 (by
        rw [dir_of_length pos _ hpos hlen hcnt]
        exact hk),
      get?_some dir k 0 (by rw [hdir]; exact hk), h1]
  · rw [List.get?_eq_getElem?, List.get?_eq_getElem?,
      List.getElem?_eq_none_iff.mpr (by
        rw [dir_of_length pos _ hpos hlen hcnt]
        exact Nat.le_of_not_lt hk),
      List.getElem?_eq_none_iff.mpr (by
        rw [hdir]
        exact Nat.le_of_not_lt hk)]

/-- What one `angle_set` iteration contributes to the yields. -/
def set_emit (pos : List Nat) (s : List (List Nat)) : Option (List Nat) :=
  match Town.make (pos ++ dir_of pos s) Tile.get_synonym with
  | .error _ => none
  | .ok town =>
      if town.has_failed then none
      else
        match Search.first_synonym_town (pos ++ dir_of pos s) with
        | none => none
        | some fs =>
            if pos ++ dir_of pos s = fs then some (pos ++ dir_of pos s)
            else none

theorem block_fold_out (pos : List Nat)
    (hpos : pos.length = NUM_TILE) (hcls : ∀ d ∈ pos, d < num_synonym) :
    ∀ (sets : List (List (List Nat))) (d0 : List Nat),
      d0.length = NUM_TILE →
    ∀ (out0 : List (List Nat)) (res : List Nat × List (List Nat)),
    (∀ s ∈ sets, s.length = num_synonym ∧
        ∀ i, i < num_synonym → (s.getD i []).length = pos.count i) →
    sets.foldlM
      (fun (acc : List Nat × List (List Nat)) angle_set => do
        let dir := synonym_angle_write
          ((List.range num_synonym).map (fun i => synonym_pos_indices pos i))
          acc.1 angle_set
        let pattern := pos ++ dir
        match Town.make pattern Tile.get_synonym with
        | .error _ => none
        | .ok town =>
            if town.has_failed then pure (dir, acc.2)
            else do
              let fs ← Search.first_synonym_town pattern
              if pattern = fs then pure (dir, acc.2 ++ [pattern])
              else pure (dir, acc.2))
      (d0, out0) = some res →
    res.2 = out0 ++ sets.filterMap (fun s => set_emit pos s) := by
  intro sets
  induction sets with
  | nil =>
      intro d0 hd0 out0 res hshape h
      simp only [List.foldlM_nil] at h
      cases h
      rw [List.filterMap_nil, List.append_nil]
  | cons s rest ih =>
      intro d0 hd0 out0 res hshape h
      simp only [List.foldlM_cons, Option.bind_eq_bind] at h
      have hs := hshape s (List.mem_cons_self s rest)
      have hrest := fun x hx => hshape x (List.mem_cons_of_mem _ hx)
      have hdir : synonym_angle_write
          ((List.range num_synonym).map (fun i => synonym_pos_indices pos i))
          d0 s = dir_of pos s :=
        synonym_angle_write_indep pos s d0 hpos hd0 hcls hs.1 hs.2
      rw [List.filterMap_cons]
      rw [hdir] at h
      cases hmk : Town.make (pos ++ dir_of pos s) Tile.get_synonym with
      | error t =>
          rw [hmk] at h
          simp at h
      | ok town =>
          rw [hmk] at h
          dsimp only at h
          split at h
          · rename_i hf
            simp only [Option.pure_def, Option.some_bind] at h
            have hout := ih (dir_of pos s)
              (dir_of_length pos s hpos hs.1 hs.2) out0 res hrest h
            rw [hout]
            have hemit : set_emit pos s = none := by
              unfold set_emit
              rw [hmk]
              dsimp only
              rw [if_pos hf]
            rw [hemit]
          · rename_i hf
            cases hfs : Search.first_synonym_town (pos ++ dir_of pos s) with
            | none =>
                rw [hfs] at h
                simp at h
            | some fs =>
                rw [hfs] at h
                simp only [Option.pure_def, Option.bind_eq_bind,
                  Option.some_bind] at h
                split at h
                · rename_i heq
                  simp only [Option.pure_def, Option.some_bind] at h
                  have hout := ih (dir_of pos s)
                    (dir_of_length pos s hpos hs.1 hs.2)
                    (out0 ++ [pos ++ dir_of pos s]) res hrest h
                  rw [hout]
                  have hemit : set_emit pos s = some (pos ++ dir_of pos s) := by
                    unfold set_emit
                    rw [hmk]
                    dsimp only
                    rw [if_neg hf, hfs]
                    dsimp only
                    rw [if_pos heq]
                  rw [hemit, List.append_assoc]
                  rfl
                · rename_i heq
                  simp only [Option.pure_def, Option.some_bind] at h
                  have hout := ih (dir_of pos s)
                    (dir_of_length pos s hpos hs.1 hs.2) out0 res hrest h
                  rw [hout]
                  have hemit : set_emit pos s = none := by
                    unfold set_emit
                    rw [hmk]
                    dsimp only
                    rw [if_neg hf, hfs]
                    dsimp only
                    rw [if_neg heq]
                  rw [hemit]

theorem product_set_shape (pos : List Nat) (s : List (List Nat))
    (hs : s ∈ list_product ((List.range num_synonym).map
      (fun i => angles_for pos i))) :
    s.length = num_synonym ∧
    (∀ i, i < num_synonym → (s.getD i []).length = pos.count i) ∧
    (∀ i, i < num_synonym → ∀ v ∈ s.getD i [],
      v < num_angle_default.getD i 0) := by
  have hf2 := list_product_mem _ _ hs
  have hlen : s.length = num_synonym := by
    have := hf2.length_eq
    rw [List.length_map, List.length_range] at this
    exact this
  have hsub : ∀ i, i < num_synonym → s.getD i [] ∈ angles_for pos i := by
    intro i hi
    have := forall₂_getD hf2 i (by rw [hlen]; exact hi) [] []
    rw [getD_map_range num_synonym i _ _ hi] at this
    exact this
  refine ⟨hlen, ?_, ?_⟩
  · intro i hi
    have hmem := hsub i hi
    unfold angles_for at hmem
    have hf3 := list_product_mem _ _ hmem
    have := hf3.length_eq
    rw [List.length_replicate] at this
    exact this
  · intro i hi v hv
    have hmem := hsub i hi
    unfold angles_for at hmem
    have hf3 := list_product_mem _ _ hmem
    rcases forall₂_mem_left hf3 v hv with ⟨L, hL, hvL⟩
    rw [List.eq_of_mem_replicate hL] at hvL
    exact List.mem_range.mp hvL

theorem yields_for_pos_mem (pos : List Nat)
    (hpos : pos.length = NUM_TILE) (hcls : ∀ d ∈ pos, d < num_synonym)
    (ys : List (List Nat)) (hys : yields_for_pos pos = some ys)
    (Q : List Nat) :
    Q ∈ ys ↔ under_num_tiles pos = true ∧ ∃ dir, Q = pos ++ dir ∧
      dir.length = NUM_TILE ∧
      (∀ k, k < NUM_TILE → dir.getD k 0 <
        num_angle_default.getD (pos.getD k 0) 0) ∧
      synonym_accepted Q = true ∧
      Search.first_synonym_town Q = some Q := by
  unfold yields_for_pos at hys
  by_cases hu : under_num_tiles pos
  · rw [if_pos hu] at hys
    cases hres : (list_product ((List.range num_synonym).map
        (fun i => angles_for pos i))).foldlM
        (fun (acc : List Nat × List (List Nat)) angle_set => do
          let dir := synonym_angle_write
            ((List.range num_synonym).map (fun i => synonym_pos_indices pos i))
            acc.1 angle_set
          let pattern := pos ++ dir
          match Town.make pattern Tile.get_synonym with
          | .error _ => none
          | .ok town =>
              if town.has_failed then pure (dir, acc.2)
              else do
                let fs ← Search.first_synonym_town pattern
                if pattern = fs then pure (dir, acc.2 ++ [pattern])
                else pure (dir, acc.2))
        (List.replicate NUM_TILE 0, []) with
    | none =>
        rw [hres] at hys
        simp at hys
    | some res =>
        rw [hres] at hys
        simp only [Option.map_some', Option.some.injEq] at hys
        have hout := block_fold_out pos hpos hcls _ _
          (List.length_replicate _ _) [] res
          (fun s hsp => ⟨(product_set_shape pos s hsp).1,
            (product_set_shape pos s hsp).2.1⟩) hres
        rw [← hys, hout, List.nil_append]
        rw [List.mem_filterMap]
        constructor
        · intro ⟨s, hsp, hemit⟩
          rcases product_set_shape pos s hsp with ⟨hsl, hsc, hsb⟩
          unfold set_emit at hemit
          cases hmk : Town.make (pos ++ dir_of pos s) Tile.get_synonym with
          | error t => rw [hmk] at hemit; cases hemit
          | ok town =>
              rw [hmk] at hemit
              dsimp only at hemit
              split at hemit
              · cases hemit
              · rename_i hf
                cases hfs : Search.first_synonym_town (pos ++ dir_of pos s) with
                | none => rw [hfs] at hemit; cases hemit
                | some fs =>
                    rw [hfs] at hemit
                    dsimp only at hemit
                    split at hemit
                    · rename_i heq
                      have hQ := Option.some_injective _ hemit
                      subst hQ
                      refine ⟨hu, dir_of pos s, rfl,
                        dir_of_length pos s hpos hsl hsc, ?_, ?_, ?_⟩
                      · intro k hk
                        rcases dir_of_getD pos s hpos hcls hsl hsc k hk
                          with ⟨v, hveq, hvm⟩
                        rw [hveq]
                        have hd5 : pos.getD k 0 < num_synonym :=
                          hcls _ (getD_lt_mem pos k 0 (by rw [hpos]; exact hk))
                        exact hsb _ hd5 v hvm
                      · unfold synonym_accepted
                        rw [hmk]
                        dsimp only
                        have hf2 : town.has_failed = false := by
                          cases hfb : town.has_failed
                          · rfl
                          · exact absurd hfb hf
                        rw [hf2]
                        rfl
                      · rw [hfs, heq]
                    · cases hemit
        · intro ⟨hu2, dir, hQ, hdlen, hdb, hacc, hfirst⟩
          subst hQ
          refine ⟨angle_set_of pos dir, angle_set_of_mem_product pos dir hcls
            (fun k hk => by
              rw [hpos] at hk
              exact hdb k hk), ?_⟩
          unfold set_emit
          rw [dir_of_angle_set_of pos dir hpos hdlen hcls]
          unfold synonym_accepted at hacc
          cases hmk : Town.make (pos ++ dir) Tile.get_synonym with
          | error t =>
              rw [hmk] at hacc
              dsimp only at hacc
              cases hacc
          | ok town =>
              rw [hmk] at hacc
              dsimp only at hacc
              dsimp only
              have hf : town.has_failed = false := by
                cases hfb : town.has_failed
                · rfl
                · rw [hfb] at hacc
                  simp at hacc
              rw [if_neg (by rw [hf]; simp), hfirst]
              dsimp only
              rw [if_pos rfl]
  · rw [if_neg hu] at hys
    have : ys = [] := (Option.some_injective _ hys).symm
    subst this
    simp only [List.not_mem_nil, false_iff]
    intro hcontra
    exact hu hcontra.1

theorem getD_take_lt {α : Type} (l : List α) (n k : Nat) (d : α)
    (h : k < n) : (l.take n).getD k d = l.getD k d := by
  rw [List.getD_eq_getElem?_getD, List.getD_eq_getElem?_getD,
    List.getElem?_take, if_pos h]

theorem take_of_append_nine (pos dir : List Nat)
    (hpos : pos.length = NUM_TILE) :
    (pos ++ dir).take NUM_TILE = pos := by
  rw [List.take_append_of_le_length (by rw [hpos]),
    List.take_of_length_le (by rw [hpos])]

theorem search_fold_out :
    ∀ (posl : List (List Nat)) (out0 ys : List (List Nat)),
    posl.foldlM (fun out pos =>
      (yields_for_pos pos).map (fun bys => out ++ bys)) out0 = some ys →
    ∀ Q, Q ∈ ys ↔ Q ∈ out0 ∨ ∃ pos ∈ posl, ∃ bys,
      yields_for_pos pos = some bys ∧ Q ∈ bys := by
  intro posl
  induction posl with
  | nil =>
      intro out0 ys h Q
      simp only [List.foldlM_nil] at h
      cases h
      simp
  | cons pos rest ih =>
      intro out0 ys h Q
      simp only [List.foldlM_cons, Option.bind_eq_bind] at h
      cases hb : yields_for_pos pos with
      | none =>
          rw [hb] at h
          simp at h
      | some bys =>
          rw [hb] at h
          simp only [Option.map_some', Option.some_bind] at h
          rw [ih (out0 ++ bys) ys h Q]
          constructor
          · intro hc
            rcases hc with hmem | ⟨p2, hp2, bys2, hb2, hQ2⟩
            · rcases List.mem_append.mp hmem with h0 | hin
              · exact Or.inl h0
              · exact Or.inr ⟨pos, List.mem_cons_self _ _, bys, hb, hin⟩
            · exact Or.inr ⟨p2, List.mem_cons_of_mem _ hp2, bys2, hb2, hQ2⟩
          · intro hc
            rcases hc with h0 | ⟨p2, hp2, bys2, hb2, hQ2⟩
            · exact Or.inl (List.mem_append_left _ h0)
            · rcases List.mem_cons.mp hp2 with rfl | hp2r
              · refine Or.inl (List.mem_append_right _ ?_)
                rw [hb] at hb2
                cases hb2
                exact hQ2
              · exact Or.inr ⟨p2, hp2r, bys2, hb2, hQ2⟩

theorem mem_pos_product (pos : List Nat) :
    pos ∈ list_product (List.replicate NUM_TILE (List.range num_synonym)) ↔
    pos.length = NUM_TILE ∧ ∀ d ∈ pos, d < num_synonym := by
  rw [mem_list_product_iff]
  constructor
  · intro h
    constructor
    · have := h.length_eq
      rw [List.length_replicate] at this
      exact this
    · intro d hd
      rcases forall₂_mem_left h d hd with ⟨L, hL, hdL⟩
      rw [List.eq_of_mem_replicate hL] at hdL
      exact List.mem_range.mp hdL
  · intro ⟨h1, h2⟩
    exact forall₂_replicate_right pos _ _ h1
      (fun x hx => List.mem_range.mpr (h2 x hx))

theorem search_synonym_mem (P : List Nat)
    (hlen : P.length = NUM_TILE * 2)
    (hcls : ∀ k ∈ List.range NUM_TILE, P.getD k 0 < num_synonym)
    (ys : List (List Nat)) (hys : Search.search_synonym = some ys) :
    P ∈ ys ↔ synonym_search_yields P := by
  have hlen18 : P.length = 18 := hlen
  unfold Search.search_synonym at hys
  have hchar := search_fold_out _ [] ys hys P
  have htake_len : (P.take NUM_TILE).length = NUM_TILE := by
    rw [List.length_take, hlen18]
    decide
  have htake_cls : ∀ d ∈ P.take NUM_TILE, d < num_synonym := by
    intro d hd
    rcases List.mem_iff_getElem.mp hd with ⟨k, hk, rfl⟩
    have hk9 : k < NUM_TILE := by
      rw [htake_len] at hk
      exact hk
    have : (P.take NUM_TILE)[k] = (P.take NUM_TILE).getD k 0 := by
      rw [List.getD_eq_getElem?_getD, List.getElem?_eq_getElem hk]
      rfl
    rw [this, getD_take_lt P NUM_TILE k 0 hk9]
    exact hcls k (List.mem_range.mpr hk9)
  rw [hchar]
  constructor
  · intro hc
    rcases hc with h0 | ⟨pos, hpp, bys, hb, hQ⟩
    · cases h0
    · rcases (mem_pos_product pos).mp hpp with ⟨hpl, hpc⟩
      have hchar2 := (yields_for_pos_mem pos hpl hpc bys hb P).mp hQ
      rcases hchar2 with ⟨-, dir, hPd, -, -, -, -⟩
      have hpt : P.take NUM_TILE = pos := by
        rw [hPd, take_of_append_nine pos dir hpl]
      exact ⟨bys, by rw [hpt]; exact hb, hQ⟩
  · intro ⟨bys, hb, hQ⟩
    refine Or.inr ⟨P.take NUM_TILE, (mem_pos_product _).mpr
      ⟨htake_len, htake_cls⟩, bys, hb, hQ⟩

theorem num_angle_le_4 (c : Nat) : num_angle_default.getD c 0 ≤ 4 := by
  match c with
  | 0 => decide
  | 1 => decide
  | 2 => decide
  | 3 => decide
  | 4 => decide
  | n + 5 =>
      rw [List.getD_eq_default]
      · decide
      · show 5 ≤ n + 5
        omega

theorem pattern_digits_lt_10 (X : List Nat)
    (hlen : X.length = NUM_TILE * 2)
    (hcls : ∀ k ∈ List.range NUM_TILE, X.getD k 0 < num_synonym)
    (hdir : ∀ k ∈ List.range NUM_TILE, X.getD (k + NUM_TILE) 0 <
      num_angle_default.getD (X.getD k 0) 0) :
    ∀ d ∈ X, d < 10 := by
  have hlen18 : X.length = 18 := hlen
  intro d hd
  rcases List.mem_iff_getElem.mp hd with ⟨k, hk, rfl⟩
  have hgd : X[k] = X.getD k 0 := by
    rw [List.getD_eq_getElem?_getD, List.getElem?_eq_getElem hk]
    rfl
  rw [hgd]
  rw [hlen18] at hk
  by_cases hk9 : k < 9
  · have := hcls k (List.mem_range.mpr hk9)
    have h5 : (num_synonym : Nat) = 5 := rfl
    omega
  · have hk' : k = (k - 9) + NUM_TILE := by
      have h9 : (NUM_TILE : Nat) = 9 := rfl
      omega
    rw [hk']
    have hlt := hdir (k - 9) (List.mem_range.mpr (by
      have h9 : (NUM_TILE : Nat) = 9 := rfl
      omega))
    have hle := num_angle_le_4 (X.getD (k - 9) 0)
    omega

theorem under_num_tiles_rot (P : List Nat) (a : Nat) (ha : a < 4)
    (hlen : P.length = NUM_TILE * 2) :
    under_num_tiles ((rot_pattern P a).take NUM_TILE) =
      under_num_tiles (P.take NUM_TILE) := by
  unfold under_num_tiles
  have hfun : (fun i => decide (((rot_pattern P a).take NUM_TILE).count i ≤
      num_tiles_default.getD i 0)) =
      (fun i => decide ((P.take NUM_TILE).count i ≤
      num_tiles_default.getD i 0)) :=
    funext (fun i => by rw [rot_pattern_count P a ha hlen i])
  rw [hfun]

theorem take_nine_valid (X : List Nat) (hlen : X.length = NUM_TILE * 2)
    (hcls : ∀ k ∈ List.range NUM_TILE, X.getD k 0 < num_synonym) :
    (X.take NUM_TILE).length = NUM_TILE ∧
    ∀ d ∈ X.take NUM_TILE, d < num_synonym := by
  have hlen18 : X.length = 18 := hlen
  constructor
  · rw [List.length_take, hlen18]
    decide
  · intro d hd
    rcases List.mem_iff_getElem.mp hd with ⟨k, hk, rfl⟩
    have hk9 : k < NUM_TILE := by
      have := hk
      rw [List.length_take, hlen18] at this
      have h9 : (NUM_TILE : Nat) = 9 := rfl
      omega
    have : (X.take NUM_TILE)[k] = (X.take NUM_TILE).getD k 0 := by
      rw [List.getD_eq_getElem?_getD, List.getElem?_eq_getElem hk]
      rfl
    rw [this, getD_take_lt X NUM_TILE k 0 hk9]
    exact hcls k (List.mem_range.mpr hk9)

theorem yields_of_canonical (X : List Nat)
    (hlen : X.length = NUM_TILE * 2)
    (hcls : ∀ k ∈ List.range NUM_TILE, X.getD k 0 < num_synonym)
    (hdir : ∀ k ∈ List.range NUM_TILE, X.getD (k + NUM_TILE) 0 <
      num_angle_default.getD (X.getD k 0) 0)
    (hcount : under_num_tiles (X.take NUM_TILE) = true)
    (hacc : synonym_accepted X = true)
    (hfirst : Search.first_synonym_town X = some X)
    (hok : (yields_for_pos (X.take NUM_TILE)).isSome = true) :
    synonym_search_yields X := by
  obtain ⟨bys, hb⟩ := Option.isSome_iff_exists.mp hok
  refine ⟨bys, hb, ?_⟩
  have hlen18 : X.length = 18 := hlen
  obtain ⟨htl, htc⟩ := take_nine_valid X hlen hcls
  apply (yields_for_pos_mem (X.take NUM_TILE) htl htc bys hb X).mpr
  refine ⟨hcount, X.drop NUM_TILE, (List.take_append_drop _ _).symm, ?_, ?_,
    hacc, hfirst⟩
  · rw [List.length_drop, hlen18]
    decide
  · intro k hk
    rw [getD_drop, getD_take_lt X NUM_TILE k 0 hk]
    have := hdir k (List.mem_range.mpr hk)
    rw [Nat.add_comm k NUM_TILE] at this
    exact this

theorem canonical_of_yields (X : List Nat)
    (hlen : X.length = NUM_TILE * 2)
    (hcls : ∀ k ∈ List.range NUM_TILE, X.getD k 0 < num_synonym)
    (h : synonym_search_yields X) :
    synonym_accepted X = true ∧ Search.first_synonym_town X = some X := by
  obtain ⟨bys, hb, hm⟩ := h
  obtain ⟨htl, htc⟩ := take_nine_valid X hlen hcls
  have := (yields_for_pos_mem (X.take NUM_TILE) htl htc bys hb X).mp hm
  rcases this with ⟨-, dir, -, -, -, hacc, hfirst⟩
  exact ⟨hacc, hfirst⟩

/-- C6: For every valid synonym pattern `P` (18 digits, classes `< 5`,
directions within each class's angle range, tile-count limits satisfied)
whose four whole-board rotations are all accepted by `Town.make` and
whose canonical rotation's position block runs without crashing,
`search_synonym` yields `P` if and only if `first_synonym_town P = some P`,
i.e. `P` equals the numerically smallest of its four rotations; moreover
exactly one of the four rotations of `P` is yielded; and membership in
the full generator output agrees with the per-block yield predicate. -/
theorem search_synonym_canonical (P : List Nat)
    (hlen : P.length = NUM_TILE * 2)
    (hcls : ∀ k ∈ List.range NUM_TILE, P.getD k 0 < num_synonym)
    (hdir : ∀ k ∈ List.range NUM_TILE, P.getD (k + NUM_TILE) 0 <
      num_angle_default.getD (P.getD k 0) 0)
    (hcount : under_num_tiles (P.take NUM_TILE) = true)
    (hacc : ∀ a ∈ List.range 4,
      ((Search.rotate_synonym_town P a).map synonym_accepted).getD false = true)
    (hok : ((Search.first_synonym_town P).map
      (fun fs => (yields_for_pos (fs.take NUM_TILE)).isSome)).getD false
        = true) :
    (synonym_search_yields P ↔ Search.first_synonym_town P = some P) ∧
    (∃ a, a < 4 ∧ ∃ Q, Search.rotate_synonym_town P a = some Q ∧
      synonym_search_yields Q ∧
      ∀ b, b < 4 → ∀ Q', Search.rotate_synonym_town P b = some Q' →
        synonym_search_yields Q' → Q' = Q) ∧
    (∀ ys, Search.search_synonym = some ys →
      (P ∈ ys ↔ synonym_search_yields P)) := by
  obtain ⟨a0, ha0, hmin⟩ := minVals_choice P
  have hlenM := rot_pattern_length P a0 ha0
  have hclsM := rot_pattern_valid_cls P a0 ha0 hcls
  have hdirM := rot_pattern_valid_dir P a0 ha0 hcls hdir
  have hMd10 := pattern_digits_lt_10 (rot_pattern P a0) hlenM hclsM hdirM
  have hfsM : zfill (NUM_TILE * 2) (nat_to_digits (minVals P)) =
      rot_pattern P a0 := by
    rw [← hmin, ← hlenM]
    exact zfill_digits_roundtrip (rot_pattern P a0) hMd10
  have hokM : (yields_for_pos ((rot_pattern P a0).take NUM_TILE)).isSome
      = true := by
    rw [first_synonym_town_spec P hlen hcls hdir] at hok
    simp only [Option.map_some', Option.getD_some] at hok
    rw [hfsM] at hok
    exact hok
  have haccM : synonym_accepted (rot_pattern P a0) = true := by
    have := hacc a0 (List.mem_range.mpr ha0)
    rw [rotate_synonym_town_spec P a0 ha0 hlen hcls hdir] at this
    simp only [Option.map_some', Option.getD_some] at this
    exact this
  have hcountM : under_num_tiles ((rot_pattern P a0).take NUM_TILE)
      = true := by
    rw [under_num_tiles_rot P a0 ha0 hlen]
    exact hcount
  have hfirstM : Search.first_synonym_town (rot_pattern P a0) =
      some (rot_pattern P a0) := by
    rw [first_synonym_town_spec (rot_pattern P a0) hlenM hclsM hdirM,
      minVals_rot P a0 ha0 hcls, hfsM]
  have hyieldsM : synonym_search_yields (rot_pattern P a0) :=
    yields_of_canonical (rot_pattern P a0) hlenM hclsM hdirM hcountM haccM
      hfirstM hokM
  have huniq : ∀ b, b < 4 → ∀ Q', Search.rotate_synonym_town P b = some Q' →
      synonym_search_yields Q' → Q' = rot_pattern P a0 := by
    intro b hb Q' hQ' hy
    rw [rotate_synonym_town_spec P b hb hlen hcls hdir] at hQ'
    have hQeq : Q' = rot_pattern P b := (Option.some.inj hQ').symm
    subst hQeq
    have hlenb := rot_pattern_length P b hb
    have hclsb := rot_pattern_valid_cls P b hb hcls
    have hdirb := rot_pattern_valid_dir P b hb hcls hdir
    have hfirst := (canonical_of_yields (rot_pattern P b) hlenb hclsb hy).2
    rw [first_synonym_town_spec (rot_pattern P b) hlenb hclsb hdirb,
      minVals_rot P b hb hcls, hfsM] at hfirst
    exact (Option.some.inj hfirst).symm
  refine ⟨?_, ⟨a0, ha0, rot_pattern P a0,
    rotate_synonym_town_spec P a0 ha0 hlen hcls hdir, hyieldsM, huniq⟩,
    fun ys hys => search_synonym_mem P hlen hcls ys hys⟩
  constructor
  · intro hy
    exact (canonical_of_yields P hlen hcls hy).2
  · intro hfP
    have hrot0 : Search.rotate_synonym_town P 0 = some P := rfl
    have haccP : synonym_accepted P = true := by
      have := hacc 0 (by decide)
      rw [hrot0] at this
      simp only [Option.map_some', Option.getD_some] at this
      exact this
    have hPM : P = rot_pattern P a0 := by
      have := first_synonym_town_spec P hlen hcls hdir
      rw [hfP] at this
      exact (Option.some.inj this).trans hfsM
    refine yields_of_canonical P hlen hcls hdir hcount haccP hfP ?_
    rw [← hPM] at hokM
    exact hokM

/-- A concrete valid synonym pattern used to instantiate
`search_synonym_canonical`: it is accepted, equals its own canonical
rotation, and all six hypotheses of the theorem hold by evaluation. -/
def c6_pattern : List Nat :=
  [0, 3, 3, 3, 2, 4, 3, 4, 4, 0, 0, 0, 1, 0, 0, 1, 0, 0]

set_option maxRecDepth 4000 in
theorem search_synonym_canonical_witness :
    (synonym_search_yields c6_pattern ↔
      Search.first_synonym_town c6_pattern = some c6_pattern) ∧
    (∃ a, a < 4 ∧ ∃ Q, Search.rotate_synonym_town c6_pattern a = some Q ∧
      synonym_search_yields Q ∧
      ∀ b, b < 4 → ∀ Q', Search.rotate_synonym_town c6_pattern b = some Q' →
        synonym_search_yields Q' → Q' = Q) ∧
    (∀ ys, Search.search_synonym = some ys →
      (c6_pattern ∈ ys ↔ synonym_search_yields c6_pattern)) :=
  search_synonym_canonical c6_pattern (by decide) (by decide) (by decide)
    (by decide) (by decide) (by decide)

end NTP
